import Mathlib

/-!
# Imath: polynomial root solvers (ImathRoots.h) and vector lengths (ImathVec.h)

A shallow embedding of `solveLinear`, `solveQuadratic`, `solveNormalizedCubic`
and `solveCubic`, and of the length and normalization members of `Vec2`, `Vec3`
and `Vec4`.

* The scalar type `T` of the C++ templates is a linearly ordered field `K`
  (exact arithmetic); the solvers are computable and can be evaluated on `ℚ`,
  and every theorem about them holds in particular for `K = ℝ`.
* An output parameter is threaded through: each solver takes the caller's
  value of `x` and returns the pair `(count, x after the call)`.  The root
  array `T x[]` decays to a pointer in C++, so it is a map `Nat → K` from slot
  index to value and a store `x[i] = e` is `Function.update x i e`.
* `std::sqrt`, the complex `sqrt` and the complex `pow` come from the C++
  standard library; they are parameters of the solvers that call them, and the
  theorems state what they need from them at the argument where they are called.
  `realCsqrt` and `realCpow` are the principal values over `ℝ`, which meet these
  requirements at every argument.
* The constant `sqrt3` of `solveNormalizedCubic` is a parameter as well; the
  source gives it the decimal value `sqrt3Literal`.
* Division is the total division of the field (`e / 0 = 0`); wherever a quotient
  matters the theorems also state that its divisor is not zero.
* A vector is a structure of its components.  A mutating member returns the value
  of `*this` after the call; a member that can throw returns `Except`, with the
  message of the `std::domain_error`.  `limits<T>::smallest ()` and
  `limits<T>::max ()` are declared in ImathLimits.h and are the parameters
  `smallest` and `baseTypeMax`.
* The scalar `equalWithAbsError` and `equalWithRelError` that the vector members
  of the same name call are defined in ImathMath.h; they are modelled from the
  specification.
-/

namespace Imath

variable {K : Type} [LinearOrderedField K]

/-! ## solveLinear -/

/-- Embedding of `solveLinear (T a, T b, T& x)`: the returned pair is the
`int` result and the value of `x` after the call. -/
def solveLinear (a b x : K) : Int × K :=
  if a ≠ 0 then
    (1, -b / a)
  else if b ≠ 0 then
    (0, x)
  else
    (-1, x)

/-! ## solveQuadratic -/

/-- Embedding of `solveQuadratic (T a, T b, T c, T x[2])`.  `sqrt` stands for
`std::sqrt` on `T`. -/
def solveQuadratic (sqrt : K → K) (a b c : K) (x : Nat → K) : Int × (Nat → K) :=
  if a = 0 then
    ((solveLinear b c (x 0)).1, Function.update x 0 (solveLinear b c (x 0)).2)
  else
    let D := b * b - 4 * a * c
    if D > 0 then
      let s := sqrt D
      let q := -(b + (if b > 0 then 1 else -1) * s) / 2
      (2, Function.update (Function.update x 0 (q / a)) 1 (c / q))
    else if D = 0 then
      (1, Function.update x 0 (-b / (2 * a)))
    else
      (0, x)

/-- Local `q` of the two-root branch of `solveQuadratic`, with `s = sqrt D`. -/
def quadraticQ (sqrt : K → K) (a b c : K) : K :=
  -(b + (if b > 0 then 1 else -1) * sqrt (b * b - 4 * a * c)) / 2

/-! ## Complex numbers over `K` (the part of `std::complex<T>` the cubic solver uses) -/

/-- Counterpart of `std::complex<T>`: a real and an imaginary part. -/
@[ext]
structure Cx (K : Type) where
  re : K
  im : K
  deriving DecidableEq

namespace Cx

/-- Constructor `complex<T> (d)`: imaginary part zero. -/
def ofReal (d : K) : Cx K := ⟨d, 0⟩

instance : Add (Cx K) := ⟨fun z w => ⟨z.re + w.re, z.im + w.im⟩⟩
instance : Sub (Cx K) := ⟨fun z w => ⟨z.re - w.re, z.im - w.im⟩⟩
instance : Neg (Cx K) := ⟨fun z => ⟨-z.re, -z.im⟩⟩
instance : Mul (Cx K) :=
  ⟨fun z w => ⟨z.re * w.re - z.im * w.im, z.re * w.im + z.im * w.re⟩⟩
instance : Div (Cx K) :=
  ⟨fun z w => ⟨(z.re * w.re + z.im * w.im) / (w.re * w.re + w.im * w.im),
    (z.im * w.re - z.re * w.im) / (w.re * w.re + w.im * w.im)⟩⟩

instance : Zero (Cx K) := ⟨⟨0, 0⟩⟩
instance : One (Cx K) := ⟨⟨1, 0⟩⟩

/-- The operations of `std::complex<T>` in exact arithmetic make a commutative ring. -/
instance : CommRing (Cx K) where
  add_assoc a b c := Cx.ext (add_assoc a.re b.re c.re) (add_assoc a.im b.im c.im)
  zero_add a := Cx.ext (zero_add a.re) (zero_add a.im)
  add_zero a := Cx.ext (add_zero a.re) (add_zero a.im)
  add_comm a b := Cx.ext (add_comm a.re b.re) (add_comm a.im b.im)
  nsmul := nsmulRec
  zsmul := zsmulRec
  sub_eq_add_neg a b := Cx.ext (sub_eq_add_neg a.re b.re) (sub_eq_add_neg a.im b.im)
  neg_add_cancel a := Cx.ext (neg_add_cancel a.re) (neg_add_cancel a.im)
  left_distrib a b c := Cx.ext
    (show a.re * (b.re + c.re) - a.im * (b.im + c.im) =
      a.re * b.re - a.im * b.im + (a.re * c.re - a.im * c.im) by ring)
    (show a.re * (b.im + c.im) + a.im * (b.re + c.re) =
      a.re * b.im + a.im * b.re + (a.re * c.im + a.im * c.re) by ring)
  right_distrib a b c := Cx.ext
    (show (a.re + b.re) * c.re - (a.im + b.im) * c.im =
      a.re * c.re - a.im * c.im + (b.re * c.re - b.im * c.im) by ring)
    (show (a.re + b.re) * c.im + (a.im + b.im) * c.re =
      a.re * c.im + a.im * c.re + (b.re * c.im + b.im * c.re) by ring)
  zero_mul a := Cx.ext (show 0 * a.re - 0 * a.im = 0 by ring)
    (show 0 * a.im + 0 * a.re = 0 by ring)
  mul_zero a := Cx.ext (show a.re * 0 - a.im * 0 = 0 by ring)
    (show a.re * 0 + a.im * 0 = 0 by ring)
  mul_assoc a b c := Cx.ext
    (show (a.re * b.re - a.im * b.im) * c.re - (a.re * b.im + a.im * b.re) * c.im =
      a.re * (b.re * c.re - b.im * c.im) - a.im * (b.re * c.im + b.im * c.re) by ring)
    (show (a.re * b.re - a.im * b.im) * c.im + (a.re * b.im + a.im * b.re) * c.re =
      a.re * (b.re * c.im + b.im * c.re) + a.im * (b.re * c.re - b.im * c.im) by ring)
  one_mul a := Cx.ext (show 1 * a.re - 0 * a.im = a.re by ring)
    (show 1 * a.im + 0 * a.re = a.im by ring)
  mul_one a := Cx.ext (show a.re * 1 - a.im * 0 = a.re by ring)
    (show a.re * 0 + a.im * 1 = a.im by ring)
  mul_comm a b := Cx.ext (show a.re * b.re - a.im * b.im = b.re * a.re - b.im * a.im by ring)
    (show a.re * b.im + a.im * b.re = b.re * a.im + b.im * a.re by ring)

/-- Mixed operator `T + complex<T>`. -/
def addScalar (d : K) (z : Cx K) : Cx K := ⟨d + z.re, z.im⟩

/-- Mixed operator `T * complex<T>`. -/
def scalarMul (d : K) (z : Cx K) : Cx K := ⟨d * z.re, d * z.im⟩

/-- Mixed operator `T / complex<T>`: the scalar is converted to a complex
number and divided. -/
def scalarDiv (d : K) (z : Cx K) : Cx K := ofReal d / z

/-- Mixed operator `complex<T> / T`. -/
def divScalar (z : Cx K) (d : K) : Cx K := ⟨z.re / d, z.im / d⟩

end Cx

/-! ## solveNormalizedCubic and solveCubic -/

/-- Local `p` of `solveNormalizedCubic`. -/
def cubicP (r s : K) : K := (3 * s - r * r) / 3

/-- Local `q` of `solveNormalizedCubic`. -/
def cubicQ (r s t : K) : K := 2 * r * r * r / 27 - r * s / 3 + t

/-- Local `D` of `solveNormalizedCubic`, from `p3 = p / 3` and `q2 = q / 2`. -/
def cubicD (r s t : K) : K :=
  let p3 := cubicP r s / 3
  let q2 := cubicQ r s t / 2
  p3 * p3 * p3 + q2 * q2

/-- Local `u` of `solveNormalizedCubic`: `pow (-q / 2 + sqrt (complex<T> (D)), T (1) / T (3))`,
with `csqrt` for the complex `sqrt` and `cpow` for the complex `pow`. -/
def cubicU (csqrt : Cx K → Cx K) (cpow : Cx K → K → Cx K) (r s t : K) : Cx K :=
  cpow (Cx.addScalar (-cubicQ r s t / 2) (csqrt (Cx.ofReal (cubicD r s t)))) (1 / 3)

/-- Local `v` of `solveNormalizedCubic`: `-p / (T (3) * u)`. -/
def cubicV (csqrt : Cx K → Cx K) (cpow : Cx K → K → Cx K) (r s t : K) : Cx K :=
  Cx.scalarDiv (-cubicP r s) (Cx.scalarMul 3 (cubicU csqrt cpow r s t))

/-- Local `y0` of `solveNormalizedCubic`: `u + v`. -/
def cubicY0 (csqrt : Cx K → Cx K) (cpow : Cx K → K → Cx K) (r s t : K) : Cx K :=
  cubicU csqrt cpow r s t + cubicV csqrt cpow r s t

/-- Local `y1` of `solveNormalizedCubic`:
`-(u + v) / T (2) + (u - v) / T (2) * complex<T> (0, sqrt3)`. -/
def cubicY1 (sqrt3 : K) (csqrt : Cx K → Cx K) (cpow : Cx K → K → Cx K) (r s t : K) : Cx K :=
  Cx.divScalar (-(cubicU csqrt cpow r s t + cubicV csqrt cpow r s t)) 2 +
    Cx.divScalar (cubicU csqrt cpow r s t - cubicV csqrt cpow r s t) 2 * ⟨0, sqrt3⟩

/-- Local `y2` of `solveNormalizedCubic`:
`-(u + v) / T (2) - (u - v) / T (2) * complex<T> (0, sqrt3)`. -/
def cubicY2 (sqrt3 : K) (csqrt : Cx K → Cx K) (cpow : Cx K → K → Cx K) (r s t : K) : Cx K :=
  Cx.divScalar (-(cubicU csqrt cpow r s t + cubicV csqrt cpow r s t)) 2 -
    Cx.divScalar (cubicU csqrt cpow r s t - cubicV csqrt cpow r s t) 2 * ⟨0, sqrt3⟩

/-- The decimal literal the source assigns to its constant `sqrt3`. -/
def sqrt3Literal : K := 173205080756887729352744634150587 / 100000000000000000000000000000000

/-- Embedding of `solveNormalizedCubic (T r, T s, T t, T x[3])`.  The constant
`sqrt3` of the source (`sqrt3Literal`) is a parameter, as are the complex
`sqrt` and `pow` of the standard library. -/
def solveNormalizedCubic (sqrt3 : K) (csqrt : Cx K → Cx K) (cpow : Cx K → K → Cx K)
    (r s t : K) (x : Nat → K) : Int × (Nat → K) :=
  let p3 := cubicP r s / 3
  let D := cubicD r s t
  if D = 0 ∧ p3 = 0 then
    (1, Function.update (Function.update (Function.update x 0 (-r / 3)) 1 (-r / 3)) 2 (-r / 3))
  else
    let y0 := cubicY0 csqrt cpow r s t
    let y1 := cubicY1 sqrt3 csqrt cpow r s t
    let y2 := cubicY2 sqrt3 csqrt cpow r s t
    if D > 0 then
      (1, Function.update x 0 (y0.re - r / 3))
    else if D = 0 then
      (2, Function.update (Function.update x 0 (y0.re - r / 3)) 1 (y1.re - r / 3))
    else
      (3, Function.update (Function.update (Function.update x 0 (y0.re - r / 3)) 1
        (y1.re - r / 3)) 2 (y2.re - r / 3))

/-- Embedding of `solveCubic (T a, T b, T c, T d, T x[3])`. -/
def solveCubic (sqrt : K → K) (sqrt3 : K) (csqrt : Cx K → Cx K) (cpow : Cx K → K → Cx K)
    (a b c d : K) (x : Nat → K) : Int × (Nat → K) :=
  if a = 0 then
    solveQuadratic sqrt b c d x
  else
    solveNormalizedCubic sqrt3 csqrt cpow (b / a) (c / a) (d / a) x

/-! ## What the solvers need from the standard library's roots -/

/-- The value `sqrt d` is the non-negative square root of `d`. -/
def SqrtAt (sqrt : K → K) (d : K) : Prop :=
  0 ≤ sqrt d ∧ sqrt d * sqrt d = d

/-- The complex number `w` is the principal square root of `z`: `w * w = z` with
the argument of `w` in `(-π/2, π/2]`. -/
def IsPrincipalSqrt (z w : Cx K) : Prop :=
  w * w = z ∧ 0 ≤ w.re ∧ (w.re = 0 → 0 ≤ w.im)

/-- The complex number `u` is the principal cube root of `z`: `u * u * u = z` with
`u = 0` or the argument of `u` in `(-π/3, π/3]`. -/
def IsPrincipalCbrt (z u : Cx K) : Prop :=
  u * u * u = z ∧ 0 ≤ u.re ∧ u.im * u.im ≤ 3 * (u.re * u.re) ∧
    (u.im < 0 → u.im * u.im < 3 * (u.re * u.re))

/-- Square and cube root that `solveNormalizedCubic r s t` takes are the principal ones,
at the arguments where it takes them. -/
def PrincipalRootsAt (csqrt : Cx K → Cx K) (cpow : Cx K → K → Cx K) (r s t : K) : Prop :=
  IsPrincipalSqrt (Cx.ofReal (cubicD r s t)) (csqrt (Cx.ofReal (cubicD r s t))) ∧
    IsPrincipalCbrt (Cx.addScalar (-cubicQ r s t / 2) (csqrt (Cx.ofReal (cubicD r s t))))
      (cubicU csqrt cpow r s t)

/-! ## The principal roots over the reals -/

/-- The complex square root over `ℝ`: the principal value `z ^ (1/2)`. -/
noncomputable def realCsqrt (z : Cx ℝ) : Cx ℝ :=
  ⟨((⟨z.re, z.im⟩ : ℂ) ^ (((2 : ℕ) : ℂ)⁻¹)).re, ((⟨z.re, z.im⟩ : ℂ) ^ (((2 : ℕ) : ℂ)⁻¹)).im⟩

/-- The complex power over `ℝ` with a real exponent: the principal value `z ^ e`. -/
noncomputable def realCpow (z : Cx ℝ) (e : ℝ) : Cx ℝ :=
  ⟨((⟨z.re, z.im⟩ : ℂ) ^ (e : ℂ)).re, ((⟨z.re, z.im⟩ : ℂ) ^ (e : ℂ)).im⟩

/-! ## Vec2 (ImathVec.h): length and normalization -/

/-- Counterpart of `Vec2<T>`: its 2 components. -/
structure Vec2 (K : Type) where
  x : K
  y : K
  deriving DecidableEq

namespace Vec2

/-- Constructor `Vec2 (T a)`: every component is `a`. -/
def splat (a : K) : Vec2 K := ⟨a, a⟩

/-- Embedding of `Vec2<T>::dot`. -/
def dot (a v : Vec2 K) : K := a.x * v.x + a.y * v.y

/-- Embedding of `Vec2<T>::length2`. -/
def length2 (v : Vec2 K) : K := v.dot v

/-- Embedding of the private `Vec2<T>::lengthTiny`, with `sqrt` for `std::sqrt`; the
absolute values are taken by `std::abs`. -/
def lengthTiny (sqrt : K → K) (v : Vec2 K) : K :=
  let absX := |v.x|
  let absY := |v.y|
  let max := absX
  let max := if max < absY then absY else max
  if max = 0 then
    0
  else
    let absX := absX / max
    let absY := absY / max
    max * sqrt (absX * absX + absY * absY)

/-- Embedding of `Vec2<T>::length`; `smallest` stands for `limits<T>::smallest ()`. -/
def length (sqrt : K → K) (smallest : K) (v : Vec2 K) : K :=
  let length2 := v.dot v
  if length2 < 2 * smallest then
    v.lengthTiny sqrt
  else
    sqrt length2

/-- Embedding of `Vec2<T>::normalize`: the value of `*this` after the call, which is also
what the returned reference denotes. -/
def normalize (sqrt : K → K) (smallest : K) (v : Vec2 K) : Vec2 K :=
  let l := v.length sqrt smallest
  if l ≠ 0 then
    ⟨v.x / l, v.y / l⟩
  else
    v

/-- Embedding of `Vec2<T>::normalizeExc`: the thrown `std::domain_error` with its message,
or the value of `*this` after the call. -/
def normalizeExc (sqrt : K → K) (smallest : K) (v : Vec2 K) : Except String (Vec2 K) :=
  let l := v.length sqrt smallest
  if l = 0 then
    Except.error "Cannot normalize null vector."
  else
    Except.ok ⟨v.x / l, v.y / l⟩

/-- Embedding of `Vec2<T>::normalizeNonNull`: the value of `*this` after the call. -/
def normalizeNonNull (sqrt : K → K) (smallest : K) (v : Vec2 K) : Vec2 K :=
  let l := v.length sqrt smallest
  ⟨v.x / l, v.y / l⟩

/-- Embedding of `Vec2<T>::normalized`. -/
def normalized (sqrt : K → K) (smallest : K) (v : Vec2 K) : Vec2 K :=
  let l := v.length sqrt smallest
  if l = 0 then
    splat 0
  else
    ⟨v.x / l, v.y / l⟩

/-- Embedding of `Vec2<T>::normalizedExc`. -/
def normalizedExc (sqrt : K → K) (smallest : K) (v : Vec2 K) : Except String (Vec2 K) :=
  let l := v.length sqrt smallest
  if l = 0 then
    Except.error "Cannot normalize null vector."
  else
    Except.ok ⟨v.x / l, v.y / l⟩

/-- Embedding of `Vec2<T>::normalizedNonNull`. -/
def normalizedNonNull (sqrt : K → K) (smallest : K) (v : Vec2 K) : Vec2 K :=
  let l := v.length sqrt smallest
  ⟨v.x / l, v.y / l⟩

end Vec2

/-! ## Vec3 (ImathVec.h): length and normalization -/

/-- Counterpart of `Vec3<T>`: its 3 components. -/
structure Vec3 (K : Type) where
  x : K
  y : K
  z : K
  deriving DecidableEq

namespace Vec3

/-- Constructor `Vec3 (T a)`: every component is `a`. -/
def splat (a : K) : Vec3 K := ⟨a, a, a⟩

/-- Embedding of `Vec3<T>::dot`. -/
def dot (a v : Vec3 K) : K := a.x * v.x + a.y * v.y + a.z * v.z

/-- Embedding of `Vec3<T>::length2`. -/
def length2 (v : Vec3 K) : K := v.dot v

/-- Embedding of the private `Vec3<T>::lengthTiny`, with `sqrt` for `std::sqrt`; the
absolute values are taken by the conditional `(x >= T (0)) ? x : -x`. -/
def lengthTiny (sqrt : K → K) (v : Vec3 K) : K :=
  let absX := if v.x ≥ 0 then v.x else -v.x
  let absY := if v.y ≥ 0 then v.y else -v.y
  let absZ := if v.z ≥ 0 then v.z else -v.z
  let max := absX
  let max := if max < absY then absY else max
  let max := if max < absZ then absZ else max
  if max = 0 then
    0
  else
    let absX := absX / max
    let absY := absY / max
    let absZ := absZ / max
    max * sqrt (absX * absX + absY * absY + absZ * absZ)

/-- Embedding of `Vec3<T>::length`; `smallest` stands for `limits<T>::smallest ()`. -/
def length (sqrt : K → K) (smallest : K) (v : Vec3 K) : K :=
  let length2 := v.dot v
  if length2 < 2 * smallest then
    v.lengthTiny sqrt
  else
    sqrt length2

/-- Embedding of `Vec3<T>::normalize`: the value of `*this` after the call, which is also
what the returned reference denotes. -/
def normalize (sqrt : K → K) (smallest : K) (v : Vec3 K) : Vec3 K :=
  let l := v.length sqrt smallest
  if l ≠ 0 then
    ⟨v.x / l, v.y / l, v.z / l⟩
  else
    v

/-- Embedding of `Vec3<T>::normalizeExc`: the thrown `std::domain_error` with its message,
or the value of `*this` after the call. -/
def normalizeExc (sqrt : K → K) (smallest : K) (v : Vec3 K) : Except String (Vec3 K) :=
  let l := v.length sqrt smallest
  if l = 0 then
    Except.error "Cannot normalize null vector."
  else
    Except.ok ⟨v.x / l, v.y / l, v.z / l⟩

/-- Embedding of `Vec3<T>::normalizeNonNull`: the value of `*this` after the call. -/
def normalizeNonNull (sqrt : K → K) (smallest : K) (v : Vec3 K) : Vec3 K :=
  let l := v.length sqrt smallest
  ⟨v.x / l, v.y / l, v.z / l⟩

/-- Embedding of `Vec3<T>::normalized`. -/
def normalized (sqrt : K → K) (smallest : K) (v : Vec3 K) : Vec3 K :=
  let l := v.length sqrt smallest
  if l = 0 then
    splat 0
  else
    ⟨v.x / l, v.y / l, v.z / l⟩

/-- Embedding of `Vec3<T>::normalizedExc`. -/
def normalizedExc (sqrt : K → K) (smallest : K) (v : Vec3 K) : Except String (Vec3 K) :=
  let l := v.length sqrt smallest
  if l = 0 then
    Except.error "Cannot normalize null vector."
  else
    Except.ok ⟨v.x / l, v.y / l, v.z / l⟩

/-- Embedding of `Vec3<T>::normalizedNonNull`. -/
def normalizedNonNull (sqrt : K → K) (smallest : K) (v : Vec3 K) : Vec3 K :=
  let l := v.length sqrt smallest
  ⟨v.x / l, v.y / l, v.z / l⟩

end Vec3

/-! ## Vec4 (ImathVec.h): length and normalization -/

/-- Counterpart of `Vec4<T>`: its 4 components. -/
structure Vec4 (K : Type) where
  x : K
  y : K
  z : K
  w : K
  deriving DecidableEq

namespace Vec4

/-- Constructor `Vec4 (T a)`: every component is `a`. -/
def splat (a : K) : Vec4 K := ⟨a, a, a, a⟩

/-- Embedding of `Vec4<T>::dot`. -/
def dot (a v : Vec4 K) : K := a.x * v.x + a.y * v.y + a.z * v.z + a.w * v.w

/-- Embedding of `Vec4<T>::length2`. -/
def length2 (v : Vec4 K) : K := v.dot v

/-- Embedding of the private `Vec4<T>::lengthTiny`, with `sqrt` for `std::sqrt`; the
absolute values are taken by the conditional `(x >= T (0)) ? x : -x`. -/
def lengthTiny (sqrt : K → K) (v : Vec4 K) : K :=
  let absX := if v.x ≥ 0 then v.x else -v.x
  let absY := if v.y ≥ 0 then v.y else -v.y
  let absZ := if v.z ≥ 0 then v.z else -v.z
  let absW := if v.w ≥ 0 then v.w else -v.w
  let max := absX
  let max := if max < absY then absY else max
  let max := if max < absZ then absZ else max
  let max := if max < absW then absW else max
  if max = 0 then
    0
  else
    let absX := absX / max
    let absY := absY / max
    let absZ := absZ / max
    let absW := absW / max
    max * sqrt (absX * absX + absY * absY + absZ * absZ + absW * absW)

/-- Embedding of `Vec4<T>::length`; `smallest` stands for `limits<T>::smallest ()`. -/
def length (sqrt : K → K) (smallest : K) (v : Vec4 K) : K :=
  let length2 := v.dot v
  if length2 < 2 * smallest then
    v.lengthTiny sqrt
  else
    sqrt length2

/-- Embedding of `Vec4<T>::normalize`: the value of `*this` after the call, which is also
what the returned reference denotes. -/
def normalize (sqrt : K → K) (smallest : K) (v : Vec4 K) : Vec4 K :=
  let l := v.length sqrt smallest
  if l ≠ 0 then
    ⟨v.x / l, v.y / l, v.z / l, v.w / l⟩
  else
    v

/-- Embedding of `Vec4<T>::normalizeExc`: the thrown `std::domain_error` with its message,
or the value of `*this` after the call. -/
def normalizeExc (sqrt : K → K) (smallest : K) (v : Vec4 K) : Except String (Vec4 K) :=
  let l := v.length sqrt smallest
  if l = 0 then
    Except.error "Cannot normalize null vector."
  else
    Except.ok ⟨v.x / l, v.y / l, v.z / l, v.w / l⟩

/-- Embedding of `Vec4<T>::normalizeNonNull`: the value of `*this` after the call. -/
def normalizeNonNull (sqrt : K → K) (smallest : K) (v : Vec4 K) : Vec4 K :=
  let l := v.length sqrt smallest
  ⟨v.x / l, v.y / l, v.z / l, v.w / l⟩

/-- Embedding of `Vec4<T>::normalized`. -/
def normalized (sqrt : K → K) (smallest : K) (v : Vec4 K) : Vec4 K :=
  let l := v.length sqrt smallest
  if l = 0 then
    splat 0
  else
    ⟨v.x / l, v.y / l, v.z / l, v.w / l⟩

/-- Embedding of `Vec4<T>::normalizedExc`. -/
def normalizedExc (sqrt : K → K) (smallest : K) (v : Vec4 K) : Except String (Vec4 K) :=
  let l := v.length sqrt smallest
  if l = 0 then
    Except.error "Cannot normalize null vector."
  else
    Except.ok ⟨v.x / l, v.y / l, v.z / l, v.w / l⟩

/-- Embedding of `Vec4<T>::normalizedNonNull`. -/
def normalizedNonNull (sqrt : K → K) (smallest : K) (v : Vec4 K) : Vec4 K :=
  let l := v.length sqrt smallest
  ⟨v.x / l, v.y / l, v.z / l, v.w / l⟩

end Vec4

/-! ## The length as the specification words it -/

/-- The maximum absolute component of a `Vec2`. -/
def Vec2.maxAbs (v : Vec2 K) : K := max |v.x| |v.y|

/-- The length of a `Vec2` as the specification words it: `sqrt (length2)`, except when
`length2 < 2 * smallest`; then, with `m` the maximum absolute component, 0 if `m = 0` and
otherwise `m * sqrt` of the sum of the `(|v[i]| / m) ^ 2`. -/
def Vec2.specLength (sqrt : K → K) (smallest : K) (v : Vec2 K) : K :=
  if v.length2 < 2 * smallest then
    if v.maxAbs = 0 then
      0
    else
      v.maxAbs * sqrt ((|v.x| / v.maxAbs) ^ 2 + (|v.y| / v.maxAbs) ^ 2)
  else
    sqrt v.length2

/-- The maximum absolute component of a `Vec3`. -/
def Vec3.maxAbs (v : Vec3 K) : K := max (max |v.x| |v.y|) |v.z|

/-- The length of a `Vec3` as the specification words it: `sqrt (length2)`, except when
`length2 < 2 * smallest`; then, with `m` the maximum absolute component, 0 if `m = 0` and
otherwise `m * sqrt` of the sum of the `(|v[i]| / m) ^ 2`. -/
def Vec3.specLength (sqrt : K → K) (smallest : K) (v : Vec3 K) : K :=
  if v.length2 < 2 * smallest then
    if v.maxAbs = 0 then
      0
    else
      v.maxAbs * sqrt ((|v.x| / v.maxAbs) ^ 2 + (|v.y| / v.maxAbs) ^ 2 + (|v.z| / v.maxAbs) ^ 2)
  else
    sqrt v.length2

/-- The maximum absolute component of a `Vec4`. -/
def Vec4.maxAbs (v : Vec4 K) : K := max (max (max |v.x| |v.y|) |v.z|) |v.w|

/-- The length of a `Vec4` as the specification words it: `sqrt (length2)`, except when
`length2 < 2 * smallest`; then, with `m` the maximum absolute component, 0 if `m = 0` and
otherwise `m * sqrt` of the sum of the `(|v[i]| / m) ^ 2`. -/
def Vec4.specLength (sqrt : K → K) (smallest : K) (v : Vec4 K) : K :=
  if v.length2 < 2 * smallest then
    if v.maxAbs = 0 then
      0
    else
      v.maxAbs * sqrt ((|v.x| / v.maxAbs) ^ 2 + (|v.y| / v.maxAbs) ^ 2 +
        (|v.z| / v.maxAbs) ^ 2 + (|v.w| / v.maxAbs) ^ 2)
  else
    sqrt v.length2

/-! ## Approximate equality of vectors (ImathVec.h) -/

/-- Modelled from the spec: the scalar `equalWithAbsError (x1, x2, e)` of ImathMath.h,
which the vector members call and which is not among the sources; the specification and
the comment in ImathVec.h give it as `abs (x1 - x2) <= e`. -/
def equalWithAbsError (x1 x2 e : K) : Bool := decide (|x1 - x2| ≤ e)

/-- Modelled from the spec: the scalar `equalWithRelError (x1, x2, e)` of ImathMath.h,
which the vector members call and which is not among the sources; the specification and
the comment in ImathVec.h give it as `abs (x1 - x2) <= e * abs (x1)`. -/
def equalWithRelError (x1 x2 e : K) : Bool := decide (|x1 - x2| ≤ e * |x1|)

namespace Vec2

/-- Embedding of `Vec2<T>::operator[]`, which reads `(&x)[i]`: component `i` counted
from `x`; the source gives no meaning to an index beyond the last component. -/
def get (v : Vec2 K) (i : Nat) : K :=
  match i with
  | 0 => v.x
  | _ => v.y

/-- Embedding of `Vec2<T>::equalWithAbsError`: the loop over `i < 2` returns `false` at
the first component for which the scalar test fails, and `true` after the last. -/
def equalWithAbsError (a v : Vec2 K) (e : K) : Bool :=
  (List.range 2).all fun i => Imath.equalWithAbsError (a.get i) (v.get i) e

/-- Embedding of `Vec2<T>::equalWithRelError`: the same loop with the relative test. -/
def equalWithRelError (a v : Vec2 K) (e : K) : Bool :=
  (List.range 2).all fun i => Imath.equalWithRelError (a.get i) (v.get i) e

end Vec2

namespace Vec3

/-- Embedding of `Vec3<T>::operator[]`, which reads `(&x)[i]`: component `i` counted
from `x`; the source gives no meaning to an index beyond the last component. -/
def get (v : Vec3 K) (i : Nat) : K :=
  match i with
  | 0 => v.x
  | 1 => v.y
  | _ => v.z

/-- Embedding of `Vec3<T>::equalWithAbsError`: the loop over `i < 3` returns `false` at
the first component for which the scalar test fails, and `true` after the last. -/
def equalWithAbsError (a v : Vec3 K) (e : K) : Bool :=
  (List.range 3).all fun i => Imath.equalWithAbsError (a.get i) (v.get i) e

/-- Embedding of `Vec3<T>::equalWithRelError`: the same loop with the relative test. -/
def equalWithRelError (a v : Vec3 K) (e : K) : Bool :=
  (List.range 3).all fun i => Imath.equalWithRelError (a.get i) (v.get i) e

end Vec3

namespace Vec4

/-- Embedding of `Vec4<T>::operator[]`, which reads `(&x)[i]`: component `i` counted
from `x`; the source gives no meaning to an index beyond the last component. -/
def get (v : Vec4 K) (i : Nat) : K :=
  match i with
  | 0 => v.x
  | 1 => v.y
  | 2 => v.z
  | _ => v.w

/-- Embedding of `Vec4<T>::equalWithAbsError`: the loop over `i < 4` returns `false` at
the first component for which the scalar test fails, and `true` after the last. -/
def equalWithAbsError (a v : Vec4 K) (e : K) : Bool :=
  (List.range 4).all fun i => Imath.equalWithAbsError (a.get i) (v.get i) e

/-- Embedding of `Vec4<T>::equalWithRelError`: the same loop with the relative test. -/
def equalWithRelError (a v : Vec4 K) (e : K) : Bool :=
  (List.range 4).all fun i => Imath.equalWithRelError (a.get i) (v.get i) e

end Vec4

/-! ## Vec4 to Vec3 conversion (ImathVec.h) -/

/-- Embedding of the one-argument conversion `Vec3 (const Vec4<S>& v)`. -/
def Vec3.ofVec4 (v : Vec4 K) : Vec3 K := ⟨v.x / v.w, v.y / v.w, v.z / v.w⟩

/-- Embedding of the two-argument conversion `Vec3 (const Vec4<S>& v, InfException)`: the
thrown `std::domain_error` with its message, or the vector constructed; `baseTypeMax`
stands for `limits<T>::max ()`. -/
def Vec3.ofVec4Exc (baseTypeMax : K) (v : Vec4 K) : Except String (Vec3 K) :=
  let vx := v.x
  let vy := v.y
  let vz := v.z
  let vw := v.w
  let absW := if vw ≥ 0 then vw else -vw
  if absW < 1 then
    let m := baseTypeMax * absW
    if vx ≤ -m ∨ vx ≥ m ∨ vy ≤ -m ∨ vy ≥ m ∨ vz ≤ -m ∨ vz ≥ m then
      Except.error "Cannot normalize point at infinity."
    else
      Except.ok ⟨vx / vw, vy / vw, vz / vw⟩
  else
    Except.ok ⟨vx / vw, vy / vw, vz / vw⟩

/-! ## Vectors: scaling, the locals of `lengthTiny`, the receiver of `normalizeExc` -/

namespace Vec2

/-- Embedding of `Vec2<T>::operator* (T a)`: every component times `a`. -/
def mulScalar (v : Vec2 K) (a : K) : Vec2 K := ⟨v.x * a, v.y * a⟩

/-- The local `max` of `Vec2<T>::lengthTiny` when the test `max == T (0)` is reached: the
statements of the source up to that test, with the absolute values taken by `std::abs`. -/
def lengthTinyMax (v : Vec2 K) : K :=
  let absX := |v.x|
  let absY := |v.y|
  let max := absX
  let max := if max < absY then absY else max
  max

/-- The locals `absX`, `absY` of `Vec2<T>::lengthTiny` after the
statements `abs... /= max`, in the order of the components. -/
def lengthTinyScaled (v : Vec2 K) : Vec2 K :=
  let absX := |v.x|
  let absY := |v.y|
  let max := absX
  let max := if max < absY then absY else max
  ⟨absX / max, absY / max⟩

/-- Embedding of `Vec2<T>::normalizeExc` with the receiver made explicit: the value of
`*this` when the call ends, by `return` or by `throw`, and the message thrown, if any.
The statements run in the order of the source: the length is taken, the `throw` is
next, the assignments `x /= l` and so on come last. -/
def normalizeExcReceiver (sqrt : K → K) (smallest : K) (v : Vec2 K) : Vec2 K × Option String :=
  let l := v.length sqrt smallest
  if l = 0 then
    (v, some "Cannot normalize null vector.")
  else
    let v := { v with x := v.x / l }
    let v := { v with y := v.y / l }
    (v, none)

/-- What the specification says `lengthTiny` returns: the square root of the sum of the
squared components. -/
def specLengthTiny (sqrt : K → K) (v : Vec2 K) : K := sqrt (v.x ^ 2 + v.y ^ 2)

end Vec2

namespace Vec3

/-- Embedding of `Vec3<T>::operator* (T a)`: every component times `a`. -/
def mulScalar (v : Vec3 K) (a : K) : Vec3 K := ⟨v.x * a, v.y * a, v.z * a⟩

/-- The local `max` of `Vec3<T>::lengthTiny` when the test `max == T (0)` is reached: the
statements of the source up to that test, with the absolute values taken by the
conditional `(x >= T (0)) ? x : -x`. -/
def lengthTinyMax (v : Vec3 K) : K :=
  let absX := if v.x ≥ 0 then v.x else -v.x
  let absY := if v.y ≥ 0 then v.y else -v.y
  let absZ := if v.z ≥ 0 then v.z else -v.z
  let max := absX
  let max := if max < absY then absY else max
  let max := if max < absZ then absZ else max
  max

/-- The locals `absX`, `absY`, `absZ` of `Vec3<T>::lengthTiny` after the
statements `abs... /= max`, in the order of the components. -/
def lengthTinyScaled (v : Vec3 K) : Vec3 K :=
  let absX := if v.x ≥ 0 then v.x else -v.x
  let absY := if v.y ≥ 0 then v.y else -v.y
  let absZ := if v.z ≥ 0 then v.z else -v.z
  let max := absX
  let max := if max < absY then absY else max
  let max := if max < absZ then absZ else max
  ⟨absX / max, absY / max, absZ / max⟩

/-- Embedding of `Vec3<T>::normalizeExc` with the receiver made explicit: the value of
`*this` when the call ends, by `return` or by `throw`, and the message thrown, if any.
The statements run in the order of the source: the length is taken, the `throw` is
next, the assignments `x /= l` and so on come last. -/
def normalizeExcReceiver (sqrt : K → K) (smallest : K) (v : Vec3 K) : Vec3 K × Option String :=
  let l := v.length sqrt smallest
  if l = 0 then
    (v, some "Cannot normalize null vector.")
  else
    let v := { v with x := v.x / l }
    let v := { v with y := v.y / l }
    let v := { v with z := v.z / l }
    (v, none)

/-- What the specification says `lengthTiny` returns: the square root of the sum of the
squared components. -/
def specLengthTiny (sqrt : K → K) (v : Vec3 K) : K := sqrt (v.x ^ 2 + v.y ^ 2 + v.z ^ 2)

end Vec3

namespace Vec4

/-- Embedding of `Vec4<T>::operator* (T a)`: every component times `a`. -/
def mulScalar (v : Vec4 K) (a : K) : Vec4 K := ⟨v.x * a, v.y * a, v.z * a, v.w * a⟩

/-- The local `max` of `Vec4<T>::lengthTiny` when the test `max == T (0)` is reached: the
statements of the source up to that test, with the absolute values taken by the
conditional `(x >= T (0)) ? x : -x`. -/
def lengthTinyMax (v : Vec4 K) : K :=
  let absX := if v.x ≥ 0 then v.x else -v.x
  let absY := if v.y ≥ 0 then v.y else -v.y
  let absZ := if v.z ≥ 0 then v.z else -v.z
  let absW := if v.w ≥ 0 then v.w else -v.w
  let max := absX
  let max := if max < absY then absY else max
  let max := if max < absZ then absZ else max
  let max := if max < absW then absW else max
  max

/-- The locals `absX`, `absY`, `absZ`, `absW` of `Vec4<T>::lengthTiny` after the
statements `abs... /= max`, in the order of the components. -/
def lengthTinyScaled (v : Vec4 K) : Vec4 K :=
  let absX := if v.x ≥ 0 then v.x else -v.x
  let absY := if v.y ≥ 0 then v.y else -v.y
  let absZ := if v.z ≥ 0 then v.z else -v.z
  let absW := if v.w ≥ 0 then v.w else -v.w
  let max := absX
  let max := if max < absY then absY else max
  let max := if max < absZ then absZ else max
  let max := if max < absW then absW else max
  ⟨absX / max, absY / max, absZ / max, absW / max⟩

/-- Embedding of `Vec4<T>::normalizeExc` with the receiver made explicit: the value of
`*this` when the call ends, by `return` or by `throw`, and the message thrown, if any.
The statements run in the order of the source: the length is taken, the `throw` is
next, the assignments `x /= l` and so on come last. -/
def normalizeExcReceiver (sqrt : K → K) (smallest : K) (v : Vec4 K) : Vec4 K × Option String :=
  let l := v.length sqrt smallest
  if l = 0 then
    (v, some "Cannot normalize null vector.")
  else
    let v := { v with x := v.x / l }
    let v := { v with y := v.y / l }
    let v := { v with z := v.z / l }
    let v := { v with w := v.w / l }
    (v, none)

/-- What the specification says `lengthTiny` returns: the square root of the sum of the
squared components. -/
def specLengthTiny (sqrt : K → K) (v : Vec4 K) : K := sqrt (v.x ^ 2 + v.y ^ 2 + v.z ^ 2 + v.w ^ 2)

end Vec4

/-! ## Evaluation of `solveQuadratic` branch by branch -/

/-- Two-root branch of `solveQuadratic`: `a ≠ 0` and `D > 0`. -/
theorem solveQuadratic_of_pos (sqrt : K → K) (a b c : K) (x : Nat → K) (ha : a ≠ 0)
    (hD : 0 < b * b - 4 * a * c) :
    solveQuadratic sqrt a b c x =
      (2, Function.update (Function.update x 0 (quadraticQ sqrt a b c / a)) 1
        (c / quadraticQ sqrt a b c)) := by
  simp only [solveQuadratic, quadraticQ, if_neg ha, gt_iff_lt, if_pos hD]

/-- One-root branch of `solveQuadratic`: `a ≠ 0` and `D = 0`. -/
theorem solveQuadratic_of_zero (sqrt : K → K) (a b c : K) (x : Nat → K) (ha : a ≠ 0)
    (hD : b * b - 4 * a * c = 0) :
    solveQuadratic sqrt a b c x = (1, Function.update x 0 (-b / (2 * a))) := by
  simp only [solveQuadratic, if_neg ha, gt_iff_lt, hD, lt_irrefl, if_false, if_true]

/-- No-root branch of `solveQuadratic`: `a ≠ 0` and `D < 0`. -/
theorem solveQuadratic_of_neg (sqrt : K → K) (a b c : K) (x : Nat → K) (ha : a ≠ 0)
    (hD : b * b - 4 * a * c < 0) :
    solveQuadratic sqrt a b c x = (0, x) := by
  simp only [solveQuadratic, if_neg ha, gt_iff_lt, if_neg (not_lt.mpr hD.le), if_neg hD.ne]

/-- In the two-root branch the intermediate `q` is not zero and solves
`q*q + b*q + a*c = 0`. -/
theorem quadraticQ_spec (sqrt : K → K) (a b c : K)
    (hD : 0 < b * b - 4 * a * c) (hs : SqrtAt sqrt (b * b - 4 * a * c)) :
    quadraticQ sqrt a b c ≠ 0 ∧
      quadraticQ sqrt a b c * quadraticQ sqrt a b c + b * quadraticQ sqrt a b c + a * c = 0 := by
  obtain ⟨h0, hsq⟩ := hs
  have hpos : 0 < sqrt (b * b - 4 * a * c) := by
    rcases h0.lt_or_eq with h | h
    · exact h
    · rw [← h] at hsq
      simp only [mul_zero] at hsq
      exact absurd hsq hD.ne
  unfold quadraticQ
  by_cases hb : b > 0
  · simp only [if_pos hb]
    constructor
    · have : b + 1 * sqrt (b * b - 4 * a * c) > 0 := by linarith
      intro h
      have h2 : -(b + 1 * sqrt (b * b - 4 * a * c)) = 0 := by
        have := congrArg (fun y => y * 2) h
        simpa using this
      linarith
    · linear_combination (1 / 4 : K) * hsq
  · simp only [if_neg hb]
    have hb2 : b ≤ 0 := not_lt.mp hb
    constructor
    · intro h
      have h2 : -(b + -1 * sqrt (b * b - 4 * a * c)) = 0 := by
        have := congrArg (fun y => y * 2) h
        simpa using this
      linarith
    · linear_combination (1 / 4 : K) * hsq

/-- Vieta's relations for the two values the two-root branch stores, multiplied by `a`. -/
theorem quadratic_vieta (sqrt : K → K) (a b c : K) (ha : a ≠ 0)
    (hD : 0 < b * b - 4 * a * c) (hs : SqrtAt sqrt (b * b - 4 * a * c)) :
    quadraticQ sqrt a b c / a + c / quadraticQ sqrt a b c = -b / a ∧
      quadraticQ sqrt a b c / a * (c / quadraticQ sqrt a b c) = c / a := by
  obtain ⟨hq, hrel⟩ := quadraticQ_spec sqrt a b c hD hs
  constructor
  · field_simp
    linear_combination a * hrel
  · field_simp
    ring

/-- The real square root meets `SqrtAt` at every non-negative argument. -/
theorem sqrtAt_real (d : ℝ) (hd : 0 ≤ d) : SqrtAt Real.sqrt d :=
  ⟨Real.sqrt_nonneg d, Real.mul_self_sqrt hd⟩

/-! ## The depressed cubic -/

/-- When `p/3 = 0` and `D = 0`, the coefficients are those of `(z + r/3)^3`. -/
theorem cubic_coeffs_of_triple (r s t : K) (hD : cubicD r s t = 0) (hp : cubicP r s / 3 = 0) :
    s = r * r / 3 ∧ t = r * r * r / 27 := by
  have hp0 : cubicP r s = 0 := by
    rcases div_eq_zero_iff.mp hp with h | h
    · exact h
    · exact absurd h (by norm_num)
  have hs : s = r * r / 3 := by
    unfold cubicP at hp0
    rcases div_eq_zero_iff.mp hp0 with h | h
    · field_simp
      linear_combination h
    · exact absurd h (by norm_num)
  have hq : cubicQ r s t = 0 := by
    unfold cubicD at hD
    simp only [hp0, zero_div, mul_zero, zero_add] at hD
    rcases mul_self_eq_zero.mp hD with h
    rcases div_eq_zero_iff.mp h with h | h
    · exact h
    · exact absurd h (by norm_num)
  refine ⟨hs, ?_⟩
  unfold cubicQ at hq
  rw [hs] at hq
  field_simp at hq ⊢
  linear_combination (1 / 9 : K) * hq

/-- Substituting `z = y - r/3` turns the normalized cubic into the depressed cubic
`y^3 + p*y + q`. -/
theorem depress_identity (r s t y : K) :
    (y - r / 3) * (y - r / 3) * (y - r / 3) + r * (y - r / 3) * (y - r / 3) + s * (y - r / 3) + t =
      y * y * y + cubicP r s * y + cubicQ r s t := by
  unfold cubicP cubicQ
  field_simp
  ring

/-- Real and imaginary part of a cube in `Cx K`. -/
theorem Cx.cube_parts (u : Cx K) :
    (u * u * u).re = u.re * u.re * u.re - 3 * u.re * u.im * u.im ∧
      (u * u * u).im = 3 * u.re * u.re * u.im - u.im * u.im * u.im := by
  constructor
  · show (u.re * u.re - u.im * u.im) * u.re - (u.re * u.im + u.im * u.re) * u.im = _
    ring
  · show (u.re * u.re - u.im * u.im) * u.im + (u.re * u.im + u.im * u.re) * u.re = _
    ring

/-- For `D ≤ 0` the principal square root of `D` is `i * sqrt (-D)`: real part zero,
imaginary part non-negative with square `-D`. -/
theorem principalSqrt_of_nonpos (d : K) (w : Cx K) (hw : IsPrincipalSqrt (Cx.ofReal d) w)
    (hd : d ≤ 0) : w.re = 0 ∧ 0 ≤ w.im ∧ w.im * w.im = -d := by
  obtain ⟨hsq, hre, him⟩ := hw
  have h1 : w.re * w.re - w.im * w.im = d := congrArg Cx.re hsq
  have h2 : w.re * w.im + w.im * w.re = 0 := congrArg Cx.im hsq
  have h3 : w.re * w.im = 0 := by linear_combination (1 / 2 : K) * h2
  have hre0 : w.re = 0 := by
    rcases mul_eq_zero.mp h3 with h | h
    · exact h
    · rw [h, mul_zero, sub_zero] at h1
      have : 0 ≤ w.re * w.re := mul_self_nonneg _
      have h4 : w.re * w.re = 0 := le_antisymm (h1 ▸ hd) this
      exact mul_self_eq_zero.mp h4
  refine ⟨hre0, him hre0, ?_⟩
  rw [hre0] at h1
  linear_combination -h1

/-- Cube roots are unique in an ordered field. -/
theorem cube_inj (m n : K) (h : m * m * m = n * n * n) : m = n := by
  by_contra hne
  have h1 : (m - n) * (m * m + m * n + n * n) = 0 := by linear_combination h
  have h2 : m * m + m * n + n * n = 0 := (mul_eq_zero.mp h1).resolve_left (sub_ne_zero.mpr hne)
  have h3 : (2 * m + n) * (2 * m + n) + 3 * (n * n) = 0 := by linear_combination 4 * h2
  have h4 : n * n = 0 := by nlinarith [mul_self_nonneg (2 * m + n), mul_self_nonneg n]
  have hn : n = 0 := mul_self_eq_zero.mp h4
  have h5 : (2 * m + n) * (2 * m + n) = 0 := by
    nlinarith [mul_self_nonneg (2 * m + n), mul_self_nonneg n]
  have hm : 2 * m + n = 0 := mul_self_eq_zero.mp h5
  apply hne
  rw [hn] at hm ⊢
  linarith

/-- Cardano's intermediates for `D ≤ 0` and `p ≠ 0`, with principal roots: writing
`u = a + b*i`, the value `v` is the conjugate of `u`, so that `y0`, `y1`, `y2` have the
real parts `2a`, `-a - b*sqrt3`, `-a + b*sqrt3`; `p = -3(a*a + b*b)`,
`q = -2(a*a*a - 3*a*b*b)`, and `3*a*a*b - b*b*b` is the non-negative square root of `-D`. -/
theorem cardano_nonpos (sqrt3 : K) (csqrt : Cx K → Cx K) (cpow : Cx K → K → Cx K) (r s t : K)
    (hroots : PrincipalRootsAt csqrt cpow r s t) (hD : cubicD r s t ≤ 0)
    (hp : cubicP r s ≠ 0) :
    ∃ a b : K, cubicU csqrt cpow r s t = ⟨a, b⟩ ∧ cubicV csqrt cpow r s t = ⟨a, -b⟩ ∧
      cubicP r s = -3 * (a * a + b * b) ∧ cubicQ r s t = -2 * (a * a * a - 3 * a * b * b) ∧
      0 ≤ 3 * a * a * b - b * b * b ∧
      (3 * a * a * b - b * b * b) * (3 * a * a * b - b * b * b) = -cubicD r s t ∧
      0 ≤ a ∧ b * b ≤ 3 * (a * a) ∧ (b < 0 → b * b < 3 * (a * a)) ∧
      (cubicY0 csqrt cpow r s t).re = 2 * a ∧
      (cubicY1 sqrt3 csqrt cpow r s t).re = -a - b * sqrt3 ∧
      (cubicY2 sqrt3 csqrt cpow r s t).re = -a + b * sqrt3 := by
  obtain ⟨hsqrt, hcube, ha0, hb1, hb2⟩ := hroots
  obtain ⟨hwre, hwim, hwsq⟩ := principalSqrt_of_nonpos _ _ hsqrt hD
  obtain ⟨hcre, hcim⟩ := Cx.cube_parts (cubicU csqrt cpow r s t)
  rw [hcube] at hcre hcim
  set u := cubicU csqrt cpow r s t with hu
  set w := csqrt (Cx.ofReal (cubicD r s t)) with hw
  have hre : -cubicQ r s t / 2 + w.re = u.re * u.re * u.re - 3 * u.re * u.im * u.im := hcre
  have him : w.im = 3 * u.re * u.re * u.im - u.im * u.im * u.im := hcim
  rw [hwre, add_zero] at hre
  have hq : cubicQ r s t = -2 * (u.re * u.re * u.re - 3 * u.re * u.im * u.im) := by
    linear_combination -2 * hre
  have hDdef : cubicD r s t = cubicP r s / 3 * (cubicP r s / 3) * (cubicP r s / 3) +
      cubicQ r s t / 2 * (cubicQ r s t / 2) := rfl
  have hnorm : (u.re * u.re + u.im * u.im) * (u.re * u.re + u.im * u.im) *
      (u.re * u.re + u.im * u.im) =
      (-(cubicP r s / 3)) * (-(cubicP r s / 3)) * (-(cubicP r s / 3)) := by
    rw [him] at hwsq
    rw [hq] at hDdef
    linear_combination hwsq - hDdef
  have hmod : u.re * u.re + u.im * u.im = -(cubicP r s / 3) := cube_inj _ _ hnorm
  have hpeq : cubicP r s = -3 * (u.re * u.re + u.im * u.im) := by linear_combination 3 * hmod
  have hne : u.re * u.re + u.im * u.im ≠ 0 := by
    intro h0
    apply hp
    rw [hpeq, h0, mul_zero]
  have hden : 3 * u.re * (3 * u.re) + 3 * u.im * (3 * u.im) ≠ 0 := by
    intro h0
    apply hne
    linear_combination (1 / 9 : K) * h0
  have hv : cubicV csqrt cpow r s t = ⟨u.re, -u.im⟩ := by
    show (⟨(-cubicP r s * (3 * u.re) + 0 * (3 * u.im)) /
        (3 * u.re * (3 * u.re) + 3 * u.im * (3 * u.im)),
      (0 * (3 * u.re) - -cubicP r s * (3 * u.im)) /
        (3 * u.re * (3 * u.re) + 3 * u.im * (3 * u.im))⟩ : Cx K) = _
    congr 1
    · rw [div_eq_iff hden, hpeq]
      ring
    · rw [div_eq_iff hden, hpeq]
      ring
  refine ⟨u.re, u.im, rfl, hv, hpeq, hq, him ▸ hwim, ?_, ha0, hb1, hb2, ?_, ?_, ?_⟩
  · rw [← him]
    exact hwsq
  · show (cubicU csqrt cpow r s t + cubicV csqrt cpow r s t).re = _
    rw [hv]
    show u.re + u.re = _
    ring
  · unfold cubicY1
    rw [hv]
    show -(u.re + u.re) / 2 + ((u.re - u.re) / 2 * 0 - (u.im - -u.im) / 2 * sqrt3) = _
    ring
  · unfold cubicY2
    rw [hv]
    show -(u.re + u.re) / 2 - ((u.re - u.re) / 2 * 0 - (u.im - -u.im) / 2 * sqrt3) = _
    ring

/-! ## Evaluation of `solveNormalizedCubic` branch by branch -/

/-- Three-root branch of `solveNormalizedCubic`: `D < 0`. -/
theorem solveNormalizedCubic_of_neg (sqrt3 : K) (csqrt : Cx K → Cx K) (cpow : Cx K → K → Cx K)
    (r s t : K) (x : Nat → K) (hD : cubicD r s t < 0) :
    solveNormalizedCubic sqrt3 csqrt cpow r s t x =
      (3, Function.update (Function.update (Function.update x 0
        ((cubicY0 csqrt cpow r s t).re - r / 3)) 1
        ((cubicY1 sqrt3 csqrt cpow r s t).re - r / 3)) 2
        ((cubicY2 sqrt3 csqrt cpow r s t).re - r / 3)) := by
  simp only [solveNormalizedCubic, hD.ne, false_and, if_false, gt_iff_lt,
    if_neg (not_lt.mpr hD.le)]

/-- Two-root branch of `solveNormalizedCubic`: `D = 0` and `p/3 ≠ 0`. -/
theorem solveNormalizedCubic_of_zero (sqrt3 : K) (csqrt : Cx K → Cx K) (cpow : Cx K → K → Cx K)
    (r s t : K) (x : Nat → K) (hD : cubicD r s t = 0) (hp : cubicP r s / 3 ≠ 0) :
    solveNormalizedCubic sqrt3 csqrt cpow r s t x =
      (2, Function.update (Function.update x 0 ((cubicY0 csqrt cpow r s t).re - r / 3)) 1
        ((cubicY1 sqrt3 csqrt cpow r s t).re - r / 3)) := by
  simp only [solveNormalizedCubic, hD, hp, and_false, if_false, gt_iff_lt, lt_irrefl, if_true]

/-- One-root branch of the general path of `solveNormalizedCubic`: `D > 0`. -/
theorem solveNormalizedCubic_of_pos (sqrt3 : K) (csqrt : Cx K → Cx K) (cpow : Cx K → K → Cx K)
    (r s t : K) (x : Nat → K) (hD : 0 < cubicD r s t) :
    solveNormalizedCubic sqrt3 csqrt cpow r s t x =
      (1, Function.update x 0 ((cubicY0 csqrt cpow r s t).re - r / 3)) := by
  simp only [solveNormalizedCubic, hD.ne.symm, false_and, if_false, gt_iff_lt, if_pos hD]

/-- Reading the three slots after three stores. -/
theorem update3_read {A : Type} (x : Nat → A) (e0 e1 e2 : A) :
    Function.update (Function.update (Function.update x 0 e0) 1 e1) 2 e2 0 = e0 ∧
      Function.update (Function.update (Function.update x 0 e0) 1 e1) 2 e2 1 = e1 ∧
      Function.update (Function.update (Function.update x 0 e0) 1 e1) 2 e2 2 = e2 := by
  refine ⟨?_, ?_, ?_⟩ <;> simp [Function.update]

/-- Reading the two slots after two stores. -/
theorem update2_read {A : Type} (x : Nat → A) (e0 e1 : A) :
    Function.update (Function.update x 0 e0) 1 e1 0 = e0 ∧
      Function.update (Function.update x 0 e0) 1 e1 1 = e1 := by
  refine ⟨?_, ?_⟩ <;> simp [Function.update]

/-- The normalized cubic at `z` is the depressed cubic at `y = z + r/3`. -/
theorem cubic_as_depressed (r s t z : K) :
    z * z * z + r * z * z + s * z + t =
      (z + r / 3) * (z + r / 3) * (z + r / 3) + cubicP r s * (z + r / 3) + cubicQ r s t := by
  have h := depress_identity r s t (z + r / 3)
  simp only [add_sub_cancel_right] at h
  exact h

/-! ## The principal roots over the reals meet the requirements -/

/-- Polar form of the principal `n`-th root of a non-zero complex number: modulus `ρ > 0`
and argument `θ` in `(-π/n, π/n]`. -/
theorem polar_root (c : ℂ) (hc : c ≠ 0) (n : ℕ) (hn : 0 < n) :
    ∃ ρ θ : ℝ, 0 < ρ ∧ -(Real.pi / n) < θ ∧ θ ≤ Real.pi / n ∧
      (c ^ ((n : ℂ)⁻¹)).re = ρ * Real.cos θ ∧ (c ^ ((n : ℂ)⁻¹)).im = ρ * Real.sin θ := by
  rw [Complex.cpow_def_of_ne_zero hc, Complex.exp_re, Complex.exp_im]
  have him : (Complex.log c * (n : ℂ)⁻¹).im = Complex.arg c / n := by
    rw [← Complex.ofReal_natCast, ← Complex.ofReal_inv, Complex.im_mul_ofReal, Complex.log_im]
    rfl
  have hnpos : (0 : ℝ) < n := Nat.cast_pos.mpr hn
  refine ⟨Real.exp (Complex.log c * (n : ℂ)⁻¹).re, (Complex.log c * (n : ℂ)⁻¹).im,
    Real.exp_pos _, ?_, ?_, rfl, rfl⟩
  · rw [him, ← neg_div]
    exact div_lt_div_of_pos_right (Complex.neg_pi_lt_arg c) hnpos
  · rw [him]
    exact div_le_div_of_nonneg_right (Complex.arg_le_pi c) hnpos.le

/-- The principal square root `z ^ (1/2)` over the reals is a principal square root in
the sense of `IsPrincipalSqrt`, at every `z`. -/
theorem realCsqrt_principal (z : Cx ℝ) : IsPrincipalSqrt z (realCsqrt z) := by
  have hpow := Complex.cpow_nat_inv_pow (⟨z.re, z.im⟩ : ℂ) (two_ne_zero : (2 : ℕ) ≠ 0)
  rw [pow_two] at hpow
  have hre := congrArg Complex.re hpow
  have him := congrArg Complex.im hpow
  rw [Complex.mul_re] at hre
  rw [Complex.mul_im] at him
  refine ⟨?_, ?_, ?_⟩
  · show (⟨_, _⟩ : Cx ℝ) = z
    cases z
    exact congrArg₂ Cx.mk hre him
  · show 0 ≤ ((⟨z.re, z.im⟩ : ℂ) ^ (((2 : ℕ) : ℂ)⁻¹)).re
    by_cases hc : (⟨z.re, z.im⟩ : ℂ) = 0
    · rw [hc, Complex.zero_cpow (by norm_num)]
      simp
    · obtain ⟨ρ, θ, hρ, hlo, hhi, hr, -⟩ := polar_root _ hc 2 (by norm_num)
      rw [hr]
      have : 0 ≤ Real.cos θ := Real.cos_nonneg_of_neg_pi_div_two_le_of_le
        (by push_cast at hlo; linarith) (by push_cast at hhi; linarith)
      positivity
  · show ((⟨z.re, z.im⟩ : ℂ) ^ (((2 : ℕ) : ℂ)⁻¹)).re = 0 →
      0 ≤ ((⟨z.re, z.im⟩ : ℂ) ^ (((2 : ℕ) : ℂ)⁻¹)).im
    by_cases hc : (⟨z.re, z.im⟩ : ℂ) = 0
    · rw [hc, Complex.zero_cpow (by norm_num)]
      simp
    · obtain ⟨ρ, θ, hρ, hlo, hhi, hr, hi⟩ := polar_root _ hc 2 (by norm_num)
      rw [hr, hi]
      intro h0
      have hcos : Real.cos θ = 0 := (mul_eq_zero.mp h0).resolve_left hρ.ne.symm
      push_cast at hlo hhi
      have hθ : θ = Real.pi / 2 := by
        by_contra hne
        have hlt : θ < Real.pi / 2 := lt_of_le_of_ne hhi hne
        have := Real.cos_pos_of_mem_Ioo ⟨hlo, hlt⟩
        linarith
      rw [hθ, Real.sin_pi_div_two]
      linarith

/-- The principal power `z ^ (1/3)` over the reals is a principal cube root in the sense
of `IsPrincipalCbrt`, at every `z`. -/
theorem realCpow_principal (z : Cx ℝ) : IsPrincipalCbrt z (realCpow z (1 / 3)) := by
  have he : (((1 / 3 : ℝ)) : ℂ) = (((3 : ℕ) : ℂ))⁻¹ := by
    push_cast
    norm_num
  have hpow := Complex.cpow_nat_inv_pow (⟨z.re, z.im⟩ : ℂ) (three_ne_zero : (3 : ℕ) ≠ 0)
  have hpow3 : ∀ g : ℂ, g ^ 3 = g * g * g := fun g => by ring
  rw [hpow3] at hpow
  have hre := congrArg Complex.re hpow
  have him := congrArg Complex.im hpow
  rw [Complex.mul_re, Complex.mul_re, Complex.mul_im] at hre
  rw [Complex.mul_im, Complex.mul_re, Complex.mul_im] at him
  unfold realCpow
  rw [he]
  refine ⟨?_, ?_⟩
  · show (⟨_, _⟩ : Cx ℝ) = z
    cases z
    exact congrArg₂ Cx.mk hre him
  · show 0 ≤ ((⟨z.re, z.im⟩ : ℂ) ^ (((3 : ℕ) : ℂ)⁻¹)).re ∧
      ((⟨z.re, z.im⟩ : ℂ) ^ (((3 : ℕ) : ℂ)⁻¹)).im * ((⟨z.re, z.im⟩ : ℂ) ^ (((3 : ℕ) : ℂ)⁻¹)).im ≤
        3 * (((⟨z.re, z.im⟩ : ℂ) ^ (((3 : ℕ) : ℂ)⁻¹)).re *
          ((⟨z.re, z.im⟩ : ℂ) ^ (((3 : ℕ) : ℂ)⁻¹)).re) ∧
      (((⟨z.re, z.im⟩ : ℂ) ^ (((3 : ℕ) : ℂ)⁻¹)).im < 0 →
        ((⟨z.re, z.im⟩ : ℂ) ^ (((3 : ℕ) : ℂ)⁻¹)).im * ((⟨z.re, z.im⟩ : ℂ) ^ (((3 : ℕ) : ℂ)⁻¹)).im <
          3 * (((⟨z.re, z.im⟩ : ℂ) ^ (((3 : ℕ) : ℂ)⁻¹)).re *
            ((⟨z.re, z.im⟩ : ℂ) ^ (((3 : ℕ) : ℂ)⁻¹)).re))
    by_cases hc : (⟨z.re, z.im⟩ : ℂ) = 0
    · rw [hc, Complex.zero_cpow (by norm_num)]
      simp
    · obtain ⟨ρ, θ, hρ, hlo, hhi, hr, hi⟩ := polar_root _ hc 3 (by norm_num)
      rw [hr, hi]
      push_cast at hlo hhi
      have habs : |θ| ≤ Real.pi / 3 := abs_le.mpr ⟨hlo.le, hhi⟩
      have hcos : 1 / 2 ≤ Real.cos θ := by
        rw [← Real.cos_abs θ, ← Real.cos_pi_div_three]
        exact Real.cos_le_cos_of_nonneg_of_le_pi (abs_nonneg θ)
          (by linarith [Real.pi_pos]) habs
      have hsc := Real.sin_sq_add_cos_sq θ
      refine ⟨by positivity, ?_, ?_⟩
      · have h4 : Real.sin θ * Real.sin θ ≤ 3 * (Real.cos θ * Real.cos θ) := by nlinarith
        have := mul_le_mul_of_nonneg_left h4 (mul_self_nonneg ρ)
        linarith
      · intro hneg
        have hsin : Real.sin θ < 0 := by
          by_contra h
          have := mul_nonneg hρ.le (not_lt.mp h)
          linarith
        have hθneg : θ < 0 := by
          by_contra h
          have := Real.sin_nonneg_of_nonneg_of_le_pi (not_lt.mp h) (by linarith [Real.pi_pos])
          linarith
        have habs2 : |θ| < Real.pi / 3 := by
          rw [abs_of_neg hθneg]
          linarith
        have hcos2 : 1 / 2 < Real.cos θ := by
          rw [← Real.cos_abs θ, ← Real.cos_pi_div_three]
          exact Real.cos_lt_cos_of_nonneg_of_le_pi (abs_nonneg θ)
            (by linarith [Real.pi_pos]) habs2
        have h4 : Real.sin θ * Real.sin θ < 3 * (Real.cos θ * Real.cos θ) := by nlinarith
        have := mul_lt_mul_of_pos_left h4 (mul_pos hρ hρ)
        linarith

/-- With the principal roots over the reals, `solveNormalizedCubic` takes principal
roots at every `r`, `s`, `t`. -/
theorem principalRootsAt_real (r s t : ℝ) : PrincipalRootsAt realCsqrt realCpow r s t :=
  ⟨realCsqrt_principal _, realCpow_principal _⟩

/-- The real square root of 3 is positive and squares to 3. -/
theorem sqrt3_real : Real.sqrt 3 * Real.sqrt 3 = 3 ∧ 0 < Real.sqrt 3 :=
  ⟨Real.mul_self_sqrt (by norm_num), Real.sqrt_pos.mpr (by norm_num)⟩

/-! ## The one-root branch at `z^3 - 3*z + 3` -/

/-- For `D > 0` the principal square root of `D` is real and positive. -/
theorem principalSqrt_of_pos (d : K) (w : Cx K) (hw : IsPrincipalSqrt (Cx.ofReal d) w)
    (hd : 0 < d) : 0 < w.re ∧ w.im = 0 ∧ w.re * w.re = d := by
  obtain ⟨hsq, hre, -⟩ := hw
  have h1 : w.re * w.re - w.im * w.im = d := congrArg Cx.re hsq
  have h2 : w.re * w.im + w.im * w.re = 0 := congrArg Cx.im hsq
  have h3 : w.re * w.im = 0 := by linear_combination (1 / 2 : K) * h2
  have him : w.im = 0 := by
    rcases mul_eq_zero.mp h3 with h | h
    · rw [h, mul_zero, zero_sub] at h1
      have := mul_self_nonneg w.im
      linarith
    · exact h
  rw [him, mul_zero, sub_zero] at h1
  refine ⟨?_, him, h1⟩
  rcases hre.lt_or_eq with h | h
  · exact h
  · rw [← h, mul_zero] at h1
    linarith

/-- With principal roots, `solveNormalizedCubic (0, -3, 3)` takes the one-root branch
(`D = 5/4`) and stores a value `x[0] ≥ 1`: the cube root is taken of the negative real
`-3/2 + sqrt (5/4)`, and its principal value is not real. -/
theorem cubic_one_root_branch_value (sqrt3 : K) (csqrt : Cx K → Cx K) (cpow : Cx K → K → Cx K)
    (x : Nat → K) (hroots : PrincipalRootsAt csqrt cpow 0 (-3) 3) :
    cubicD (0 : K) (-3) 3 = 5 / 4 ∧
      (solveNormalizedCubic sqrt3 csqrt cpow 0 (-3) 3 x).1 = 1 ∧
      1 ≤ (solveNormalizedCubic sqrt3 csqrt cpow 0 (-3) 3 x).2 0 := by
  have hP : cubicP (0 : K) (-3) = -3 := by norm_num [cubicP]
  have hQ : cubicQ (0 : K) (-3) 3 = 3 := by norm_num [cubicQ]
  have hDv : cubicD (0 : K) (-3) 3 = 5 / 4 := by norm_num [cubicD, cubicP, cubicQ]
  have hDpos : 0 < cubicD (0 : K) (-3) 3 := by rw [hDv]; norm_num
  obtain ⟨hsqrt, hcube, ha0, -, hb2⟩ := hroots
  obtain ⟨hwre, hwim, hwsq⟩ := principalSqrt_of_pos _ _ hsqrt hDpos
  obtain ⟨hcre, hcim⟩ := Cx.cube_parts (cubicU csqrt cpow 0 (-3) 3)
  rw [hcube] at hcre hcim
  set u := cubicU csqrt cpow (0 : K) (-3) 3 with hu
  set w := csqrt (Cx.ofReal (cubicD (0 : K) (-3) 3)) with hw
  have hre : -cubicQ (0 : K) (-3) 3 / 2 + w.re = u.re * u.re * u.re - 3 * u.re * u.im * u.im :=
    hcre
  have him : w.im = 3 * u.re * u.re * u.im - u.im * u.im * u.im := hcim
  rw [hQ] at hre
  rw [hwim] at him
  rw [hDv] at hwsq
  have hwlt : w.re < 3 / 2 := by nlinarith
  have hfac : u.im * (3 * (u.re * u.re) - u.im * u.im) = 0 := by linear_combination -him
  have hbsq : u.im * u.im = 3 * (u.re * u.re) := by
    rcases mul_eq_zero.mp hfac with h | h
    · exfalso
      rw [h] at hre
      have h3 : 0 ≤ u.re * u.re * u.re := mul_nonneg (mul_self_nonneg _) ha0
      linarith
    · linear_combination -h
  have hane : u.re ≠ 0 := by
    intro h0
    rw [h0] at hre
    linarith
  have hapos : 0 < u.re := lt_of_le_of_ne ha0 (Ne.symm hane)
  have hy0 : (cubicY0 csqrt cpow (0 : K) (-3) 3).re = u.re + 1 / (4 * u.re) := by
    show u.re + (-cubicP (0 : K) (-3) * (3 * u.re) + 0 * (3 * u.im)) /
      (3 * u.re * (3 * u.re) + 3 * u.im * (3 * u.im)) = _
    rw [hP]
    have hden : 3 * u.re * (3 * u.re) + 3 * u.im * (3 * u.im) = 36 * (u.re * u.re) := by
      linear_combination 9 * hbsq
    rw [hden]
    field_simp
    ring
  rw [solveNormalizedCubic_of_pos sqrt3 csqrt cpow 0 (-3) 3 x hDpos]
  refine ⟨hDv, rfl, ?_⟩
  show 1 ≤ Function.update x 0 ((cubicY0 csqrt cpow (0 : K) (-3) 3).re - 0 / 3) 0
  rw [Function.update_same, hy0, zero_div, sub_zero]
  have h4 : 0 < 4 * u.re := by linarith
  rw [← sub_nonneg]
  have : u.re + 1 / (4 * u.re) - 1 = (2 * u.re - 1) * (2 * u.re - 1) / (4 * u.re) := by
    field_simp
    ring
  rw [this]
  exact div_nonneg (mul_self_nonneg _) h4.le

/-! ## Which slots the solvers write -/

/-- The values `solveLinear` can return. -/
theorem solveLinear_cases (a b x : K) :
    (a ≠ 0 ∧ solveLinear a b x = (1, -b / a)) ∨ (a = 0 ∧ b ≠ 0 ∧ solveLinear a b x = (0, x)) ∨
      (a = 0 ∧ b = 0 ∧ solveLinear a b x = (-1, x)) := by
  by_cases ha : a = 0
  · by_cases hb : b = 0
    · right; right
      exact ⟨ha, hb, by simp [solveLinear, ha, hb]⟩
    · right; left
      exact ⟨ha, hb, by simp [solveLinear, ha, hb]⟩
  · left
    exact ⟨ha, by simp [solveLinear, ha]⟩

/-- The branch `a = 0` of `solveQuadratic`. -/
theorem solveQuadratic_of_linear (sqrt : K → K) (b c : K) (x : Nat → K) :
    solveQuadratic sqrt 0 b c x =
      ((solveLinear b c (x 0)).1, Function.update x 0 (solveLinear b c (x 0)).2) := by
  simp only [solveQuadratic, if_true]

/-- The slots `solveQuadratic` leaves alone: every `x[i]` with `i ≥ max (count, 0)`. -/
theorem solveQuadratic_frame (sqrt : K → K) (a b c : K) (x : Nat → K) (i : Nat)
    (hi : max (solveQuadratic sqrt a b c x).1 0 ≤ (i : Int)) :
    (solveQuadratic sqrt a b c x).2 i = x i := by
  by_cases ha : a = 0
  · subst ha
    rw [solveQuadratic_of_linear] at hi ⊢
    dsimp only at hi ⊢
    rcases solveLinear_cases b c (x 0) with ⟨-, h⟩ | ⟨-, -, h⟩ | ⟨-, -, h⟩
    · rw [h] at hi ⊢
      have : i ≠ 0 := by
        have : (1 : Int) ≤ i := le_trans (le_max_left _ _) hi
        omega
      simp [Function.update, this]
    · rw [h]
      simp
    · rw [h]
      simp
  · rcases lt_trichotomy (b * b - 4 * a * c) 0 with hD | hD | hD
    · rw [solveQuadratic_of_neg sqrt a b c x ha hD]
    · rw [solveQuadratic_of_zero sqrt a b c x ha hD] at hi ⊢
      have : i ≠ 0 := by
        have : (1 : Int) ≤ i := le_trans (le_max_left _ _) hi
        omega
      simp [Function.update, this]
    · rw [solveQuadratic_of_pos sqrt a b c x ha hD] at hi ⊢
      have h2 : (2 : Int) ≤ i := le_trans (le_max_left _ _) hi
      have h0 : i ≠ 0 := by omega
      have h1 : i ≠ 1 := by omega
      simp [Function.update, h0, h1]

/-- The triple-root branch of `solveNormalizedCubic`: `D = 0` and `p/3 = 0`. -/
theorem solveNormalizedCubic_of_triple (sqrt3 : K) (csqrt : Cx K → Cx K)
    (cpow : Cx K → K → Cx K) (r s t : K) (x : Nat → K)
    (h : cubicD r s t = 0 ∧ cubicP r s / 3 = 0) :
    solveNormalizedCubic sqrt3 csqrt cpow r s t x =
      (1, Function.update (Function.update (Function.update x 0 (-r / 3)) 1 (-r / 3)) 2
        (-r / 3)) := by
  simp only [solveNormalizedCubic, h.1, h.2, and_self, if_true]

/-- Outside the triple-root branch `solveNormalizedCubic` leaves every `x[i]` with
`i ≥ count` alone. -/
theorem solveNormalizedCubic_frame (sqrt3 : K) (csqrt : Cx K → Cx K) (cpow : Cx K → K → Cx K)
    (r s t : K) (x : Nat → K) (h : ¬(cubicD r s t = 0 ∧ cubicP r s / 3 = 0)) (i : Nat)
    (hi : max (solveNormalizedCubic sqrt3 csqrt cpow r s t x).1 0 ≤ (i : Int)) :
    (solveNormalizedCubic sqrt3 csqrt cpow r s t x).2 i = x i := by
  rcases lt_trichotomy (cubicD r s t) 0 with hD | hD | hD
  · rw [solveNormalizedCubic_of_neg sqrt3 csqrt cpow r s t x hD] at hi ⊢
    have h3 : (3 : Int) ≤ i := le_trans (le_max_left _ _) hi
    have h0 : i ≠ 0 := by omega
    have h1 : i ≠ 1 := by omega
    have h2 : i ≠ 2 := by omega
    simp [Function.update, h0, h1, h2]
  · have hp : cubicP r s / 3 ≠ 0 := fun hp => h ⟨hD, hp⟩
    rw [solveNormalizedCubic_of_zero sqrt3 csqrt cpow r s t x hD hp] at hi ⊢
    have h2 : (2 : Int) ≤ i := le_trans (le_max_left _ _) hi
    have h0 : i ≠ 0 := by omega
    have h1 : i ≠ 1 := by omega
    simp [Function.update, h0, h1]
  · rw [solveNormalizedCubic_of_pos sqrt3 csqrt cpow r s t x hD] at hi ⊢
    have h1 : (1 : Int) ≤ i := le_trans (le_max_left _ _) hi
    have h0 : i ≠ 0 := by omega
    simp [Function.update, h0]

/-- No branch of `solveNormalizedCubic` writes a slot `x[i]` with `i ≥ 3`. -/
theorem solveNormalizedCubic_frame_three (sqrt3 : K) (csqrt : Cx K → Cx K)
    (cpow : Cx K → K → Cx K) (r s t : K) (x : Nat → K) (i : Nat) (hi : 3 ≤ i) :
    (solveNormalizedCubic sqrt3 csqrt cpow r s t x).2 i = x i := by
  have h0 : i ≠ 0 := by omega
  have h1 : i ≠ 1 := by omega
  have h2 : i ≠ 2 := by omega
  by_cases h : cubicD r s t = 0 ∧ cubicP r s / 3 = 0
  · rw [solveNormalizedCubic_of_triple sqrt3 csqrt cpow r s t x h]
    simp [Function.update, h0, h1, h2]
  · rcases lt_trichotomy (cubicD r s t) 0 with hD | hD | hD
    · rw [solveNormalizedCubic_of_neg sqrt3 csqrt cpow r s t x hD]
      simp [Function.update, h0, h1, h2]
    · have hp : cubicP r s / 3 ≠ 0 := fun hp => h ⟨hD, hp⟩
      rw [solveNormalizedCubic_of_zero sqrt3 csqrt cpow r s t x hD hp]
      simp [Function.update, h0, h1]
    · rw [solveNormalizedCubic_of_pos sqrt3 csqrt cpow r s t x hD]
      simp [Function.update, h0]

/-! ## The counts the solvers return -/

/-- The count of `solveNormalizedCubic` is 1, 2 or 3. -/
theorem solveNormalizedCubic_count (sqrt3 : K) (csqrt : Cx K → Cx K) (cpow : Cx K → K → Cx K)
    (r s t : K) (x : Nat → K) :
    (solveNormalizedCubic sqrt3 csqrt cpow r s t x).1 = 1 ∨
      (solveNormalizedCubic sqrt3 csqrt cpow r s t x).1 = 2 ∨
      (solveNormalizedCubic sqrt3 csqrt cpow r s t x).1 = 3 := by
  by_cases h : cubicD r s t = 0 ∧ cubicP r s / 3 = 0
  · rw [solveNormalizedCubic_of_triple sqrt3 csqrt cpow r s t x h]
    exact Or.inl rfl
  · rcases lt_trichotomy (cubicD r s t) 0 with hD | hD | hD
    · rw [solveNormalizedCubic_of_neg sqrt3 csqrt cpow r s t x hD]
      exact Or.inr (Or.inr rfl)
    · have hp : cubicP r s / 3 ≠ 0 := fun hp => h ⟨hD, hp⟩
      rw [solveNormalizedCubic_of_zero sqrt3 csqrt cpow r s t x hD hp]
      exact Or.inr (Or.inl rfl)
    · rw [solveNormalizedCubic_of_pos sqrt3 csqrt cpow r s t x hD]
      exact Or.inl rfl

/-- The count of `solveQuadratic` is -1 exactly when all three coefficients are zero. -/
theorem solveQuadratic_count_neg_one (sqrt : K → K) (a b c : K) (x : Nat → K) :
    (solveQuadratic sqrt a b c x).1 = -1 ↔ a = 0 ∧ b = 0 ∧ c = 0 := by
  by_cases ha : a = 0
  · subst ha
    rw [solveQuadratic_of_linear]
    dsimp only
    rcases solveLinear_cases b c (x 0) with ⟨hb, h⟩ | ⟨hb, hc, h⟩ | ⟨hb, hc, h⟩
    · rw [h]
      constructor
      · intro h1
        exact absurd h1 (by norm_num)
      · rintro ⟨-, hb0, -⟩
        exact absurd hb0 hb
    · rw [h]
      constructor
      · intro h1
        exact absurd h1 (by norm_num)
      · rintro ⟨-, -, hc0⟩
        exact absurd hc0 hc
    · rw [h]
      exact ⟨fun _ => ⟨rfl, hb, hc⟩, fun _ => rfl⟩
  · constructor
    · intro h1
      exfalso
      rcases lt_trichotomy (b * b - 4 * a * c) 0 with hD | hD | hD
      · rw [solveQuadratic_of_neg sqrt a b c x ha hD] at h1
        exact absurd h1 (by norm_num)
      · rw [solveQuadratic_of_zero sqrt a b c x ha hD] at h1
        exact absurd h1 (by norm_num)
      · rw [solveQuadratic_of_pos sqrt a b c x ha hD] at h1
        exact absurd h1 (by norm_num)
    · rintro ⟨ha0, -, -⟩
      exact absurd ha0 ha

/-- A cubic polynomial over `K` vanishes everywhere exactly when its coefficients are zero. -/
theorem cubic_vanishes_iff (a b c d : K) :
    (∀ z : K, a * z * z * z + b * z * z + c * z + d = 0) ↔ a = 0 ∧ b = 0 ∧ c = 0 ∧ d = 0 := by
  constructor
  · intro h
    have h0 := h 0
    have h1 := h 1
    have h2 := h (-1)
    have h3 := h 2
    have hd : d = 0 := by linear_combination h0
    have hb : b = 0 := by linear_combination (1 / 2 : K) * h1 + (1 / 2 : K) * h2 - h0
    have ha : a = 0 := by
      linear_combination (1 / 6 : K) * h3 - (1 / 3 : K) * h1 - (1 / 3 : K) * hb +
        (1 / 6 : K) * hd
    refine ⟨ha, hb, ?_, hd⟩
    linear_combination h1 - ha - hb - hd
  · rintro ⟨rfl, rfl, rfl, rfl⟩ z
    ring

/-! ## Vectors: shared facts -/

/-- The running maximum of the source, `if (max < b) max = b`, is `max`. -/
theorem running_max (a b : K) : (if a < b then b else a) = max a b := by
  rcases lt_or_le a b with h | h
  · rw [if_pos h, max_eq_right h.le]
  · rw [if_neg (not_lt.mpr h), max_eq_left h]

/-- The conditional `(a >= 0) ? a : -a` is the absolute value. -/
theorem cond_abs (a : K) : (if a ≥ 0 then a else -a) = |a| := by
  by_cases h : 0 ≤ a
  · rw [if_pos h, abs_of_nonneg h]
  · rw [if_neg h, abs_of_neg (not_le.mp h)]

/-- A square root vanishes exactly at zero. -/
theorem sqrt_eq_zero_iff (sqrt : K → K) (d : K) (hs : SqrtAt sqrt d) : sqrt d = 0 ↔ d = 0 := by
  obtain ⟨-, h2⟩ := hs
  constructor
  · intro h
    rw [h, mul_zero] at h2
    exact h2.symm
  · intro h
    subst h
    exact mul_self_eq_zero.mp h2

/-! ## Vec2: the length -/

/-- What `Vec2<T>::lengthTiny` computes, with the running maximum written as `max` and the
absolute values as `|·|`. -/
theorem vec2_lengthTiny_eq (sqrt : K → K) (v : Vec2 K) :
    v.lengthTiny sqrt =
      if v.maxAbs = 0 then 0
      else v.maxAbs * sqrt ((|v.x| / v.maxAbs) ^ 2 + (|v.y| / v.maxAbs) ^ 2) := by
  simp only [Vec2.lengthTiny, Vec2.maxAbs, running_max, pow_two]

/-- The code of `Vec2<T>::length` computes the length as the specification words it. -/
theorem vec2_length_eq_specLength (sqrt : K → K) (smallest : K) (v : Vec2 K) :
    v.length sqrt smallest = v.specLength sqrt smallest := by
  simp only [Vec2.length, Vec2.specLength, vec2_lengthTiny_eq, Vec2.length2]

/-- The maximum absolute component is zero exactly for the null vector. -/
theorem vec2_maxAbs_eq_zero_iff (v : Vec2 K) : v.maxAbs = 0 ↔ v = ⟨0, 0⟩ := by
  unfold Vec2.maxAbs
  constructor
  · intro h
    have hx : |v.x| ≤ 0 := h ▸ le_max_left _ _
    have hy : |v.y| ≤ 0 := h ▸ le_max_right _ _
    cases v
    simp only [abs_nonpos_iff] at hx hy
    simp only [hx, hy]
  · intro h
    rw [h]
    simp

/-- The squared length is not negative. -/
theorem vec2_length2_nonneg (v : Vec2 K) : 0 ≤ v.length2 := by
  unfold Vec2.length2 Vec2.dot
  linarith [mul_self_nonneg v.x, mul_self_nonneg v.y]

/-- The squared length is zero exactly for the null vector. -/
theorem vec2_length2_eq_zero_iff (v : Vec2 K) : v.length2 = 0 ↔ v = ⟨0, 0⟩ := by
  constructor
  · intro h
    have h2 : v.x * v.x + v.y * v.y = 0 := h
    have nx := mul_self_nonneg v.x
    have ny := mul_self_nonneg v.y
    have hx : v.x * v.x = 0 := le_antisymm (by linarith) nx
    have hy : v.y * v.y = 0 := le_antisymm (by linarith) ny
    cases v
    simp only [mul_self_eq_zero] at hx hy
    simp only [hx, hy]
  · intro h
    rw [h]
    simp [Vec2.length2, Vec2.dot]

/-- With `sqrt` a square root, the length is zero exactly for the null vector, on
either side of the `2 * smallest` threshold. -/
theorem vec2_length_eq_zero_iff (sqrt : K → K) (smallest : K)
    (hsqrt : ∀ d : K, 0 ≤ d → SqrtAt sqrt d) (v : Vec2 K) :
    v.length sqrt smallest = 0 ↔ v = ⟨0, 0⟩ := by
  rw [vec2_length_eq_specLength]
  unfold Vec2.specLength
  split_ifs with h1 h2
  · exact ⟨fun _ => (vec2_maxAbs_eq_zero_iff v).mp h2, fun _ => rfl⟩
  · have hv : v ≠ ⟨0, 0⟩ := fun h => h2 ((vec2_maxAbs_eq_zero_iff v).mpr h)
    constructor
    · intro h
      exfalso
      have hS := (mul_eq_zero.mp h).resolve_left h2
      rw [sqrt_eq_zero_iff sqrt _ (hsqrt _ (by positivity))] at hS
      have nx := sq_nonneg (|v.x| / v.maxAbs)
      have ny := sq_nonneg (|v.y| / v.maxAbs)
      have hx : (|v.x| / v.maxAbs) ^ 2 = 0 := le_antisymm (by linarith) nx
      have hy : (|v.y| / v.maxAbs) ^ 2 = 0 := le_antisymm (by linarith) ny
      simp only [pow_eq_zero_iff two_ne_zero, div_eq_zero_iff, abs_eq_zero, h2, or_false]
        at hx hy
      apply hv
      cases v
      simp only at hx hy
      simp only [hx, hy]
    · intro h
      exact absurd h hv
  · rw [sqrt_eq_zero_iff sqrt _ (hsqrt _ (vec2_length2_nonneg v))]
    exact vec2_length2_eq_zero_iff v

/-- The outcomes of `Vec2<T>::normalizeExc` and `Vec2<T>::normalizedExc`: the domain error
exactly when the length is zero, and otherwise what `normalize` and `normalized` give. -/
theorem vec2_exc_outcomes (sqrt : K → K) (smallest : K) (v : Vec2 K) :
    (v.normalizeExc sqrt smallest = Except.error "Cannot normalize null vector." ↔
        v.length sqrt smallest = 0) ∧
      (v.normalizedExc sqrt smallest = Except.error "Cannot normalize null vector." ↔
        v.length sqrt smallest = 0) ∧
      (v.length sqrt smallest ≠ 0 →
        v.normalizeExc sqrt smallest = Except.ok (v.normalize sqrt smallest) ∧
          v.normalizedExc sqrt smallest = Except.ok (v.normalized sqrt smallest)) := by
  by_cases h : v.length sqrt smallest = 0
  · simp [Vec2.normalizeExc, Vec2.normalizedExc, h]
  · simp [Vec2.normalizeExc, Vec2.normalizedExc, Vec2.normalize, Vec2.normalized, h]

/-- Normalizing when the length is zero: `normalize` changes nothing and `normalized`
gives the null vector; on the null vector this is so whatever its length evaluates to. -/
theorem vec2_normalize_of_length_zero (sqrt : K → K) (smallest : K) :
    Vec2.normalized sqrt smallest (⟨0, 0⟩ : Vec2 K) = ⟨0, 0⟩ ∧
      Vec2.normalize sqrt smallest (⟨0, 0⟩ : Vec2 K) = ⟨0, 0⟩ ∧
      ∀ v : Vec2 K, v.length sqrt smallest = 0 →
        v.normalize sqrt smallest = v ∧ v.normalized sqrt smallest = ⟨0, 0⟩ := by
  refine ⟨?_, ?_, ?_⟩
  · simp [Vec2.normalized, Vec2.splat]
  · simp [Vec2.normalize]
  · intro v h
    simp [Vec2.normalize, Vec2.normalized, Vec2.splat, h]

/-! ## Vec3: the length -/

/-- What `Vec3<T>::lengthTiny` computes, with the running maximum written as `max` and the
absolute values as `|·|`. -/
theorem vec3_lengthTiny_eq (sqrt : K → K) (v : Vec3 K) :
    v.lengthTiny sqrt =
      if v.maxAbs = 0 then 0
      else v.maxAbs * sqrt ((|v.x| / v.maxAbs) ^ 2 + (|v.y| / v.maxAbs) ^ 2 +
        (|v.z| / v.maxAbs) ^ 2) := by
  simp only [Vec3.lengthTiny, Vec3.maxAbs, running_max, cond_abs, pow_two]

/-- The code of `Vec3<T>::length` computes the length as the specification words it. -/
theorem vec3_length_eq_specLength (sqrt : K → K) (smallest : K) (v : Vec3 K) :
    v.length sqrt smallest = v.specLength sqrt smallest := by
  simp only [Vec3.length, Vec3.specLength, vec3_lengthTiny_eq, Vec3.length2]

/-- The maximum absolute component is zero exactly for the null vector. -/
theorem vec3_maxAbs_eq_zero_iff (v : Vec3 K) : v.maxAbs = 0 ↔ v = ⟨0, 0, 0⟩ := by
  unfold Vec3.maxAbs
  constructor
  · intro h
    have hx : |v.x| ≤ 0 := h ▸ le_trans (le_max_left _ _) (le_max_left _ _)
    have hy : |v.y| ≤ 0 := h ▸ le_trans (le_max_right _ _) (le_max_left _ _)
    have hz : |v.z| ≤ 0 := h ▸ le_max_right _ _
    cases v
    simp only [abs_nonpos_iff] at hx hy hz
    simp only [hx, hy, hz]
  · intro h
    rw [h]
    simp

/-- The squared length is not negative. -/
theorem vec3_length2_nonneg (v : Vec3 K) : 0 ≤ v.length2 := by
  unfold Vec3.length2 Vec3.dot
  linarith [mul_self_nonneg v.x, mul_self_nonneg v.y, mul_self_nonneg v.z]

/-- The squared length is zero exactly for the null vector. -/
theorem vec3_length2_eq_zero_iff (v : Vec3 K) : v.length2 = 0 ↔ v = ⟨0, 0, 0⟩ := by
  constructor
  · intro h
    have h2 : v.x * v.x + v.y * v.y + v.z * v.z = 0 := h
    have nx := mul_self_nonneg v.x
    have ny := mul_self_nonneg v.y
    have nz := mul_self_nonneg v.z
    have hx : v.x * v.x = 0 := le_antisymm (by linarith) nx
    have hy : v.y * v.y = 0 := le_antisymm (by linarith) ny
    have hz : v.z * v.z = 0 := le_antisymm (by linarith) nz
    cases v
    simp only [mul_self_eq_zero] at hx hy hz
    simp only [hx, hy, hz]
  · intro h
    rw [h]
    simp [Vec3.length2, Vec3.dot]

/-- With `sqrt` a square root, the length is zero exactly for the null vector, on
either side of the `2 * smallest` threshold. -/
theorem vec3_length_eq_zero_iff (sqrt : K → K) (smallest : K)
    (hsqrt : ∀ d : K, 0 ≤ d → SqrtAt sqrt d) (v : Vec3 K) :
    v.length sqrt smallest = 0 ↔ v = ⟨0, 0, 0⟩ := by
  rw [vec3_length_eq_specLength]
  unfold Vec3.specLength
  split_ifs with h1 h2
  · exact ⟨fun _ => (vec3_maxAbs_eq_zero_iff v).mp h2, fun _ => rfl⟩
  · have hv : v ≠ ⟨0, 0, 0⟩ := fun h => h2 ((vec3_maxAbs_eq_zero_iff v).mpr h)
    constructor
    · intro h
      exfalso
      have hS := (mul_eq_zero.mp h).resolve_left h2
      rw [sqrt_eq_zero_iff sqrt _ (hsqrt _ (by positivity))] at hS
      have nx := sq_nonneg (|v.x| / v.maxAbs)
      have ny := sq_nonneg (|v.y| / v.maxAbs)
      have nz := sq_nonneg (|v.z| / v.maxAbs)
      have hx : (|v.x| / v.maxAbs) ^ 2 = 0 := le_antisymm (by linarith) nx
      have hy : (|v.y| / v.maxAbs) ^ 2 = 0 := le_antisymm (by linarith) ny
      have hz : (|v.z| / v.maxAbs) ^ 2 = 0 := le_antisymm (by linarith) nz
      simp only [pow_eq_zero_iff two_ne_zero, div_eq_zero_iff, abs_eq_zero, h2, or_false]
        at hx hy hz
      apply hv
      cases v
      simp only at hx hy hz
      simp only [hx, hy, hz]
    · intro h
      exact absurd h hv
  · rw [sqrt_eq_zero_iff sqrt _ (hsqrt _ (vec3_length2_nonneg v))]
    exact vec3_length2_eq_zero_iff v

/-- The outcomes of `Vec3<T>::normalizeExc` and `Vec3<T>::normalizedExc`: the domain error
exactly when the length is zero, and otherwise what `normalize` and `normalized` give. -/
theorem vec3_exc_outcomes (sqrt : K → K) (smallest : K) (v : Vec3 K) :
    (v.normalizeExc sqrt smallest = Except.error "Cannot normalize null vector." ↔
        v.length sqrt smallest = 0) ∧
      (v.normalizedExc sqrt smallest = Except.error "Cannot normalize null vector." ↔
        v.length sqrt smallest = 0) ∧
      (v.length sqrt smallest ≠ 0 →
        v.normalizeExc sqrt smallest = Except.ok (v.normalize sqrt smallest) ∧
          v.normalizedExc sqrt smallest = Except.ok (v.normalized sqrt smallest)) := by
  by_cases h : v.length sqrt smallest = 0
  · simp [Vec3.normalizeExc, Vec3.normalizedExc, h]
  · simp [Vec3.normalizeExc, Vec3.normalizedExc, Vec3.normalize, Vec3.normalized, h]

/-- Normalizing when the length is zero: `normalize` changes nothing and `normalized`
gives the null vector; on the null vector this is so whatever its length evaluates to. -/
theorem vec3_normalize_of_length_zero (sqrt : K → K) (smallest : K) :
    Vec3.normalized sqrt smallest (⟨0, 0, 0⟩ : Vec3 K) = ⟨0, 0, 0⟩ ∧
      Vec3.normalize sqrt smallest (⟨0, 0, 0⟩ : Vec3 K) = ⟨0, 0, 0⟩ ∧
      ∀ v : Vec3 K, v.length sqrt smallest = 0 →
        v.normalize sqrt smallest = v ∧ v.normalized sqrt smallest = ⟨0, 0, 0⟩ := by
  refine ⟨?_, ?_, ?_⟩
  · simp [Vec3.normalized, Vec3.splat]
  · simp [Vec3.normalize]
  · intro v h
    simp [Vec3.normalize, Vec3.normalized, Vec3.splat, h]

/-! ## Vec4: the length -/

/-- What `Vec4<T>::lengthTiny` computes, with the running maximum written as `max` and the
absolute values as `|·|`. -/
theorem vec4_lengthTiny_eq (sqrt : K → K) (v : Vec4 K) :
    v.lengthTiny sqrt =
      if v.maxAbs = 0 then 0
      else v.maxAbs * sqrt ((|v.x| / v.maxAbs) ^ 2 + (|v.y| / v.maxAbs) ^ 2 +
        (|v.z| / v.maxAbs) ^ 2 + (|v.w| / v.maxAbs) ^ 2) := by
  simp only [Vec4.lengthTiny, Vec4.maxAbs, running_max, cond_abs, pow_two]

/-- The code of `Vec4<T>::length` computes the length as the specification words it. -/
theorem vec4_length_eq_specLength (sqrt : K → K) (smallest : K) (v : Vec4 K) :
    v.length sqrt smallest = v.specLength sqrt smallest := by
  simp only [Vec4.length, Vec4.specLength, vec4_lengthTiny_eq, Vec4.length2]

/-- The maximum absolute component is zero exactly for the null vector. -/
theorem vec4_maxAbs_eq_zero_iff (v : Vec4 K) : v.maxAbs = 0 ↔ v = ⟨0, 0, 0, 0⟩ := by
  unfold Vec4.maxAbs
  constructor
  · intro h
    have hx : |v.x| ≤ 0 :=
      h ▸ le_trans (le_trans (le_max_left _ _) (le_max_left _ _)) (le_max_left _ _)
    have hy : |v.y| ≤ 0 :=
      h ▸ le_trans (le_trans (le_max_right _ _) (le_max_left _ _)) (le_max_left _ _)
    have hz : |v.z| ≤ 0 := h ▸ le_trans (le_max_right _ _) (le_max_left _ _)
    have hw : |v.w| ≤ 0 := h ▸ le_max_right _ _
    cases v
    simp only [abs_nonpos_iff] at hx hy hz hw
    simp only [hx, hy, hz, hw]
  · intro h
    rw [h]
    simp

/-- The squared length is not negative. -/
theorem vec4_length2_nonneg (v : Vec4 K) : 0 ≤ v.length2 := by
  unfold Vec4.length2 Vec4.dot
  linarith [mul_self_nonneg v.x, mul_self_nonneg v.y, mul_self_nonneg v.z, mul_self_nonneg v.w]

/-- The squared length is zero exactly for the null vector. -/
theorem vec4_length2_eq_zero_iff (v : Vec4 K) : v.length2 = 0 ↔ v = ⟨0, 0, 0, 0⟩ := by
  constructor
  · intro h
    have h2 : v.x * v.x + v.y * v.y + v.z * v.z + v.w * v.w = 0 := h
    have nx := mul_self_nonneg v.x
    have ny := mul_self_nonneg v.y
    have nz := mul_self_nonneg v.z
    have nw := mul_self_nonneg v.w
    have hx : v.x * v.x = 0 := le_antisymm (by linarith) nx
    have hy : v.y * v.y = 0 := le_antisymm (by linarith) ny
    have hz : v.z * v.z = 0 := le_antisymm (by linarith) nz
    have hw : v.w * v.w = 0 := le_antisymm (by linarith) nw
    cases v
    simp only [mul_self_eq_zero] at hx hy hz hw
    simp only [hx, hy, hz, hw]
  · intro h
    rw [h]
    simp [Vec4.length2, Vec4.dot]

/-- With `sqrt` a square root, the length is zero exactly for the null vector, on
either side of the `2 * smallest` threshold. -/
theorem vec4_length_eq_zero_iff (sqrt : K → K) (smallest : K)
    (hsqrt : ∀ d : K, 0 ≤ d → SqrtAt sqrt d) (v : Vec4 K) :
    v.length sqrt smallest = 0 ↔ v = ⟨0, 0, 0, 0⟩ := by
  rw [vec4_length_eq_specLength]
  unfold Vec4.specLength
  split_ifs with h1 h2
  · exact ⟨fun _ => (vec4_maxAbs_eq_zero_iff v).mp h2, fun _ => rfl⟩
  · have hv : v ≠ ⟨0, 0, 0, 0⟩ := fun h => h2 ((vec4_maxAbs_eq_zero_iff v).mpr h)
    constructor
    · intro h
      exfalso
      have hS := (mul_eq_zero.mp h).resolve_left h2
      rw [sqrt_eq_zero_iff sqrt _ (hsqrt _ (by positivity))] at hS
      have nx := sq_nonneg (|v.x| / v.maxAbs)
      have ny := sq_nonneg (|v.y| / v.maxAbs)
      have nz := sq_nonneg (|v.z| / v.maxAbs)
      have nw := sq_nonneg (|v.w| / v.maxAbs)
      have hx : (|v.x| / v.maxAbs) ^ 2 = 0 := le_antisymm (by linarith) nx
      have hy : (|v.y| / v.maxAbs) ^ 2 = 0 := le_antisymm (by linarith) ny
      have hz : (|v.z| / v.maxAbs) ^ 2 = 0 := le_antisymm (by linarith) nz
      have hw : (|v.w| / v.maxAbs) ^ 2 = 0 := le_antisymm (by linarith) nw
      simp only [pow_eq_zero_iff two_ne_zero, div_eq_zero_iff, abs_eq_zero, h2, or_false]
        at hx hy hz hw
      apply hv
      cases v
      simp only at hx hy hz hw
      simp only [hx, hy, hz, hw]
    · intro h
      exact absurd h hv
  · rw [sqrt_eq_zero_iff sqrt _ (hsqrt _ (vec4_length2_nonneg v))]
    exact vec4_length2_eq_zero_iff v

/-- The outcomes of `Vec4<T>::normalizeExc` and `Vec4<T>::normalizedExc`: the domain error
exactly when the length is zero, and otherwise what `normalize` and `normalized` give. -/
theorem vec4_exc_outcomes (sqrt : K → K) (smallest : K) (v : Vec4 K) :
    (v.normalizeExc sqrt smallest = Except.error "Cannot normalize null vector." ↔
        v.length sqrt smallest = 0) ∧
      (v.normalizedExc sqrt smallest = Except.error "Cannot normalize null vector." ↔
        v.length sqrt smallest = 0) ∧
      (v.length sqrt smallest ≠ 0 →
        v.normalizeExc sqrt smallest = Except.ok (v.normalize sqrt smallest) ∧
          v.normalizedExc sqrt smallest = Except.ok (v.normalized sqrt smallest)) := by
  by_cases h : v.length sqrt smallest = 0
  · simp [Vec4.normalizeExc, Vec4.normalizedExc, h]
  · simp [Vec4.normalizeExc, Vec4.normalizedExc, Vec4.normalize, Vec4.normalized, h]

/-- Normalizing when the length is zero: `normalize` changes nothing and `normalized`
gives the null vector; on the null vector this is so whatever its length evaluates to. -/
theorem vec4_normalize_of_length_zero (sqrt : K → K) (smallest : K) :
    Vec4.normalized sqrt smallest (⟨0, 0, 0, 0⟩ : Vec4 K) = ⟨0, 0, 0, 0⟩ ∧
      Vec4.normalize sqrt smallest (⟨0, 0, 0, 0⟩ : Vec4 K) = ⟨0, 0, 0, 0⟩ ∧
      ∀ v : Vec4 K, v.length sqrt smallest = 0 →
        v.normalize sqrt smallest = v ∧ v.normalized sqrt smallest = ⟨0, 0, 0, 0⟩ := by
  refine ⟨?_, ?_, ?_⟩
  · simp [Vec4.normalized, Vec4.splat]
  · simp [Vec4.normalize]
  · intro v h
    simp [Vec4.normalize, Vec4.normalized, Vec4.splat, h]

/-! ## Vectors: the square root is unique, the relative test for scalars -/

/-- A function that gives a non-negative square root of every non-negative number gives
the only one. -/
theorem sqrt_unique (sqrt : K → K) (hsqrt : ∀ d : K, 0 ≤ d → SqrtAt sqrt d) (d s : K)
    (hs0 : 0 ≤ s) (hss : s * s = d) : sqrt d = s := by
  have hd : 0 ≤ d := hss ▸ mul_self_nonneg s
  obtain ⟨h0, h1⟩ := hsqrt d hd
  exact (mul_self_inj_of_nonneg h0 hs0).mp (h1.trans hss.symm)

/-- For scalars with `|y| ≤ |x|`, the relative bound scaled by `y` gives the one scaled
by `x`, for every `e`. -/
theorem rel_error_swap (e x y : K) (hge : |y| ≤ |x|) (h : |y - x| ≤ e * |y|) :
    |x - y| ≤ e * |x| := by
  rw [abs_sub_comm]
  rcases le_or_lt 0 e with he | he
  · exact le_trans h (mul_le_mul_of_nonneg_left hge he)
  · have h1 : e * |y| ≤ 0 := mul_nonpos_of_nonpos_of_nonneg he.le (abs_nonneg y)
    have h2 : |y - x| = 0 := le_antisymm (le_trans h h1) (abs_nonneg _)
    have h3 : e * |y| = 0 := le_antisymm h1 (h2 ▸ h)
    have hy : |y| = 0 := (mul_eq_zero.mp h3).resolve_left he.ne
    have hyx : y = x := sub_eq_zero.mp (abs_eq_zero.mp h2)
    rw [h2, ← hyx, hy, mul_zero]

/-! ## Vec2: the length as a square root, the normalize family, approximate equality -/

/-- The maximum absolute component is not negative. -/
theorem vec2_maxAbs_nonneg (v : Vec2 K) : 0 ≤ v.maxAbs :=
  le_trans (abs_nonneg v.y) (le_max_right _ _)

/-- With `sqrt` the non-negative square root, `length` is `sqrt (length2)` on either
side of the `2 * smallest` threshold. -/
theorem vec2_length_eq_sqrt (sqrt : K → K) (smallest : K)
    (hsqrt : ∀ d : K, 0 ≤ d → SqrtAt sqrt d) (v : Vec2 K) :
    v.length sqrt smallest = sqrt v.length2 := by
  rw [vec2_length_eq_specLength]
  unfold Vec2.specLength
  split_ifs with h1 h2
  · have hv := (vec2_maxAbs_eq_zero_iff v).mp h2
    have h0 : v.length2 = 0 := (vec2_length2_eq_zero_iff v).mpr hv
    rw [h0]
    exact ((sqrt_eq_zero_iff sqrt 0 (hsqrt 0 le_rfl)).mpr rfl).symm
  · symm
    have hS : 0 ≤ (|v.x| / v.maxAbs) ^ 2 +
        (|v.y| / v.maxAbs) ^ 2 := by
      positivity
    obtain ⟨hs0, hs1⟩ := hsqrt _ hS
    apply sqrt_unique sqrt hsqrt
    · exact mul_nonneg (vec2_maxAbs_nonneg v) hs0
    · have hm : ∀ m c : K, c * c = (|v.x| / v.maxAbs) ^ 2 +
        (|v.y| / v.maxAbs) ^ 2 →
          m * c * (m * c) = m * m * ((|v.x| / v.maxAbs) ^ 2 +
        (|v.y| / v.maxAbs) ^ 2) := by
        intro m c hc
        linear_combination (m * m) * hc
      rw [hm _ _ hs1]
      show _ = v.x * v.x + v.y * v.y
      field_simp
      ring
  · rfl

/-- With `sqrt` the non-negative square root, the normalized vector of a vector that is
not null has length 1. -/
theorem vec2_normalized_length (sqrt : K → K) (smallest : K)
    (hsqrt : ∀ d : K, 0 ≤ d → SqrtAt sqrt d) (v : Vec2 K) (hv : v ≠ ⟨0, 0⟩) :
    (v.normalized sqrt smallest).length sqrt smallest = 1 := by
  have hl : v.length sqrt smallest ≠ 0 := fun h =>
    hv ((vec2_length_eq_zero_iff sqrt smallest hsqrt v).mp h)
  have hn : v.normalized sqrt smallest =
      ⟨v.x / v.length sqrt smallest,
        v.y / v.length sqrt smallest⟩ := by
    simp only [Vec2.normalized, if_neg hl]
  have hsq : v.length sqrt smallest * v.length sqrt smallest =
      v.x * v.x + v.y * v.y := by
    rw [vec2_length_eq_sqrt sqrt smallest hsqrt]
    exact (hsqrt _ (vec2_length2_nonneg v)).2
  rw [hn, vec2_length_eq_sqrt sqrt smallest hsqrt]
  apply sqrt_unique sqrt hsqrt _ 1 zero_le_one
  show (1 : K) * 1 = v.x / v.length sqrt smallest * (v.x / v.length sqrt smallest) +
    v.y / v.length sqrt smallest * (v.y / v.length sqrt smallest)
  field_simp
  linear_combination hsq

/-- When the length is not zero, the six members of the normalize family give the
vector of the `v[i] / v.length ()`. -/
theorem vec2_normalize_family (sqrt : K → K) (smallest : K) (v : Vec2 K)
    (hl : v.length sqrt smallest ≠ 0) :
    v.normalize sqrt smallest =
        ⟨v.x / v.length sqrt smallest,
        v.y / v.length sqrt smallest⟩ ∧
      v.normalizeExc sqrt smallest = Except.ok (v.normalize sqrt smallest) ∧
      v.normalizeNonNull sqrt smallest = v.normalize sqrt smallest ∧
      v.normalized sqrt smallest = v.normalize sqrt smallest ∧
      v.normalizedExc sqrt smallest = Except.ok (v.normalize sqrt smallest) ∧
      v.normalizedNonNull sqrt smallest = v.normalize sqrt smallest := by
  simp [Vec2.normalize, Vec2.normalizeExc, Vec2.normalizeNonNull, Vec2.normalized,
    Vec2.normalizedExc, Vec2.normalizedNonNull, hl]

/-- What `Vec2<T>::equalWithAbsError` tests, component by component. -/
theorem vec2_equalWithAbsError_iff (a v : Vec2 K) (e : K) :
    a.equalWithAbsError v e = true ↔ |a.x - v.x| ≤ e ∧ |a.y - v.y| ≤ e := by
  simp [Vec2.equalWithAbsError, Imath.equalWithAbsError, Vec2.get, List.range_succ]

/-- What `Vec2<T>::equalWithRelError` tests, component by component. -/
theorem vec2_equalWithRelError_iff (a v : Vec2 K) (e : K) :
    a.equalWithRelError v e = true ↔ |a.x - v.x| ≤ e * |a.x| ∧ |a.y - v.y| ≤ e * |a.y| := by
  simp [Vec2.equalWithRelError, Imath.equalWithRelError, Vec2.get, List.range_succ]

/-- The relative test can be turned round towards the vector with the larger
components. -/
theorem vec2_equalWithRelError_swap (a b : Vec2 K) (e : K)
    (hge : |b.x| ≤ |a.x| ∧ |b.y| ≤ |a.y|)
    (h : b.equalWithRelError a e = true) : a.equalWithRelError b e = true := by
  rw [vec2_equalWithRelError_iff] at h ⊢
  obtain ⟨hx, hy⟩ := h
  obtain ⟨gx, gy⟩ := hge
  exact ⟨rel_error_swap e _ _ gx hx, rel_error_swap e _ _ gy hy⟩

/-! ## Vec3: the length as a square root, the normalize family, approximate equality -/

/-- The maximum absolute component is not negative. -/
theorem vec3_maxAbs_nonneg (v : Vec3 K) : 0 ≤ v.maxAbs :=
  le_trans (abs_nonneg v.z) (le_max_right _ _)

/-- With `sqrt` the non-negative square root, `length` is `sqrt (length2)` on either
side of the `2 * smallest` threshold. -/
theorem vec3_length_eq_sqrt (sqrt : K → K) (smallest : K)
    (hsqrt : ∀ d : K, 0 ≤ d → SqrtAt sqrt d) (v : Vec3 K) :
    v.length sqrt smallest = sqrt v.length2 := by
  rw [vec3_length_eq_specLength]
  unfold Vec3.specLength
  split_ifs with h1 h2
  · have hv := (vec3_maxAbs_eq_zero_iff v).mp h2
    have h0 : v.length2 = 0 := (vec3_length2_eq_zero_iff v).mpr hv
    rw [h0]
    exact ((sqrt_eq_zero_iff sqrt 0 (hsqrt 0 le_rfl)).mpr rfl).symm
  · symm
    have hS : 0 ≤ (|v.x| / v.maxAbs) ^ 2 +
        (|v.y| / v.maxAbs) ^ 2 +
        (|v.z| / v.maxAbs) ^ 2 := by
      positivity
    obtain ⟨hs0, hs1⟩ := hsqrt _ hS
    apply sqrt_unique sqrt hsqrt
    · exact mul_nonneg (vec3_maxAbs_nonneg v) hs0
    · have hm : ∀ m c : K, c * c = (|v.x| / v.maxAbs) ^ 2 +
        (|v.y| / v.maxAbs) ^ 2 +
        (|v.z| / v.maxAbs) ^ 2 →
          m * c * (m * c) = m * m * ((|v.x| / v.maxAbs) ^ 2 +
        (|v.y| / v.maxAbs) ^ 2 +
        (|v.z| / v.maxAbs) ^ 2) := by
        intro m c hc
        linear_combination (m * m) * hc
      rw [hm _ _ hs1]
      show _ = v.x * v.x + v.y * v.y + v.z * v.z
      field_simp
      ring
  · rfl

/-- With `sqrt` the non-negative square root, the normalized vector of a vector that is
not null has length 1. -/
theorem vec3_normalized_length (sqrt : K → K) (smallest : K)
    (hsqrt : ∀ d : K, 0 ≤ d → SqrtAt sqrt d) (v : Vec3 K) (hv : v ≠ ⟨0, 0, 0⟩) :
    (v.normalized sqrt smallest).length sqrt smallest = 1 := by
  have hl : v.length sqrt smallest ≠ 0 := fun h =>
    hv ((vec3_length_eq_zero_iff sqrt smallest hsqrt v).mp h)
  have hn : v.normalized sqrt smallest =
      ⟨v.x / v.length sqrt smallest,
        v.y / v.length sqrt smallest,
        v.z / v.length sqrt smallest⟩ := by
    simp only [Vec3.normalized, if_neg hl]
  have hsq : v.length sqrt smallest * v.length sqrt smallest =
      v.x * v.x + v.y * v.y + v.z * v.z := by
    rw [vec3_length_eq_sqrt sqrt smallest hsqrt]
    exact (hsqrt _ (vec3_length2_nonneg v)).2
  rw [hn, vec3_length_eq_sqrt sqrt smallest hsqrt]
  apply sqrt_unique sqrt hsqrt _ 1 zero_le_one
  show (1 : K) * 1 = v.x / v.length sqrt smallest * (v.x / v.length sqrt smallest) +
    v.y / v.length sqrt smallest * (v.y / v.length sqrt smallest) +
    v.z / v.length sqrt smallest * (v.z / v.length sqrt smallest)
  field_simp
  linear_combination hsq

/-- When the length is not zero, the six members of the normalize family give the
vector of the `v[i] / v.length ()`. -/
theorem vec3_normalize_family (sqrt : K → K) (smallest : K) (v : Vec3 K)
    (hl : v.length sqrt smallest ≠ 0) :
    v.normalize sqrt smallest =
        ⟨v.x / v.length sqrt smallest,
        v.y / v.length sqrt smallest,
        v.z / v.length sqrt smallest⟩ ∧
      v.normalizeExc sqrt smallest = Except.ok (v.normalize sqrt smallest) ∧
      v.normalizeNonNull sqrt smallest = v.normalize sqrt smallest ∧
      v.normalized sqrt smallest = v.normalize sqrt smallest ∧
      v.normalizedExc sqrt smallest = Except.ok (v.normalize sqrt smallest) ∧
      v.normalizedNonNull sqrt smallest = v.normalize sqrt smallest := by
  simp [Vec3.normalize, Vec3.normalizeExc, Vec3.normalizeNonNull, Vec3.normalized,
    Vec3.normalizedExc, Vec3.normalizedNonNull, hl]

/-- What `Vec3<T>::equalWithAbsError` tests, component by component. -/
theorem vec3_equalWithAbsError_iff (a v : Vec3 K) (e : K) :
    a.equalWithAbsError v e = true ↔
      |a.x - v.x| ≤ e ∧ |a.y - v.y| ≤ e ∧ |a.z - v.z| ≤ e := by
  simp [Vec3.equalWithAbsError, Imath.equalWithAbsError, Vec3.get, List.range_succ]

/-- What `Vec3<T>::equalWithRelError` tests, component by component. -/
theorem vec3_equalWithRelError_iff (a v : Vec3 K) (e : K) :
    a.equalWithRelError v e = true ↔
      |a.x - v.x| ≤ e * |a.x| ∧ |a.y - v.y| ≤ e * |a.y| ∧ |a.z - v.z| ≤ e * |a.z| := by
  simp [Vec3.equalWithRelError, Imath.equalWithRelError, Vec3.get, List.range_succ]

/-- The relative test can be turned round towards the vector with the larger
components. -/
theorem vec3_equalWithRelError_swap (a b : Vec3 K) (e : K)
    (hge : |b.x| ≤ |a.x| ∧ |b.y| ≤ |a.y| ∧ |b.z| ≤ |a.z|)
    (h : b.equalWithRelError a e = true) : a.equalWithRelError b e = true := by
  rw [vec3_equalWithRelError_iff] at h ⊢
  obtain ⟨hx, hy, hz⟩ := h
  obtain ⟨gx, gy, gz⟩ := hge
  exact ⟨rel_error_swap e _ _ gx hx, rel_error_swap e _ _ gy hy, rel_error_swap e _ _ gz hz⟩

/-! ## Vec4: the length as a square root, the normalize family, approximate equality -/

/-- The maximum absolute component is not negative. -/
theorem vec4_maxAbs_nonneg (v : Vec4 K) : 0 ≤ v.maxAbs :=
  le_trans (abs_nonneg v.w) (le_max_right _ _)

/-- With `sqrt` the non-negative square root, `length` is `sqrt (length2)` on either
side of the `2 * smallest` threshold. -/
theorem vec4_length_eq_sqrt (sqrt : K → K) (smallest : K)
    (hsqrt : ∀ d : K, 0 ≤ d → SqrtAt sqrt d) (v : Vec4 K) :
    v.length sqrt smallest = sqrt v.length2 := by
  rw [vec4_length_eq_specLength]
  unfold Vec4.specLength
  split_ifs with h1 h2
  · have hv := (vec4_maxAbs_eq_zero_iff v).mp h2
    have h0 : v.length2 = 0 := (vec4_length2_eq_zero_iff v).mpr hv
    rw [h0]
    exact ((sqrt_eq_zero_iff sqrt 0 (hsqrt 0 le_rfl)).mpr rfl).symm
  · symm
    have hS : 0 ≤ (|v.x| / v.maxAbs) ^ 2 +
        (|v.y| / v.maxAbs) ^ 2 +
        (|v.z| / v.maxAbs) ^ 2 +
        (|v.w| / v.maxAbs) ^ 2 := by
      positivity
    obtain ⟨hs0, hs1⟩ := hsqrt _ hS
    apply sqrt_unique sqrt hsqrt
    · exact mul_nonneg (vec4_maxAbs_nonneg v) hs0
    · have hm : ∀ m c : K, c * c = (|v.x| / v.maxAbs) ^ 2 +
        (|v.y| / v.maxAbs) ^ 2 +
        (|v.z| / v.maxAbs) ^ 2 +
        (|v.w| / v.maxAbs) ^ 2 →
          m * c * (m * c) = m * m * ((|v.x| / v.maxAbs) ^ 2 +
        (|v.y| / v.maxAbs) ^ 2 +
        (|v.z| / v.maxAbs) ^ 2 +
        (|v.w| / v.maxAbs) ^ 2) := by
        intro m c hc
        linear_combination (m * m) * hc
      rw [hm _ _ hs1]
      show _ = v.x * v.x + v.y * v.y + v.z * v.z + v.w * v.w
      field_simp
      ring
  · rfl

/-- With `sqrt` the non-negative square root, the normalized vector of a vector that is
not null has length 1. -/
theorem vec4_normalized_length (sqrt : K → K) (smallest : K)
    (hsqrt : ∀ d : K, 0 ≤ d → SqrtAt sqrt d) (v : Vec4 K) (hv : v ≠ ⟨0, 0, 0, 0⟩) :
    (v.normalized sqrt smallest).length sqrt smallest = 1 := by
  have hl : v.length sqrt smallest ≠ 0 := fun h =>
    hv ((vec4_length_eq_zero_iff sqrt smallest hsqrt v).mp h)
  have hn : v.normalized sqrt smallest =
      ⟨v.x / v.length sqrt smallest,
        v.y / v.length sqrt smallest,
        v.z / v.length sqrt smallest,
        v.w / v.length sqrt smallest⟩ := by
    simp only [Vec4.normalized, if_neg hl]
  have hsq : v.length sqrt smallest * v.length sqrt smallest =
      v.x * v.x + v.y * v.y + v.z * v.z + v.w * v.w := by
    rw [vec4_length_eq_sqrt sqrt smallest hsqrt]
    exact (hsqrt _ (vec4_length2_nonneg v)).2
  rw [hn, vec4_length_eq_sqrt sqrt smallest hsqrt]
  apply sqrt_unique sqrt hsqrt _ 1 zero_le_one
  show (1 : K) * 1 = v.x / v.length sqrt smallest * (v.x / v.length sqrt smallest) +
    v.y / v.length sqrt smallest * (v.y / v.length sqrt smallest) +
    v.z / v.length sqrt smallest * (v.z / v.length sqrt smallest) +
    v.w / v.length sqrt smallest * (v.w / v.length sqrt smallest)
  field_simp
  linear_combination hsq

/-- When the length is not zero, the six members of the normalize family give the
vector of the `v[i] / v.length ()`. -/
theorem vec4_normalize_family (sqrt : K → K) (smallest : K) (v : Vec4 K)
    (hl : v.length sqrt smallest ≠ 0) :
    v.normalize sqrt smallest =
        ⟨v.x / v.length sqrt smallest,
        v.y / v.length sqrt smallest,
        v.z / v.length sqrt smallest,
        v.w / v.length sqrt smallest⟩ ∧
      v.normalizeExc sqrt smallest = Except.ok (v.normalize sqrt smallest) ∧
      v.normalizeNonNull sqrt smallest = v.normalize sqrt smallest ∧
      v.normalized sqrt smallest = v.normalize sqrt smallest ∧
      v.normalizedExc sqrt smallest = Except.ok (v.normalize sqrt smallest) ∧
      v.normalizedNonNull sqrt smallest = v.normalize sqrt smallest := by
  simp [Vec4.normalize, Vec4.normalizeExc, Vec4.normalizeNonNull, Vec4.normalized,
    Vec4.normalizedExc, Vec4.normalizedNonNull, hl]

/-- What `Vec4<T>::equalWithAbsError` tests, component by component. -/
theorem vec4_equalWithAbsError_iff (a v : Vec4 K) (e : K) :
    a.equalWithAbsError v e = true ↔
      |a.x - v.x| ≤ e ∧ |a.y - v.y| ≤ e ∧ |a.z - v.z| ≤ e ∧ |a.w - v.w| ≤ e := by
  simp [Vec4.equalWithAbsError, Imath.equalWithAbsError, Vec4.get, List.range_succ]

/-- What `Vec4<T>::equalWithRelError` tests, component by component. -/
theorem vec4_equalWithRelError_iff (a v : Vec4 K) (e : K) :
    a.equalWithRelError v e = true ↔
      |a.x - v.x| ≤ e * |a.x| ∧ |a.y - v.y| ≤ e * |a.y| ∧ |a.z - v.z| ≤ e * |a.z| ∧
        |a.w - v.w| ≤ e * |a.w| := by
  simp [Vec4.equalWithRelError, Imath.equalWithRelError, Vec4.get, List.range_succ]

/-- The relative test can be turned round towards the vector with the larger
components. -/
theorem vec4_equalWithRelError_swap (a b : Vec4 K) (e : K)
    (hge : |b.x| ≤ |a.x| ∧ |b.y| ≤ |a.y| ∧ |b.z| ≤ |a.z| ∧ |b.w| ≤ |a.w|)
    (h : b.equalWithRelError a e = true) : a.equalWithRelError b e = true := by
  rw [vec4_equalWithRelError_iff] at h ⊢
  obtain ⟨hx, hy, hz, hw⟩ := h
  obtain ⟨gx, gy, gz, gw⟩ := hge
  exact ⟨rel_error_swap e _ _ gx hx, rel_error_swap e _ _ gy hy, rel_error_swap e _ _ gz hz,
    rel_error_swap e _ _ gw hw⟩

/-! ## The checked Vec4 to Vec3 conversion -/

/-- The two outcomes of `Vec3 (const Vec4<S>& v, InfException)`: it throws when `w` is
zero, and when it does not throw `w` is not zero, the result is `(x/w, y/w, z/w)` and
components of magnitude at most `baseTypeMax` give quotients of magnitude at most
`baseTypeMax`. -/
theorem ofVec4Exc_outcomes (baseTypeMax : K) (v : Vec4 K) :
    (v.w = 0 → Vec3.ofVec4Exc baseTypeMax v =
        Except.error "Cannot normalize point at infinity.") ∧
      ∀ r : Vec3 K, Vec3.ofVec4Exc baseTypeMax v = Except.ok r →
        v.w ≠ 0 ∧ r = ⟨v.x / v.w, v.y / v.w, v.z / v.w⟩ ∧
          (|v.x| ≤ baseTypeMax → |v.y| ≤ baseTypeMax → |v.z| ≤ baseTypeMax →
            |r.x| ≤ baseTypeMax ∧ |r.y| ≤ baseTypeMax ∧ |r.z| ≤ baseTypeMax) := by
  constructor
  · intro hw
    have h0 : ∀ c : K, c ≤ 0 ∨ c ≥ 0 ∨ v.y ≤ 0 ∨ v.y ≥ 0 ∨ v.z ≤ 0 ∨ v.z ≥ 0 := by
      intro c
      rcases le_total c 0 with h | h
      · exact Or.inl h
      · exact Or.inr (Or.inl h)
    simp [Vec3.ofVec4Exc, hw, h0]
  · intro r hr
    simp only [Vec3.ofVec4Exc, cond_abs] at hr
    have big : ∀ c : K, 1 ≤ |v.w| → |c| ≤ baseTypeMax → |c / v.w| ≤ baseTypeMax := by
      intro c hw hc
      rw [abs_div]
      exact le_trans (div_le_self (abs_nonneg c) hw) hc
    have small : ∀ c : K, 0 < |v.w| → ¬(c ≤ -(baseTypeMax * |v.w|)) →
        ¬(c ≥ baseTypeMax * |v.w|) → |c / v.w| ≤ baseTypeMax := by
      intro c hw h1 h2
      rw [abs_div, div_le_iff₀ hw, abs_le]
      exact ⟨(not_le.mp h1).le, (not_le.mp h2).le⟩
    by_cases hlt : |v.w| < 1
    · rw [if_pos hlt] at hr
      by_cases hc : v.x ≤ -(baseTypeMax * |v.w|) ∨ v.x ≥ baseTypeMax * |v.w| ∨
          v.y ≤ -(baseTypeMax * |v.w|) ∨ v.y ≥ baseTypeMax * |v.w| ∨
          v.z ≤ -(baseTypeMax * |v.w|) ∨ v.z ≥ baseTypeMax * |v.w|
      · rw [if_pos hc] at hr
        exact absurd hr (by simp)
      · rw [if_neg hc] at hr
        have hr2 : (⟨v.x / v.w, v.y / v.w, v.z / v.w⟩ : Vec3 K) = r := Except.ok.inj hr
        simp only [not_or] at hc
        obtain ⟨c1, c2, c3, c4, c5, c6⟩ := hc
        have hw : v.w ≠ 0 := by
          intro h0
          rw [h0, abs_zero, mul_zero, neg_zero] at c1
          rw [h0, abs_zero, mul_zero] at c2
          exact c2 (le_of_lt (not_le.mp c1))
        have hwpos : 0 < |v.w| := abs_pos.mpr hw
        refine ⟨hw, hr2.symm, fun _ _ _ => ?_⟩
        rw [← hr2]
        exact ⟨small _ hwpos c1 c2, small _ hwpos c3 c4, small _ hwpos c5 c6⟩
    · rw [if_neg hlt] at hr
      have hr2 : (⟨v.x / v.w, v.y / v.w, v.z / v.w⟩ : Vec3 K) = r := Except.ok.inj hr
      have hge : 1 ≤ |v.w| := not_lt.mp hlt
      have hw : v.w ≠ 0 := by
        intro h0
        rw [h0, abs_zero] at hge
        exact absurd hge (by norm_num)
      refine ⟨hw, hr2.symm, fun hx hy hz => ?_⟩
      rw [← hr2]
      exact ⟨big _ hge hx, big _ hge hy, big _ hge hz⟩

/-! ## Cardano's formula in a commutative ring -/

/-- From `u^3 = w - q/2`, `w^2 = (p/3)^3 + (q/2)^2` and `u*v = -p/3`, with `u` invertible:
`u^3 + v^3 = -q`. -/
theorem cardano_sum_of_cubes {R : Type} [CommRing R] (u v w uinv P3 Hq Q : R)
    (hinv : uinv * u = 1) (hu3 : u * u * u = w - Hq) (hw : w * w = P3 * P3 * P3 + Hq * Hq)
    (hq2 : Hq + Hq = Q) (huv : u * v = -P3) : u * u * u + v * v * v = -Q := by
  have e1 : u * v * (u * v) * (u * v) = -(P3 * P3 * P3) := by
    rw [huv]
    ring
  have hz2 : (w - Hq) * (w - Hq) + Q * (w - Hq) = P3 * P3 * P3 := by
    linear_combination hw - (w - Hq) * hq2
  have hX : u * u * u * (u * u * u + v * v * v + Q) = 0 := by
    have h : u * u * u * (u * u * u + v * v * v + Q) =
        u * u * u * (u * u * u) + Q * (u * u * u) + u * v * (u * v) * (u * v) := by ring
    rw [h, e1, hu3]
    linear_combination hz2
  linear_combination (uinv * uinv * uinv) * hX -
    (u * u * u + v * v * v + Q) * (1 + uinv * u + uinv * u * (uinv * u)) * hinv

/-- From `u*v = -p/3` and `u^3 + v^3 = -q`: the three candidates `u + v`,
`-(u + v)/2 + (u - v)/2 * i3` and `-(u + v)/2 - (u - v)/2 * i3`, with `i3^2 = -3`, are the
roots of `y^3 + p*y + q`. -/
theorem cardano_factors {R : Type} [CommRing R] (u v i3 h y0 y1 y2 P3 P Q y : R)
    (hi : i3 * i3 + 1 + 1 + 1 = 0) (hh : h + h = 1) (huv : u * v = -P3)
    (hp3 : P3 + P3 + P3 = P) (hcube : u * u * u + v * v * v = -Q) (h0 : y0 = u + v)
    (h1 : y1 = h * -(u + v) + h * (u - v) * i3) (h2 : y2 = h * -(u + v) - h * (u - v) * i3) :
    y * y * y + P * y + Q = (y - y0) * (y - y1) * (y - y2) := by
  have hs : y1 + y2 = -(u + v) := by
    rw [h1, h2]
    linear_combination (-(u + v)) * hh
  have hp : y1 * y2 = u * u - u * v + v * v := by
    rw [h1, h2]
    linear_combination (-(h * h * (u - v) * (u - v))) * hi +
      ((2 * h + 1) * (u * u - u * v + v * v)) * hh
  have key : (y - y0) * (y - y1) * (y - y2) =
      (y - y0) * (y * y - (y1 + y2) * y + y1 * y2) := by ring
  rw [key, hs, hp, h0]
  linear_combination (3 * y) * huv - y * hp3 + hcube

/-! ## The complex numbers over `K`: the facts Cardano's formula needs -/

/-- A complex number that is not zero has a norm that is not zero. -/
theorem cx_norm_ne_zero (u : Cx K) (hne : u ≠ ⟨0, 0⟩) : u.re * u.re + u.im * u.im ≠ 0 := by
  intro h
  apply hne
  have hre : u.re * u.re = 0 :=
    le_antisymm (by linarith [mul_self_nonneg u.im]) (mul_self_nonneg _)
  have him : u.im * u.im = 0 :=
    le_antisymm (by linarith [mul_self_nonneg u.re]) (mul_self_nonneg _)
  exact Cx.ext (mul_self_eq_zero.mp hre) (mul_self_eq_zero.mp him)

/-- The quotient `1 / u` is the inverse of `u ≠ 0`. -/
theorem cx_inv_mul (u : Cx K) (hne : u ≠ ⟨0, 0⟩) : Cx.scalarDiv 1 u * u = 1 := by
  have hn := cx_norm_ne_zero u hne
  apply Cx.ext
  · show (1 * u.re + 0 * u.im) / (u.re * u.re + u.im * u.im) * u.re -
      (0 * u.re - 1 * u.im) / (u.re * u.re + u.im * u.im) * u.im = 1
    field_simp
  · show (1 * u.re + 0 * u.im) / (u.re * u.re + u.im * u.im) * u.im +
      (0 * u.re - 1 * u.im) / (u.re * u.re + u.im * u.im) * u.re = 0
    field_simp
    ring

/-- With `v = -p / (3 * u)` and `u ≠ 0`: `u * v = -p/3`. -/
theorem cx_mul_cubicV (p : K) (u : Cx K) (hne : u ≠ ⟨0, 0⟩) :
    u * Cx.scalarDiv (-p) (Cx.scalarMul 3 u) = -Cx.ofReal (p / 3) := by
  have hn := cx_norm_ne_zero u hne
  have hd : 3 * u.re * (3 * u.re) + 3 * u.im * (3 * u.im) ≠ 0 := by
    intro h
    apply hn
    linear_combination (1 / 9 : K) * h
  apply Cx.ext
  · show u.re * ((-p * (3 * u.re) + 0 * (3 * u.im)) /
        (3 * u.re * (3 * u.re) + 3 * u.im * (3 * u.im))) -
      u.im * ((0 * (3 * u.re) - -p * (3 * u.im)) /
        (3 * u.re * (3 * u.re) + 3 * u.im * (3 * u.im))) = -(p / 3)
    field_simp
    ring
  · show u.re * ((0 * (3 * u.re) - -p * (3 * u.im)) /
        (3 * u.re * (3 * u.re) + 3 * u.im * (3 * u.im))) +
      u.im * ((-p * (3 * u.re) + 0 * (3 * u.im)) /
        (3 * u.re * (3 * u.re) + 3 * u.im * (3 * u.im))) = -0
    field_simp
    ring

/-- Dividing a complex number by the scalar 2 is multiplying it by `1/2`. -/
theorem cx_divScalar_two (z : Cx K) : Cx.divScalar z 2 = Cx.ofReal (1 / 2) * z := by
  apply Cx.ext
  · show z.re / 2 = 1 / 2 * z.re - 0 * z.im
    ring
  · show z.im / 2 = 1 / 2 * z.im + 0 * z.re
    ring

/-- Adding the scalar `-q / 2` to a complex number is subtracting the complex `q/2`. -/
theorem cx_addScalar_neg_half (q : K) (w : Cx K) :
    Cx.addScalar (-q / 2) w = w - Cx.ofReal (q / 2) := by
  apply Cx.ext
  · show -q / 2 + w.re = w.re - q / 2
    ring
  · show w.im = w.im - 0
    ring

/-- The discriminant `D` as a complex number. -/
theorem cx_ofReal_cubicD (r s t : K) :
    Cx.ofReal (cubicD r s t) =
      Cx.ofReal (cubicP r s / 3) * Cx.ofReal (cubicP r s / 3) * Cx.ofReal (cubicP r s / 3) +
        Cx.ofReal (cubicQ r s t / 2) * Cx.ofReal (cubicQ r s t / 2) := by
  apply Cx.ext
  · show cubicP r s / 3 * (cubicP r s / 3) * (cubicP r s / 3) +
        cubicQ r s t / 2 * (cubicQ r s t / 2) =
      (cubicP r s / 3 * (cubicP r s / 3) - 0 * 0) * (cubicP r s / 3) -
          (cubicP r s / 3 * 0 + 0 * (cubicP r s / 3)) * 0 +
        (cubicQ r s t / 2 * (cubicQ r s t / 2) - 0 * 0)
    ring
  · show (0 : K) = (cubicP r s / 3 * (cubicP r s / 3) - 0 * 0) * 0 +
          (cubicP r s / 3 * 0 + 0 * (cubicP r s / 3)) * (cubicP r s / 3) +
        (cubicQ r s t / 2 * 0 + 0 * (cubicQ r s t / 2))
    ring

/-- The factorization of the depressed cubic by the three candidates of
`solveNormalizedCubic`, for a square root `w` of `D` and a cube root `u ≠ 0` of
`-q/2 + w`. -/
theorem cx_cardano (sqrt3 : K) (csqrt : Cx K → Cx K) (cpow : Cx K → K → Cx K) (r s t : K)
    (h3 : sqrt3 * sqrt3 = 3)
    (hw : csqrt (Cx.ofReal (cubicD r s t)) * csqrt (Cx.ofReal (cubicD r s t)) =
      Cx.ofReal (cubicD r s t))
    (hu3 : cubicU csqrt cpow r s t * cubicU csqrt cpow r s t * cubicU csqrt cpow r s t =
      Cx.addScalar (-cubicQ r s t / 2) (csqrt (Cx.ofReal (cubicD r s t))))
    (hne : cubicU csqrt cpow r s t ≠ ⟨0, 0⟩) (y : Cx K) :
    y * y * y + Cx.ofReal (cubicP r s) * y + Cx.ofReal (cubicQ r s t) =
      (y - cubicY0 csqrt cpow r s t) * (y - cubicY1 sqrt3 csqrt cpow r s t) *
        (y - cubicY2 sqrt3 csqrt cpow r s t) := by
  have huv : cubicU csqrt cpow r s t * cubicV csqrt cpow r s t =
      -Cx.ofReal (cubicP r s / 3) := cx_mul_cubicV (cubicP r s) _ hne
  have hq2 : Cx.ofReal (cubicQ r s t / 2) + Cx.ofReal (cubicQ r s t / 2) =
      Cx.ofReal (cubicQ r s t) := by
    apply Cx.ext
    · show cubicQ r s t / 2 + cubicQ r s t / 2 = cubicQ r s t
      ring
    · show (0 : K) + 0 = 0
      ring
  have hp3 : Cx.ofReal (cubicP r s / 3) + Cx.ofReal (cubicP r s / 3) +
      Cx.ofReal (cubicP r s / 3) = Cx.ofReal (cubicP r s) := by
    apply Cx.ext
    · show cubicP r s / 3 + cubicP r s / 3 + cubicP r s / 3 = cubicP r s
      ring
    · show (0 : K) + 0 + 0 = 0
      ring
  have hi : (⟨0, sqrt3⟩ : Cx K) * ⟨0, sqrt3⟩ + 1 + 1 + 1 = 0 := by
    apply Cx.ext
    · show 0 * 0 - sqrt3 * sqrt3 + 1 + 1 + 1 = (0 : K)
      linear_combination -h3
    · show 0 * sqrt3 + sqrt3 * 0 + 0 + 0 + 0 = (0 : K)
      ring
  have hh : Cx.ofReal (1 / 2 : K) + Cx.ofReal (1 / 2) = 1 := by
    apply Cx.ext
    · show (1 / 2 : K) + 1 / 2 = 1
      norm_num
    · show (0 : K) + 0 = 0
      ring
  rw [cx_addScalar_neg_half] at hu3
  have hcube := cardano_sum_of_cubes _ (cubicV csqrt cpow r s t) _ _ _ _ _
    (cx_inv_mul _ hne) hu3 (hw.trans (cx_ofReal_cubicD r s t)) hq2 huv
  refine cardano_factors _ _ _ _ _ _ _ _ _ _ y hi hh huv hp3 hcube rfl ?_ ?_
  · show Cx.divScalar _ 2 + Cx.divScalar _ 2 * _ = _
    rw [cx_divScalar_two, cx_divScalar_two]
  · show Cx.divScalar _ 2 - Cx.divScalar _ 2 * _ = _
    rw [cx_divScalar_two, cx_divScalar_two]

/-- With principal roots, `D ≤ 0` and `p ≠ 0`, the cube root `u` is not zero. -/
theorem cubicU_ne_zero_of_nonpos (csqrt : Cx K → Cx K) (cpow : Cx K → K → Cx K) (r s t : K)
    (hroots : PrincipalRootsAt csqrt cpow r s t) (hD : cubicD r s t ≤ 0)
    (hp : cubicP r s ≠ 0) : cubicU csqrt cpow r s t ≠ ⟨0, 0⟩ := by
  obtain ⟨a, b, hu, -, hpeq, -⟩ := cardano_nonpos 0 csqrt cpow r s t hroots hD hp
  rw [hu]
  intro h
  have ha : a = 0 := congrArg Cx.re h
  have hb : b = 0 := congrArg Cx.im h
  apply hp
  rw [hpeq, ha, hb]
  ring

/-! ## Vec2: the locals of `lengthTiny`, bounds, scaling back, the receiver -/

/-- The value `Vec2<T>::lengthTiny` returns, from its locals `max` and `abs...`. -/
theorem vec2_lengthTiny_locals (sqrt : K → K) (v : Vec2 K) :
    v.lengthTiny sqrt =
      if v.lengthTinyMax = 0 then 0
      else v.lengthTinyMax * sqrt (v.lengthTinyScaled.x * v.lengthTinyScaled.x +
          v.lengthTinyScaled.y * v.lengthTinyScaled.y) :=
  rfl

/-- The local `max` is the maximum absolute component. -/
theorem vec2_lengthTinyMax_eq (v : Vec2 K) : v.lengthTinyMax = v.maxAbs := by
  simp only [Vec2.lengthTinyMax, Vec2.maxAbs, running_max, cond_abs]

/-- The scaled locals are the absolute components over the maximum one. -/
theorem vec2_lengthTinyScaled_eq (v : Vec2 K) :
    v.lengthTinyScaled = ⟨|v.x| / v.maxAbs, |v.y| / v.maxAbs⟩ := by
  simp only [Vec2.lengthTinyScaled, Vec2.maxAbs, running_max, cond_abs]

/-- When the maximum absolute component is not zero, every absolute component over it
is in `[0, 1]`, and one of them is 1. -/
theorem vec2_scaled_bounds (v : Vec2 K) (hm : v.maxAbs ≠ 0) :
    (0 ≤ |v.x| / v.maxAbs ∧ |v.x| / v.maxAbs ≤ 1) ∧
      (0 ≤ |v.y| / v.maxAbs ∧ |v.y| / v.maxAbs ≤ 1) ∧
      (|v.x| / v.maxAbs = 1 ∨ |v.y| / v.maxAbs = 1) := by
  have hpos : 0 < v.maxAbs := lt_of_le_of_ne (vec2_maxAbs_nonneg v) (Ne.symm hm)
  have hx : |v.x| ≤ v.maxAbs := by
    unfold Vec2.maxAbs
    simp [le_max_iff]
  have hy : |v.y| ≤ v.maxAbs := by
    unfold Vec2.maxAbs
    simp [le_max_iff]
  have hch : |v.x| = v.maxAbs ∨ |v.y| = v.maxAbs := by
    unfold Vec2.maxAbs
    simp only [max_def]
    split_ifs <;> simp
  refine ⟨⟨div_nonneg (abs_nonneg _) hpos.le, (div_le_one hpos).mpr hx⟩,
      ⟨div_nonneg (abs_nonneg _) hpos.le, (div_le_one hpos).mpr hy⟩, ?_⟩
  rcases hch with h | h
  · exact Or.inl (by rw [h]; exact div_self hm)
  · exact Or.inr ((by rw [h]; exact div_self hm))

/-- With `sqrt` the non-negative square root, `lengthTiny` is `sqrt (length2)`. -/
theorem vec2_lengthTiny_eq_sqrt (sqrt : K → K)
    (hsqrt : ∀ d : K, 0 ≤ d → SqrtAt sqrt d) (v : Vec2 K) :
    v.lengthTiny sqrt = sqrt v.length2 := by
  have h := vec2_length_eq_sqrt sqrt (v.length2 + 1) hsqrt v
  have hlt : v.dot v < 2 * (v.length2 + 1) := by
    have := vec2_length2_nonneg v
    show v.length2 < 2 * (v.length2 + 1)
    linarith
  simp only [Vec2.length, if_pos hlt] at h
  exact h

/-- With `sqrt` the non-negative square root, the length is not negative. -/
theorem vec2_length_nonneg (sqrt : K → K) (smallest : K)
    (hsqrt : ∀ d : K, 0 ≤ d → SqrtAt sqrt d) (v : Vec2 K) : 0 ≤ v.length sqrt smallest := by
  rw [vec2_length_eq_sqrt sqrt smallest hsqrt]
  exact (hsqrt _ (vec2_length2_nonneg v)).1

/-- With `sqrt` the non-negative square root, no component exceeds the length in
absolute value. -/
theorem vec2_abs_le_length (sqrt : K → K) (smallest : K)
    (hsqrt : ∀ d : K, 0 ≤ d → SqrtAt sqrt d) (v : Vec2 K) :
    |v.x| ≤ v.length sqrt smallest ∧ |v.y| ≤ v.length sqrt smallest := by
  have hl0 := vec2_length_nonneg sqrt smallest hsqrt v
  have hsq : v.length sqrt smallest * v.length sqrt smallest = v.x * v.x + v.y * v.y := by
    rw [vec2_length_eq_sqrt sqrt smallest hsqrt]
    exact (hsqrt _ (vec2_length2_nonneg v)).2
  refine ⟨?_, ?_⟩
  · apply abs_le_of_sq_le_sq _ hl0
    rw [pow_two, pow_two, hsq]
    linarith [mul_self_nonneg v.y]
  · apply abs_le_of_sq_le_sq _ hl0
    rw [pow_two, pow_two, hsq]
    linarith [mul_self_nonneg v.x]

/-- With `sqrt` the non-negative square root and a length that is not zero, every
component over the length is at most 1 in absolute value. -/
theorem vec2_abs_div_length_le_one (sqrt : K → K) (smallest : K)
    (hsqrt : ∀ d : K, 0 ≤ d → SqrtAt sqrt d) (v : Vec2 K) (hl : v.length sqrt smallest ≠ 0) :
    |v.x / v.length sqrt smallest| ≤ 1 ∧ |v.y / v.length sqrt smallest| ≤ 1 := by
  have hpos : 0 < v.length sqrt smallest :=
    lt_of_le_of_ne (vec2_length_nonneg sqrt smallest hsqrt v) (Ne.symm hl)
  have h := vec2_abs_le_length sqrt smallest hsqrt v
  have hdiv : ∀ c : K, |c| ≤ v.length sqrt smallest → |c / v.length sqrt smallest| ≤ 1 := by
    intro c hc
    rw [abs_div, abs_of_pos hpos]
    exact (div_le_one hpos).mpr hc
  exact ⟨hdiv _ h.1, hdiv _ h.2⟩

/-- With `sqrt` the non-negative square root, the normalized vector times the length is
the vector. -/
theorem vec2_normalized_mulScalar (sqrt : K → K) (smallest : K)
    (hsqrt : ∀ d : K, 0 ≤ d → SqrtAt sqrt d) (v : Vec2 K) :
    (v.normalized sqrt smallest).mulScalar (v.length sqrt smallest) = v := by
  by_cases hl : v.length sqrt smallest = 0
  · have hv := (vec2_length_eq_zero_iff sqrt smallest hsqrt v).mp hl
    simp only [Vec2.normalized, if_pos hl, Vec2.mulScalar, Vec2.splat, zero_mul]
    exact hv.symm
  · simp only [Vec2.normalized, if_neg hl, Vec2.mulScalar]
    rw [div_mul_cancel₀ _ hl, div_mul_cancel₀ _ hl]

/-- With `sqrt` the non-negative square root, normalizing a normalized vector changes
nothing. -/
theorem vec2_normalized_idem (sqrt : K → K) (smallest : K)
    (hsqrt : ∀ d : K, 0 ≤ d → SqrtAt sqrt d) (v : Vec2 K) :
    (v.normalized sqrt smallest).normalized sqrt smallest = v.normalized sqrt smallest := by
  by_cases hl : v.length sqrt smallest = 0
  · have h0 : v.normalized sqrt smallest = ⟨0, 0⟩ := by
      simp only [Vec2.normalized, if_pos hl, Vec2.splat]
    have hz : (⟨0, 0⟩ : Vec2 K).length sqrt smallest = 0 :=
      (vec2_length_eq_zero_iff sqrt smallest hsqrt _).mpr rfl
    rw [h0]
    simp only [Vec2.normalized, if_pos hz, Vec2.splat]
  · have hv : v ≠ ⟨0, 0⟩ := fun h =>
      hl ((vec2_length_eq_zero_iff sqrt smallest hsqrt v).mpr h)
    have h1 := vec2_normalized_length sqrt smallest hsqrt v hv
    have hone : ∀ n : Vec2 K, n.length sqrt smallest = 1 → n.normalized sqrt smallest = n := by
      intro n hn
      simp only [Vec2.normalized, hn, one_ne_zero, if_false, div_one]
    exact hone _ h1

/-- The two ways `normalizeExc` ends: with the throw and the receiver as it was, or with
the receiver divided by the length. -/
theorem vec2_normalizeExcReceiver_cases (sqrt : K → K) (smallest : K) (v : Vec2 K) :
    (v.length sqrt smallest = 0 ∧
        v.normalizeExcReceiver sqrt smallest = (v, some "Cannot normalize null vector.") ∧
        v.normalizeExc sqrt smallest = Except.error "Cannot normalize null vector.") ∨
      (v.length sqrt smallest ≠ 0 ∧
        v.normalizeExcReceiver sqrt smallest = (⟨v.x / v.length sqrt smallest,
            v.y / v.length sqrt smallest⟩, none) ∧
        v.normalizeExc sqrt smallest = Except.ok ⟨v.x / v.length sqrt smallest,
            v.y / v.length sqrt smallest⟩) := by
  by_cases hl : v.length sqrt smallest = 0
  · exact Or.inl ⟨hl, by simp only [Vec2.normalizeExcReceiver, if_pos hl],
      by simp only [Vec2.normalizeExc, if_pos hl]⟩
  · exact Or.inr ⟨hl, by simp only [Vec2.normalizeExcReceiver, if_neg hl],
      by simp only [Vec2.normalizeExc, if_neg hl]⟩

/-! ## Vec3: the locals of `lengthTiny`, bounds, scaling back, the receiver -/

/-- The value `Vec3<T>::lengthTiny` returns, from its locals `max` and `abs...`. -/
theorem vec3_lengthTiny_locals (sqrt : K → K) (v : Vec3 K) :
    v.lengthTiny sqrt =
      if v.lengthTinyMax = 0 then 0
      else v.lengthTinyMax * sqrt (v.lengthTinyScaled.x * v.lengthTinyScaled.x +
          v.lengthTinyScaled.y * v.lengthTinyScaled.y +
          v.lengthTinyScaled.z * v.lengthTinyScaled.z) :=
  rfl

/-- The local `max` is the maximum absolute component. -/
theorem vec3_lengthTinyMax_eq (v : Vec3 K) : v.lengthTinyMax = v.maxAbs := by
  simp only [Vec3.lengthTinyMax, Vec3.maxAbs, running_max, cond_abs]

/-- The scaled locals are the absolute components over the maximum one. -/
theorem vec3_lengthTinyScaled_eq (v : Vec3 K) :
    v.lengthTinyScaled = ⟨|v.x| / v.maxAbs, |v.y| / v.maxAbs, |v.z| / v.maxAbs⟩ := by
  simp only [Vec3.lengthTinyScaled, Vec3.maxAbs, running_max, cond_abs]

/-- When the maximum absolute component is not zero, every absolute component over it
is in `[0, 1]`, and one of them is 1. -/
theorem vec3_scaled_bounds (v : Vec3 K) (hm : v.maxAbs ≠ 0) :
    (0 ≤ |v.x| / v.maxAbs ∧ |v.x| / v.maxAbs ≤ 1) ∧
      (0 ≤ |v.y| / v.maxAbs ∧ |v.y| / v.maxAbs ≤ 1) ∧
      (0 ≤ |v.z| / v.maxAbs ∧ |v.z| / v.maxAbs ≤ 1) ∧
      (|v.x| / v.maxAbs = 1 ∨ |v.y| / v.maxAbs = 1 ∨ |v.z| / v.maxAbs = 1) := by
  have hpos : 0 < v.maxAbs := lt_of_le_of_ne (vec3_maxAbs_nonneg v) (Ne.symm hm)
  have hx : |v.x| ≤ v.maxAbs := by
    unfold Vec3.maxAbs
    simp [le_max_iff]
  have hy : |v.y| ≤ v.maxAbs := by
    unfold Vec3.maxAbs
    simp [le_max_iff]
  have hz : |v.z| ≤ v.maxAbs := by
    unfold Vec3.maxAbs
    simp [le_max_iff]
  have hch : |v.x| = v.maxAbs ∨ |v.y| = v.maxAbs ∨ |v.z| = v.maxAbs := by
    unfold Vec3.maxAbs
    simp only [max_def]
    split_ifs <;> simp
  refine ⟨⟨div_nonneg (abs_nonneg _) hpos.le, (div_le_one hpos).mpr hx⟩,
      ⟨div_nonneg (abs_nonneg _) hpos.le, (div_le_one hpos).mpr hy⟩,
      ⟨div_nonneg (abs_nonneg _) hpos.le, (div_le_one hpos).mpr hz⟩, ?_⟩
  rcases hch with h | h | h
  · exact Or.inl (by rw [h]; exact div_self hm)
  · exact Or.inr (Or.inl (by rw [h]; exact div_self hm))
  · exact Or.inr (Or.inr ((by rw [h]; exact div_self hm)))

/-- With `sqrt` the non-negative square root, `lengthTiny` is `sqrt (length2)`. -/
theorem vec3_lengthTiny_eq_sqrt (sqrt : K → K)
    (hsqrt : ∀ d : K, 0 ≤ d → SqrtAt sqrt d) (v : Vec3 K) :
    v.lengthTiny sqrt = sqrt v.length2 := by
  have h := vec3_length_eq_sqrt sqrt (v.length2 + 1) hsqrt v
  have hlt : v.dot v < 2 * (v.length2 + 1) := by
    have := vec3_length2_nonneg v
    show v.length2 < 2 * (v.length2 + 1)
    linarith
  simp only [Vec3.length, if_pos hlt] at h
  exact h

/-- With `sqrt` the non-negative square root, the length is not negative. -/
theorem vec3_length_nonneg (sqrt : K → K) (smallest : K)
    (hsqrt : ∀ d : K, 0 ≤ d → SqrtAt sqrt d) (v : Vec3 K) : 0 ≤ v.length sqrt smallest := by
  rw [vec3_length_eq_sqrt sqrt smallest hsqrt]
  exact (hsqrt _ (vec3_length2_nonneg v)).1

/-- With `sqrt` the non-negative square root, no component exceeds the length in
absolute value. -/
theorem vec3_abs_le_length (sqrt : K → K) (smallest : K)
    (hsqrt : ∀ d : K, 0 ≤ d → SqrtAt sqrt d) (v : Vec3 K) :
    |v.x| ≤ v.length sqrt smallest ∧ |v.y| ≤ v.length sqrt smallest ∧
        |v.z| ≤ v.length sqrt smallest := by
  have hl0 := vec3_length_nonneg sqrt smallest hsqrt v
  have hsq : v.length sqrt smallest * v.length sqrt smallest = v.x * v.x + v.y * v.y +
      v.z * v.z := by
    rw [vec3_length_eq_sqrt sqrt smallest hsqrt]
    exact (hsqrt _ (vec3_length2_nonneg v)).2
  refine ⟨?_, ?_, ?_⟩
  · apply abs_le_of_sq_le_sq _ hl0
    rw [pow_two, pow_two, hsq]
    linarith [mul_self_nonneg v.y, mul_self_nonneg v.z]
  · apply abs_le_of_sq_le_sq _ hl0
    rw [pow_two, pow_two, hsq]
    linarith [mul_self_nonneg v.x, mul_self_nonneg v.z]
  · apply abs_le_of_sq_le_sq _ hl0
    rw [pow_two, pow_two, hsq]
    linarith [mul_self_nonneg v.x, mul_self_nonneg v.y]

/-- With `sqrt` the non-negative square root and a length that is not zero, every
component over the length is at most 1 in absolute value. -/
theorem vec3_abs_div_length_le_one (sqrt : K → K) (smallest : K)
    (hsqrt : ∀ d : K, 0 ≤ d → SqrtAt sqrt d) (v : Vec3 K) (hl : v.length sqrt smallest ≠ 0) :
    |v.x / v.length sqrt smallest| ≤ 1 ∧ |v.y / v.length sqrt smallest| ≤ 1 ∧
        |v.z / v.length sqrt smallest| ≤ 1 := by
  have hpos : 0 < v.length sqrt smallest :=
    lt_of_le_of_ne (vec3_length_nonneg sqrt smallest hsqrt v) (Ne.symm hl)
  have h := vec3_abs_le_length sqrt smallest hsqrt v
  have hdiv : ∀ c : K, |c| ≤ v.length sqrt smallest → |c / v.length sqrt smallest| ≤ 1 := by
    intro c hc
    rw [abs_div, abs_of_pos hpos]
    exact (div_le_one hpos).mpr hc
  exact ⟨hdiv _ h.1, hdiv _ h.2.1, hdiv _ h.2.2⟩

/-- With `sqrt` the non-negative square root, the normalized vector times the length is
the vector. -/
theorem vec3_normalized_mulScalar (sqrt : K → K) (smallest : K)
    (hsqrt : ∀ d : K, 0 ≤ d → SqrtAt sqrt d) (v : Vec3 K) :
    (v.normalized sqrt smallest).mulScalar (v.length sqrt smallest) = v := by
  by_cases hl : v.length sqrt smallest = 0
  · have hv := (vec3_length_eq_zero_iff sqrt smallest hsqrt v).mp hl
    simp only [Vec3.normalized, if_pos hl, Vec3.mulScalar, Vec3.splat, zero_mul]
    exact hv.symm
  · simp only [Vec3.normalized, if_neg hl, Vec3.mulScalar]
    rw [div_mul_cancel₀ _ hl, div_mul_cancel₀ _ hl, div_mul_cancel₀ _ hl]

/-- With `sqrt` the non-negative square root, normalizing a normalized vector changes
nothing. -/
theorem vec3_normalized_idem (sqrt : K → K) (smallest : K)
    (hsqrt : ∀ d : K, 0 ≤ d → SqrtAt sqrt d) (v : Vec3 K) :
    (v.normalized sqrt smallest).normalized sqrt smallest = v.normalized sqrt smallest := by
  by_cases hl : v.length sqrt smallest = 0
  · have h0 : v.normalized sqrt smallest = ⟨0, 0, 0⟩ := by
      simp only [Vec3.normalized, if_pos hl, Vec3.splat]
    have hz : (⟨0, 0, 0⟩ : Vec3 K).length sqrt smallest = 0 :=
      (vec3_length_eq_zero_iff sqrt smallest hsqrt _).mpr rfl
    rw [h0]
    simp only [Vec3.normalized, if_pos hz, Vec3.splat]
  · have hv : v ≠ ⟨0, 0, 0⟩ := fun h =>
      hl ((vec3_length_eq_zero_iff sqrt smallest hsqrt v).mpr h)
    have h1 := vec3_normalized_length sqrt smallest hsqrt v hv
    have hone : ∀ n : Vec3 K, n.length sqrt smallest = 1 → n.normalized sqrt smallest = n := by
      intro n hn
      simp only [Vec3.normalized, hn, one_ne_zero, if_false, div_one]
    exact hone _ h1

/-- The two ways `normalizeExc` ends: with the throw and the receiver as it was, or with
the receiver divided by the length. -/
theorem vec3_normalizeExcReceiver_cases (sqrt : K → K) (smallest : K) (v : Vec3 K) :
    (v.length sqrt smallest = 0 ∧
        v.normalizeExcReceiver sqrt smallest = (v, some "Cannot normalize null vector.") ∧
        v.normalizeExc sqrt smallest = Except.error "Cannot normalize null vector.") ∨
      (v.length sqrt smallest ≠ 0 ∧
        v.normalizeExcReceiver sqrt smallest = (⟨v.x / v.length sqrt smallest,
            v.y / v.length sqrt smallest, v.z / v.length sqrt smallest⟩, none) ∧
        v.normalizeExc sqrt smallest = Except.ok ⟨v.x / v.length sqrt smallest,
            v.y / v.length sqrt smallest, v.z / v.length sqrt smallest⟩) := by
  by_cases hl : v.length sqrt smallest = 0
  · exact Or.inl ⟨hl, by simp only [Vec3.normalizeExcReceiver, if_pos hl],
      by simp only [Vec3.normalizeExc, if_pos hl]⟩
  · exact Or.inr ⟨hl, by simp only [Vec3.normalizeExcReceiver, if_neg hl],
      by simp only [Vec3.normalizeExc, if_neg hl]⟩

/-! ## Vec4: the locals of `lengthTiny`, bounds, scaling back, the receiver -/

/-- The value `Vec4<T>::lengthTiny` returns, from its locals `max` and `abs...`. -/
theorem vec4_lengthTiny_locals (sqrt : K → K) (v : Vec4 K) :
    v.lengthTiny sqrt =
      if v.lengthTinyMax = 0 then 0
      else v.lengthTinyMax * sqrt (v.lengthTinyScaled.x * v.lengthTinyScaled.x +
          v.lengthTinyScaled.y * v.lengthTinyScaled.y +
          v.lengthTinyScaled.z * v.lengthTinyScaled.z +
          v.lengthTinyScaled.w * v.lengthTinyScaled.w) :=
  rfl

/-- The local `max` is the maximum absolute component. -/
theorem vec4_lengthTinyMax_eq (v : Vec4 K) : v.lengthTinyMax = v.maxAbs := by
  simp only [Vec4.lengthTinyMax, Vec4.maxAbs, running_max, cond_abs]

/-- The scaled locals are the absolute components over the maximum one. -/
theorem vec4_lengthTinyScaled_eq (v : Vec4 K) :
    v.lengthTinyScaled = ⟨|v.x| / v.maxAbs, |v.y| / v.maxAbs, |v.z| / v.maxAbs,
        |v.w| / v.maxAbs⟩ := by
  simp only [Vec4.lengthTinyScaled, Vec4.maxAbs, running_max, cond_abs]

/-- When the maximum absolute component is not zero, every absolute component over it
is in `[0, 1]`, and one of them is 1. -/
theorem vec4_scaled_bounds (v : Vec4 K) (hm : v.maxAbs ≠ 0) :
    (0 ≤ |v.x| / v.maxAbs ∧ |v.x| / v.maxAbs ≤ 1) ∧
      (0 ≤ |v.y| / v.maxAbs ∧ |v.y| / v.maxAbs ≤ 1) ∧
      (0 ≤ |v.z| / v.maxAbs ∧ |v.z| / v.maxAbs ≤ 1) ∧
      (0 ≤ |v.w| / v.maxAbs ∧ |v.w| / v.maxAbs ≤ 1) ∧
      (|v.x| / v.maxAbs = 1 ∨ |v.y| / v.maxAbs = 1 ∨ |v.z| / v.maxAbs = 1 ∨
          |v.w| / v.maxAbs = 1) := by
  have hpos : 0 < v.maxAbs := lt_of_le_of_ne (vec4_maxAbs_nonneg v) (Ne.symm hm)
  have hx : |v.x| ≤ v.maxAbs := by
    unfold Vec4.maxAbs
    simp [le_max_iff]
  have hy : |v.y| ≤ v.maxAbs := by
    unfold Vec4.maxAbs
    simp [le_max_iff]
  have hz : |v.z| ≤ v.maxAbs := by
    unfold Vec4.maxAbs
    simp [le_max_iff]
  have hw : |v.w| ≤ v.maxAbs := by
    unfold Vec4.maxAbs
    simp [le_max_iff]
  have hch : |v.x| = v.maxAbs ∨ |v.y| = v.maxAbs ∨ |v.z| = v.maxAbs ∨ |v.w| = v.maxAbs := by
    unfold Vec4.maxAbs
    simp only [max_def]
    split_ifs <;> simp
  refine ⟨⟨div_nonneg (abs_nonneg _) hpos.le, (div_le_one hpos).mpr hx⟩,
      ⟨div_nonneg (abs_nonneg _) hpos.le, (div_le_one hpos).mpr hy⟩,
      ⟨div_nonneg (abs_nonneg _) hpos.le, (div_le_one hpos).mpr hz⟩,
      ⟨div_nonneg (abs_nonneg _) hpos.le, (div_le_one hpos).mpr hw⟩, ?_⟩
  rcases hch with h | h | h | h
  · exact Or.inl (by rw [h]; exact div_self hm)
  · exact Or.inr (Or.inl (by rw [h]; exact div_self hm))
  · exact Or.inr (Or.inr (Or.inl (by rw [h]; exact div_self hm)))
  · exact Or.inr (Or.inr (Or.inr ((by rw [h]; exact div_self hm))))

/-- With `sqrt` the non-negative square root, `lengthTiny` is `sqrt (length2)`. -/
theorem vec4_lengthTiny_eq_sqrt (sqrt : K → K)
    (hsqrt : ∀ d : K, 0 ≤ d → SqrtAt sqrt d) (v : Vec4 K) :
    v.lengthTiny sqrt = sqrt v.length2 := by
  have h := vec4_length_eq_sqrt sqrt (v.length2 + 1) hsqrt v
  have hlt : v.dot v < 2 * (v.length2 + 1) := by
    have := vec4_length2_nonneg v
    show v.length2 < 2 * (v.length2 + 1)
    linarith
  simp only [Vec4.length, if_pos hlt] at h
  exact h

/-- With `sqrt` the non-negative square root, the length is not negative. -/
theorem vec4_length_nonneg (sqrt : K → K) (smallest : K)
    (hsqrt : ∀ d : K, 0 ≤ d → SqrtAt sqrt d) (v : Vec4 K) : 0 ≤ v.length sqrt smallest := by
  rw [vec4_length_eq_sqrt sqrt smallest hsqrt]
  exact (hsqrt _ (vec4_length2_nonneg v)).1

/-- With `sqrt` the non-negative square root, no component exceeds the length in
absolute value. -/
theorem vec4_abs_le_length (sqrt : K → K) (smallest : K)
    (hsqrt : ∀ d : K, 0 ≤ d → SqrtAt sqrt d) (v : Vec4 K) :
    |v.x| ≤ v.length sqrt smallest ∧ |v.y| ≤ v.length sqrt smallest ∧
        |v.z| ≤ v.length sqrt smallest ∧ |v.w| ≤ v.length sqrt smallest := by
  have hl0 := vec4_length_nonneg sqrt smallest hsqrt v
  have hsq : v.length sqrt smallest * v.length sqrt smallest = v.x * v.x + v.y * v.y + v.z * v.z +
      v.w * v.w := by
    rw [vec4_length_eq_sqrt sqrt smallest hsqrt]
    exact (hsqrt _ (vec4_length2_nonneg v)).2
  refine ⟨?_, ?_, ?_, ?_⟩
  · apply abs_le_of_sq_le_sq _ hl0
    rw [pow_two, pow_two, hsq]
    linarith [mul_self_nonneg v.y, mul_self_nonneg v.z, mul_self_nonneg v.w]
  · apply abs_le_of_sq_le_sq _ hl0
    rw [pow_two, pow_two, hsq]
    linarith [mul_self_nonneg v.x, mul_self_nonneg v.z, mul_self_nonneg v.w]
  · apply abs_le_of_sq_le_sq _ hl0
    rw [pow_two, pow_two, hsq]
    linarith [mul_self_nonneg v.x, mul_self_nonneg v.y, mul_self_nonneg v.w]
  · apply abs_le_of_sq_le_sq _ hl0
    rw [pow_two, pow_two, hsq]
    linarith [mul_self_nonneg v.x, mul_self_nonneg v.y, mul_self_nonneg v.z]

/-- With `sqrt` the non-negative square root and a length that is not zero, every
component over the length is at most 1 in absolute value. -/
theorem vec4_abs_div_length_le_one (sqrt : K → K) (smallest : K)
    (hsqrt : ∀ d : K, 0 ≤ d → SqrtAt sqrt d) (v : Vec4 K) (hl : v.length sqrt smallest ≠ 0) :
    |v.x / v.length sqrt smallest| ≤ 1 ∧ |v.y / v.length sqrt smallest| ≤ 1 ∧
        |v.z / v.length sqrt smallest| ≤ 1 ∧ |v.w / v.length sqrt smallest| ≤ 1 := by
  have hpos : 0 < v.length sqrt smallest :=
    lt_of_le_of_ne (vec4_length_nonneg sqrt smallest hsqrt v) (Ne.symm hl)
  have h := vec4_abs_le_length sqrt smallest hsqrt v
  have hdiv : ∀ c : K, |c| ≤ v.length sqrt smallest → |c / v.length sqrt smallest| ≤ 1 := by
    intro c hc
    rw [abs_div, abs_of_pos hpos]
    exact (div_le_one hpos).mpr hc
  exact ⟨hdiv _ h.1, hdiv _ h.2.1, hdiv _ h.2.2.1, hdiv _ h.2.2.2⟩

/-- With `sqrt` the non-negative square root, the normalized vector times the length is
the vector. -/
theorem vec4_normalized_mulScalar (sqrt : K → K) (smallest : K)
    (hsqrt : ∀ d : K, 0 ≤ d → SqrtAt sqrt d) (v : Vec4 K) :
    (v.normalized sqrt smallest).mulScalar (v.length sqrt smallest) = v := by
  by_cases hl : v.length sqrt smallest = 0
  · have hv := (vec4_length_eq_zero_iff sqrt smallest hsqrt v).mp hl
    simp only [Vec4.normalized, if_pos hl, Vec4.mulScalar, Vec4.splat, zero_mul]
    exact hv.symm
  · simp only [Vec4.normalized, if_neg hl, Vec4.mulScalar]
    rw [div_mul_cancel₀ _ hl, div_mul_cancel₀ _ hl, div_mul_cancel₀ _ hl, div_mul_cancel₀ _ hl]

/-- With `sqrt` the non-negative square root, normalizing a normalized vector changes
nothing. -/
theorem vec4_normalized_idem (sqrt : K → K) (smallest : K)
    (hsqrt : ∀ d : K, 0 ≤ d → SqrtAt sqrt d) (v : Vec4 K) :
    (v.normalized sqrt smallest).normalized sqrt smallest = v.normalized sqrt smallest := by
  by_cases hl : v.length sqrt smallest = 0
  · have h0 : v.normalized sqrt smallest = ⟨0, 0, 0, 0⟩ := by
      simp only [Vec4.normalized, if_pos hl, Vec4.splat]
    have hz : (⟨0, 0, 0, 0⟩ : Vec4 K).length sqrt smallest = 0 :=
      (vec4_length_eq_zero_iff sqrt smallest hsqrt _).mpr rfl
    rw [h0]
    simp only [Vec4.normalized, if_pos hz, Vec4.splat]
  · have hv : v ≠ ⟨0, 0, 0, 0⟩ := fun h =>
      hl ((vec4_length_eq_zero_iff sqrt smallest hsqrt v).mpr h)
    have h1 := vec4_normalized_length sqrt smallest hsqrt v hv
    have hone : ∀ n : Vec4 K, n.length sqrt smallest = 1 → n.normalized sqrt smallest = n := by
      intro n hn
      simp only [Vec4.normalized, hn, one_ne_zero, if_false, div_one]
    exact hone _ h1

/-- The two ways `normalizeExc` ends: with the throw and the receiver as it was, or with
the receiver divided by the length. -/
theorem vec4_normalizeExcReceiver_cases (sqrt : K → K) (smallest : K) (v : Vec4 K) :
    (v.length sqrt smallest = 0 ∧
        v.normalizeExcReceiver sqrt smallest = (v, some "Cannot normalize null vector.") ∧
        v.normalizeExc sqrt smallest = Except.error "Cannot normalize null vector.") ∨
      (v.length sqrt smallest ≠ 0 ∧
        v.normalizeExcReceiver sqrt smallest = (⟨v.x / v.length sqrt smallest,
            v.y / v.length sqrt smallest, v.z / v.length sqrt smallest,
            v.w / v.length sqrt smallest⟩, none) ∧
        v.normalizeExc sqrt smallest = Except.ok ⟨v.x / v.length sqrt smallest,
            v.y / v.length sqrt smallest, v.z / v.length sqrt smallest,
            v.w / v.length sqrt smallest⟩) := by
  by_cases hl : v.length sqrt smallest = 0
  · exact Or.inl ⟨hl, by simp only [Vec4.normalizeExcReceiver, if_pos hl],
      by simp only [Vec4.normalizeExc, if_pos hl]⟩
  · exact Or.inr ⟨hl, by simp only [Vec4.normalizeExcReceiver, if_neg hl],
      by simp only [Vec4.normalizeExc, if_neg hl]⟩

/-! ## The quadratic: the sign of `q`; the cubic: when the divisor `3 * u` vanishes -/

/-- For `D > 0` the intermediate `q` is negative when `b > 0` and positive when
`b ≤ 0`. -/
theorem quadraticQ_sign (sqrt : K → K) (a b c : K)
    (hD : 0 < b * b - 4 * a * c) (hs : SqrtAt sqrt (b * b - 4 * a * c)) :
    (0 < b → quadraticQ sqrt a b c < 0) ∧ (b ≤ 0 → 0 < quadraticQ sqrt a b c) := by
  obtain ⟨h0, hsq⟩ := hs
  have hpos : 0 < sqrt (b * b - 4 * a * c) := by
    rcases h0.lt_or_eq with h | h
    · exact h
    · rw [← h] at hsq
      simp only [mul_zero] at hsq
      exact absurd hsq hD.ne
  unfold quadraticQ
  constructor
  · intro hb
    rw [if_pos hb]
    linarith
  · intro hb
    rw [if_neg (not_lt.mpr hb)]
    linarith

/-- A complex number whose cube is zero is zero. -/
theorem cx_cube_eq_zero (u : Cx K) (h : u * u * u = ⟨0, 0⟩) : u = ⟨0, 0⟩ := by
  by_contra hne
  have hn := cx_norm_ne_zero u hne
  obtain ⟨hre, him⟩ := Cx.cube_parts u
  rw [h] at hre him
  have hre0 : u.re * u.re * u.re - 3 * u.re * u.im * u.im = 0 := hre.symm
  have him0 : 3 * u.re * u.re * u.im - u.im * u.im * u.im = 0 := him.symm
  have h3 : (u.re * u.re + u.im * u.im) * (u.re * u.re + u.im * u.im) *
      (u.re * u.re + u.im * u.im) = 0 := by
    linear_combination (u.re * u.re * u.re - 3 * u.re * u.im * u.im) * hre0 +
      (3 * u.re * u.re * u.im - u.im * u.im * u.im) * him0
  rcases mul_eq_zero.mp h3 with h4 | h4
  · rcases mul_eq_zero.mp h4 with h5 | h5
    · exact hn h5
    · exact hn h5
  · exact hn h4

/-- With principal roots and outside the special case `D = 0 ∧ p / 3 = 0`, the cube
root `u`, and with it the divisor `3 * u` of `v = -p / (3 * u)`, is zero exactly when
`p = 0` and `q > 0`. -/
theorem cubicU_eq_zero_iff (csqrt : Cx K → Cx K) (cpow : Cx K → K → Cx K) (r s t : K)
    (hroots : PrincipalRootsAt csqrt cpow r s t)
    (hg : ¬(cubicD r s t = 0 ∧ cubicP r s / 3 = 0)) :
    Cx.scalarMul 3 (cubicU csqrt cpow r s t) = ⟨0, 0⟩ ↔
      cubicP r s = 0 ∧ 0 < cubicQ r s t := by
  obtain ⟨hw, hu, -⟩ := hroots
  have hDdef : cubicD r s t = cubicP r s / 3 * (cubicP r s / 3) * (cubicP r s / 3) +
      cubicQ r s t / 2 * (cubicQ r s t / 2) := rfl
  have h3u : Cx.scalarMul 3 (cubicU csqrt cpow r s t) = ⟨0, 0⟩ ↔
      cubicU csqrt cpow r s t = ⟨0, 0⟩ := by
    constructor
    · intro h
      have h1 : 3 * (cubicU csqrt cpow r s t).re = 0 := congrArg Cx.re h
      have h2 : 3 * (cubicU csqrt cpow r s t).im = 0 := congrArg Cx.im h
      exact Cx.ext (show (cubicU csqrt cpow r s t).re = 0 by linarith)
        (show (cubicU csqrt cpow r s t).im = 0 by linarith)
    · intro h
      rw [h]
      show (⟨3 * 0, 3 * 0⟩ : Cx K) = ⟨0, 0⟩
      rw [mul_zero]
  have huz : cubicU csqrt cpow r s t = ⟨0, 0⟩ ↔
      Cx.addScalar (-cubicQ r s t / 2) (csqrt (Cx.ofReal (cubicD r s t))) = ⟨0, 0⟩ := by
    constructor
    · intro h
      rw [← hu, h]
      show (⟨(0 * 0 - 0 * 0) * 0 - (0 * 0 + 0 * 0) * 0,
        (0 * 0 - 0 * 0) * 0 + (0 * 0 + 0 * 0) * 0⟩ : Cx K) = ⟨0, 0⟩
      simp only [mul_zero, sub_zero, add_zero]
    · intro h
      exact cx_cube_eq_zero _ (hu.trans h)
  have hz : Cx.addScalar (-cubicQ r s t / 2) (csqrt (Cx.ofReal (cubicD r s t))) = ⟨0, 0⟩ ↔
      -cubicQ r s t / 2 + (csqrt (Cx.ofReal (cubicD r s t))).re = 0 ∧
        (csqrt (Cx.ofReal (cubicD r s t))).im = 0 :=
    ⟨fun h => ⟨congrArg Cx.re h, congrArg Cx.im h⟩, fun h => Cx.ext h.1 h.2⟩
  rw [h3u, huz, hz]
  have hcube : cubicP r s / 3 * (cubicP r s / 3) * (cubicP r s / 3) = 0 → cubicP r s = 0 := by
    intro h
    have h1 : cubicP r s / 3 = 0 := cube_inj _ 0 (by rw [h]; ring)
    linarith
  rcases le_or_lt (cubicD r s t) 0 with hD | hD
  · obtain ⟨wre, wim0, wsq⟩ := principalSqrt_of_nonpos _ _ hw hD
    constructor
    · rintro ⟨h1, h2⟩
      exfalso
      rw [h2, mul_zero] at wsq
      have hD0 : cubicD r s t = 0 := by linarith
      rw [wre, add_zero] at h1
      have hq : cubicQ r s t = 0 := by linarith
      apply hg
      refine ⟨hD0, ?_⟩
      have hp := hcube (by rw [hDdef, hq] at hD0; linear_combination hD0)
      rw [hp, zero_div]
    · rintro ⟨hp, hq⟩
      exfalso
      rw [hDdef, hp] at hD
      have := mul_pos hq hq
      linarith
  · obtain ⟨wpos, wim, wsq⟩ := principalSqrt_of_pos _ _ hw hD
    constructor
    · rintro ⟨h1, -⟩
      have hq : cubicQ r s t = 2 * (csqrt (Cx.ofReal (cubicD r s t))).re := by linarith
      refine ⟨hcube ?_, by linarith⟩
      have hD2 := wsq.trans hDdef
      linear_combination -hD2 - ((cubicQ r s t +
          2 * (csqrt (Cx.ofReal (cubicD r s t))).re) / 4) * hq
    · rintro ⟨hp, hq⟩
      refine ⟨?_, wim⟩
      have hD2 := wsq.trans hDdef
      have hsq : (csqrt (Cx.ofReal (cubicD r s t))).re * (csqrt (Cx.ofReal (cubicD r s t))).re =
          cubicQ r s t / 2 * (cubicQ r s t / 2) := by
        linear_combination hD2 + (cubicP r s * cubicP r s / 27) * hp
      have heq := (mul_self_inj_of_nonneg wpos.le (by linarith : 0 ≤ cubicQ r s t / 2)).mp hsq
      linarith

/-! ## The claims -/

/-- C1: for every `a ≠ 0` and every `b`, `solveLinear a b x` returns 1, sets
`x` to `-b/a`, and that value satisfies `a*x + b = 0`. -/
theorem solveLinear_nonzero (a b x : K) (ha : a ≠ 0) :
    (solveLinear a b x).1 = 1 ∧ (solveLinear a b x).2 = -b / a ∧
      a * (solveLinear a b x).2 + b = 0 := by
  have h : solveLinear a b x = (1, -b / a) := by simp [solveLinear, ha]
  rw [h]
  refine ⟨rfl, rfl, ?_⟩
  show a * (-b / a) + b = 0
  field_simp
  ring

/-- Witness of C1 at `a = 2`, `b = 6` over the reals. -/
theorem solveLinear_nonzero_witness :
    (2 : ℝ) ≠ 0 ∧ (solveLinear (2 : ℝ) 6 0).1 = 1 ∧
      (solveLinear (2 : ℝ) 6 0).2 = -6 / 2 ∧ 2 * (solveLinear (2 : ℝ) 6 0).2 + 6 = 0 :=
  ⟨by norm_num, solveLinear_nonzero (2 : ℝ) 6 0 (by norm_num)⟩

/-- C2: `solveLinear 0 0 x` returns -1, `solveLinear 0 b x` returns 0 for every
`b ≠ 0`, and in both cases `x` keeps the value it had before the call. -/
theorem solveLinear_zero (b x : K) :
    solveLinear 0 0 x = (-1, x) ∧ (b ≠ 0 → solveLinear 0 b x = (0, x)) := by
  constructor
  · simp [solveLinear]
  · intro hb
    simp [solveLinear, hb]

/-- Witness of C2 at `b = 5` over the reals. -/
theorem solveLinear_zero_witness :
    solveLinear (0 : ℝ) 0 7 = (-1, 7) ∧ solveLinear (0 : ℝ) 5 7 = (0, 7) :=
  ⟨(solveLinear_zero (5 : ℝ) 7).1, (solveLinear_zero (5 : ℝ) 7).2 (by norm_num)⟩

/-- C3: for `a ≠ 0`, `solveQuadratic` reports exactly the solutions of
`a*z*z + b*z + c = 0`: `z` solves the equation iff it is one of the first `k`
entries of `x` after the call, `k` being the returned count, and for `k = 2` the
two entries differ.  `sqrt` is asked to be the non-negative square root at `D`
when `D > 0`, where alone it is called. -/
theorem solveQuadratic_exact_solutions (sqrt : K → K) (a b c : K) (x : Nat → K) (ha : a ≠ 0)
    (hs : 0 < b * b - 4 * a * c → SqrtAt sqrt (b * b - 4 * a * c)) :
    (∀ z : K, a * z * z + b * z + c = 0 ↔
        ∃ i : Nat, (i : Int) < (solveQuadratic sqrt a b c x).1 ∧
          z = (solveQuadratic sqrt a b c x).2 i) ∧
      ((solveQuadratic sqrt a b c x).1 = 2 →
        (solveQuadratic sqrt a b c x).2 0 ≠ (solveQuadratic sqrt a b c x).2 1) := by
  have key : ∀ z : K, 4 * a * (a * z * z + b * z + c) =
      (2 * a * z + b) * (2 * a * z + b) - (b * b - 4 * a * c) := fun z => by ring
  rcases lt_trichotomy (b * b - 4 * a * c) 0 with hD | hD | hD
  · rw [solveQuadratic_of_neg sqrt a b c x ha hD]
    dsimp only
    refine ⟨fun z => ⟨fun hz => ?_, ?_⟩, fun h => absurd h (by norm_num)⟩
    · have h1 := key z
      rw [hz, mul_zero] at h1
      nlinarith [mul_self_nonneg (2 * a * z + b)]
    · rintro ⟨i, hi, -⟩
      exact absurd hi (by simp)
  · rw [solveQuadratic_of_zero sqrt a b c x ha hD]
    dsimp only
    refine ⟨fun z => ⟨fun hz => ⟨0, by simp, ?_⟩, ?_⟩, fun h => absurd h (by norm_num)⟩
    · have h1 := key z
      rw [hz, hD, mul_zero, sub_zero] at h1
      have h2 : 2 * a * z + b = 0 := mul_self_eq_zero.mp h1.symm
      simp only [Function.update_same]
      field_simp
      linear_combination h2
    · rintro ⟨i, hi, hz⟩
      have hi0 : i = 0 := by
        have : (i : Int) < 1 := hi
        omega
      subst hi0
      simp only [Function.update_same] at hz
      have h2 : 2 * a * z + b = 0 := by
        rw [hz]
        field_simp
        ring
      have h1 := key z
      rw [h2, hD] at h1
      have h4 : 4 * a ≠ 0 := mul_ne_zero (by norm_num) ha
      have h5 : 4 * a * (a * z * z + b * z + c) = 0 := by rw [h1]; ring
      exact (mul_eq_zero.mp h5).resolve_left h4
  · rw [solveQuadratic_of_pos sqrt a b c x ha hD]
    dsimp only
    obtain ⟨hsum, hprod⟩ := quadratic_vieta sqrt a b c ha hD (hs hD)
    have e0 : Function.update (Function.update x 0 (quadraticQ sqrt a b c / a)) 1
        (c / quadraticQ sqrt a b c) 0 = quadraticQ sqrt a b c / a := by
      simp [Function.update]
    have e1 : Function.update (Function.update x 0 (quadraticQ sqrt a b c / a)) 1
        (c / quadraticQ sqrt a b c) 1 = c / quadraticQ sqrt a b c := by
      simp [Function.update]
    have ha_sum : a * (quadraticQ sqrt a b c / a + c / quadraticQ sqrt a b c) = -b := by
      rw [hsum]
      field_simp
      ring
    have ha_prod : a * (quadraticQ sqrt a b c / a * (c / quadraticQ sqrt a b c)) = c := by
      rw [hprod]
      field_simp
    have fact : ∀ z : K, a * z * z + b * z + c =
        a * ((z - quadraticQ sqrt a b c / a) * (z - c / quadraticQ sqrt a b c)) := fun z => by
      linear_combination z * ha_sum - ha_prod
    refine ⟨fun z => ⟨fun hz => ?_, ?_⟩, fun _ => ?_⟩
    · rw [fact z] at hz
      rcases mul_eq_zero.mp ((mul_eq_zero.mp hz).resolve_left ha) with h | h
      · exact ⟨0, by simp, by rw [e0]; exact sub_eq_zero.mp h⟩
      · exact ⟨1, by simp, by rw [e1]; exact sub_eq_zero.mp h⟩
    · rintro ⟨i, hi, hz⟩
      have hi2 : i = 0 ∨ i = 1 := by
        have : (i : Int) < 2 := hi
        omega
      rw [fact z]
      rcases hi2 with rfl | rfl
      · rw [e0] at hz
        rw [hz, sub_self, zero_mul, mul_zero]
      · rw [e1] at hz
        rw [hz, sub_self, mul_zero, mul_zero]
    · show Function.update (Function.update x 0 (quadraticQ sqrt a b c / a)) 1
        (c / quadraticQ sqrt a b c) 0 ≠ Function.update (Function.update x 0
        (quadraticQ sqrt a b c / a)) 1 (c / quadraticQ sqrt a b c) 1
      rw [e0, e1]
      intro heq
      rw [← heq] at ha_sum ha_prod
      have hb : b = -(2 * a * (quadraticQ sqrt a b c / a)) := by linear_combination ha_sum
      have hc : c = a * (quadraticQ sqrt a b c / a * (quadraticQ sqrt a b c / a)) := ha_prod.symm
      have hD0 : b * b - 4 * a * c = 0 := by
        rw [hb]
        nth_rewrite 3 [hc]
        ring
      exact absurd hD0 hD.ne.symm

/-- Witness of C3 at `z*z - 3*z + 2 = 0` over the reals, with the real square root. -/
theorem solveQuadratic_exact_solutions_witness :
    (1 : ℝ) ≠ 0 ∧
      ((∀ z : ℝ, 1 * z * z + (-3) * z + 2 = 0 ↔
        ∃ i : Nat, (i : Int) < (solveQuadratic Real.sqrt 1 (-3) 2 (fun _ => 0)).1 ∧
          z = (solveQuadratic Real.sqrt 1 (-3) 2 (fun _ => 0)).2 i) ∧
      ((solveQuadratic Real.sqrt 1 (-3) 2 (fun _ => 0)).1 = 2 →
        (solveQuadratic Real.sqrt 1 (-3) 2 (fun _ => 0)).2 0 ≠
          (solveQuadratic Real.sqrt 1 (-3) 2 (fun _ => 0)).2 1)) :=
  ⟨one_ne_zero, solveQuadratic_exact_solutions Real.sqrt 1 (-3) 2 (fun _ => 0) one_ne_zero
    (fun h => sqrtAt_real _ h.le)⟩

/-- C4: for `a ≠ 0` and `D = b*b - 4*a*c > 0`, `solveQuadratic` returns 2 and the two
roots it stores satisfy Vieta's relations `x[0] * x[1] = c/a` and
`x[0] + x[1] = -b/a` (the divisor `q` of `x[1] = c/q` being non-zero). -/
theorem solveQuadratic_vieta (sqrt : K → K) (a b c : K) (x : Nat → K) (ha : a ≠ 0)
    (hD : 0 < b * b - 4 * a * c) (hs : SqrtAt sqrt (b * b - 4 * a * c)) :
    (solveQuadratic sqrt a b c x).1 = 2 ∧ quadraticQ sqrt a b c ≠ 0 ∧
      (solveQuadratic sqrt a b c x).2 0 * (solveQuadratic sqrt a b c x).2 1 = c / a ∧
      (solveQuadratic sqrt a b c x).2 0 + (solveQuadratic sqrt a b c x).2 1 = -b / a := by
  rw [solveQuadratic_of_pos sqrt a b c x ha hD]
  dsimp only
  have e0 : Function.update (Function.update x 0 (quadraticQ sqrt a b c / a)) 1
      (c / quadraticQ sqrt a b c) 0 = quadraticQ sqrt a b c / a := by
    simp [Function.update]
  have e1 : Function.update (Function.update x 0 (quadraticQ sqrt a b c / a)) 1
      (c / quadraticQ sqrt a b c) 1 = c / quadraticQ sqrt a b c := by
    simp [Function.update]
  rw [e0, e1]
  exact ⟨rfl, (quadraticQ_spec sqrt a b c hD hs).1, (quadratic_vieta sqrt a b c ha hD hs).2,
    (quadratic_vieta sqrt a b c ha hD hs).1⟩

/-- Witness of C4 at the instance `a = 1`, `b = 1e8`, `c = 1` over the reals, with the
real square root. -/
theorem solveQuadratic_vieta_witness :
    (solveQuadratic Real.sqrt 1 100000000 1 (fun _ => 0)).1 = 2 ∧
      quadraticQ Real.sqrt 1 100000000 1 ≠ 0 ∧
      (solveQuadratic Real.sqrt 1 100000000 1 (fun _ => 0)).2 0 *
        (solveQuadratic Real.sqrt 1 100000000 1 (fun _ => 0)).2 1 = 1 / 1 ∧
      (solveQuadratic Real.sqrt 1 100000000 1 (fun _ => 0)).2 0 +
        (solveQuadratic Real.sqrt 1 100000000 1 (fun _ => 0)).2 1 = -100000000 / 1 :=
  solveQuadratic_vieta Real.sqrt 1 100000000 1 (fun _ => 0) one_ne_zero (by norm_num)
    (sqrtAt_real _ (by norm_num))

/-- C5: for `a ≠ 0`, `solveQuadratic` follows the case table on `D = b*b - 4*a*c`:
for `D > 0` it returns 2 with `x[0] = q/a` and `x[1] = c/q`, where
`q = -(b + sign(b)*sqrt(D))/2` and `sign(b)` is 1 for `b > 0` and -1 otherwise; for
`D = 0` it returns 1 with `x[0] = -b/(2a)`; for `D < 0` it returns 0 and leaves `x` as
it was. -/
theorem solveQuadratic_case_table (sqrt : K → K) (a b c : K) (x : Nat → K) (ha : a ≠ 0) :
    (0 < b * b - 4 * a * c →
        (solveQuadratic sqrt a b c x).1 = 2 ∧
        (solveQuadratic sqrt a b c x).2 0 =
          -(b + (if 0 < b then 1 else -1) * sqrt (b * b - 4 * a * c)) / 2 / a ∧
        (solveQuadratic sqrt a b c x).2 1 =
          c / (-(b + (if 0 < b then 1 else -1) * sqrt (b * b - 4 * a * c)) / 2)) ∧
      (b * b - 4 * a * c = 0 →
        (solveQuadratic sqrt a b c x).1 = 1 ∧ (solveQuadratic sqrt a b c x).2 0 = -b / (2 * a)) ∧
      (b * b - 4 * a * c < 0 → solveQuadratic sqrt a b c x = (0, x)) := by
  refine ⟨fun hD => ?_, fun hD => ?_, fun hD => solveQuadratic_of_neg sqrt a b c x ha hD⟩
  · rw [solveQuadratic_of_pos sqrt a b c x ha hD]
    refine ⟨rfl, ?_, ?_⟩ <;> simp [Function.update, quadraticQ]
  · rw [solveQuadratic_of_zero sqrt a b c x ha hD]
    exact ⟨rfl, by simp [Function.update]⟩

/-- Witness of C5 over the reals: `z*z - 3*z + 2` has `D = 1 > 0`, `z*z - 2*z + 1`
has `D = 0`, `z*z + 1` has `D < 0`. -/
theorem solveQuadratic_case_table_witness :
    ((solveQuadratic Real.sqrt 1 (-3) 2 (fun _ => 0)).1 = 2 ∧
        (solveQuadratic Real.sqrt 1 (-3) 2 (fun _ => 0)).2 0 =
          -(-3 + (if (0 : ℝ) < -3 then 1 else -1) *
            Real.sqrt (-3 * -3 - 4 * 1 * 2)) / 2 / 1 ∧
        (solveQuadratic Real.sqrt 1 (-3) 2 (fun _ => 0)).2 1 =
          2 / (-(-3 + (if (0 : ℝ) < -3 then 1 else -1) *
            Real.sqrt (-3 * -3 - 4 * 1 * 2)) / 2)) ∧
      ((solveQuadratic Real.sqrt 1 (-2) 1 (fun _ => 0)).1 = 1 ∧
        (solveQuadratic Real.sqrt 1 (-2) 1 (fun _ => 0)).2 0 = - -2 / (2 * 1)) ∧
      solveQuadratic Real.sqrt 1 0 1 (fun _ => 0) = (0, fun _ => 0) :=
  ⟨(solveQuadratic_case_table Real.sqrt 1 (-3) 2 (fun _ => 0) one_ne_zero).1 (by norm_num),
    (solveQuadratic_case_table Real.sqrt 1 (-2) 1 (fun _ => 0) one_ne_zero).2.1 (by norm_num),
    (solveQuadratic_case_table Real.sqrt 1 0 1 (fun _ => 0) one_ne_zero).2.2 (by norm_num)⟩

/-- C6: `solveQuadratic 0 b c x` returns the count of `solveLinear b c x[0]`, one of
-1, 0, 1, and stores in `x[0]` what `solveLinear` leaves in its output; for count 1
that is the root `-c/b` (with `b ≠ 0`); no slot from `x[1]` on is written. -/
theorem solveQuadratic_degenerate (sqrt : K → K) (b c : K) (x : Nat → K) :
    (solveQuadratic sqrt 0 b c x).1 = (solveLinear b c (x 0)).1 ∧
      (solveQuadratic sqrt 0 b c x).2 0 = (solveLinear b c (x 0)).2 ∧
      ((solveQuadratic sqrt 0 b c x).1 = -1 ∨ (solveQuadratic sqrt 0 b c x).1 = 0 ∨
        (solveQuadratic sqrt 0 b c x).1 = 1) ∧
      ((solveQuadratic sqrt 0 b c x).1 = 1 →
        b ≠ 0 ∧ (solveQuadratic sqrt 0 b c x).2 0 = -c / b) ∧
      (∀ i : Nat, 1 ≤ i → (solveQuadratic sqrt 0 b c x).2 i = x i) := by
  have h : solveQuadratic sqrt 0 b c x =
      ((solveLinear b c (x 0)).1, Function.update x 0 (solveLinear b c (x 0)).2) := by
    simp only [solveQuadratic, if_true]
  rw [h]
  dsimp only
  refine ⟨rfl, by simp, ?_, ?_, ?_⟩
  · by_cases hb : b = 0
    · by_cases hc : c = 0
      · left
        simp [solveLinear, hb, hc]
      · right; left
        simp [solveLinear, hb, hc]
    · right; right
      simp [solveLinear, hb]
  · intro h1
    by_cases hb : b = 0
    · exfalso
      by_cases hc : c = 0
      · simp [solveLinear, hb, hc] at h1
      · simp [solveLinear, hb, hc] at h1
    · exact ⟨hb, by simp [solveLinear, hb]⟩
  · intro i hi
    have : i ≠ 0 := by omega
    simp [Function.update, this]

/-- Witness of C6 over the reals: `0*z*z + 2*z + 6 = 0` has the root `-6/2`. -/
theorem solveQuadratic_degenerate_witness :
    (2 : ℝ) ≠ 0 ∧ (solveQuadratic Real.sqrt 0 2 6 (fun _ => 0)).2 0 = -6 / 2 :=
  (solveQuadratic_degenerate Real.sqrt (2 : ℝ) 6 (fun _ => 0)).2.2.2.1
    (by simp [solveQuadratic, solveLinear])

/-- C7: `solveCubic a b c d x` is `solveQuadratic b c d x` (count and outputs) when
`a = 0`, and `solveNormalizedCubic (b/a) (c/a) (d/a) x` when `a ≠ 0`. -/
theorem solveCubic_delegates (sqrt : K → K) (sqrt3 : K) (csqrt : Cx K → Cx K)
    (cpow : Cx K → K → Cx K) (a b c d : K) (x : Nat → K) :
    (a = 0 → solveCubic sqrt sqrt3 csqrt cpow a b c d x = solveQuadratic sqrt b c d x) ∧
      (a ≠ 0 → solveCubic sqrt sqrt3 csqrt cpow a b c d x =
        solveNormalizedCubic sqrt3 csqrt cpow (b / a) (c / a) (d / a) x) := by
  constructor
  · intro ha
    simp only [solveCubic, if_pos ha]
  · intro ha
    simp only [solveCubic, if_neg ha]

/-- Witness of C7 over the reals, at `a = 0` and at `a = 2`. -/
theorem solveCubic_delegates_witness :
    solveCubic Real.sqrt (Real.sqrt 3) realCsqrt realCpow 0 1 (-3) 2 (fun _ => 0) =
        solveQuadratic Real.sqrt 1 (-3) 2 (fun _ => 0) ∧
      solveCubic Real.sqrt (Real.sqrt 3) realCsqrt realCpow 2 (-12) 22 (-12) (fun _ => 0) =
        solveNormalizedCubic (Real.sqrt 3) realCsqrt realCpow (-12 / 2) (22 / 2) (-12 / 2)
          (fun _ => 0) :=
  ⟨(solveCubic_delegates Real.sqrt (Real.sqrt 3) realCsqrt realCpow 0 1 (-3) 2
      (fun _ => 0)).1 rfl,
    (solveCubic_delegates Real.sqrt (Real.sqrt 3) realCsqrt realCpow 2 (-12) 22 (-12)
      (fun _ => 0)).2 (by norm_num)⟩

/-- C8: when the depressed discriminant `D` is 0 and `p/3` is 0, `solveNormalizedCubic`
returns 1 with `x[0] = -r/3`, and `-r/3` is a triple root:
`z^3 + r*z^2 + s*z + t = (z + r/3)^3` for every `z`. -/
theorem solveNormalizedCubic_triple_root (sqrt3 : K) (csqrt : Cx K → Cx K)
    (cpow : Cx K → K → Cx K) (r s t : K) (x : Nat → K)
    (hD : cubicD r s t = 0) (hp : cubicP r s / 3 = 0) :
    (solveNormalizedCubic sqrt3 csqrt cpow r s t x).1 = 1 ∧
      (solveNormalizedCubic sqrt3 csqrt cpow r s t x).2 0 = -r / 3 ∧
      ∀ z : K, z * z * z + r * z * z + s * z + t = (z + r / 3) * (z + r / 3) * (z + r / 3) := by
  have h : solveNormalizedCubic sqrt3 csqrt cpow r s t x =
      (1, Function.update (Function.update (Function.update x 0 (-r / 3)) 1 (-r / 3)) 2
        (-r / 3)) := by
    simp only [solveNormalizedCubic, hD, hp, and_self, if_true]
  rw [h]
  refine ⟨rfl, by simp [Function.update], fun z => ?_⟩
  obtain ⟨hs, ht⟩ := cubic_coeffs_of_triple r s t hD hp
  rw [hs, ht]
  ring

/-- Witness of C8 over the reals: `solveNormalizedCubic (0, 0, 0)` returns 1 with
`x[0] = 0`. -/
theorem solveNormalizedCubic_triple_root_witness :
    (solveNormalizedCubic (Real.sqrt 3) realCsqrt realCpow 0 0 0 (fun _ => 7)).1 = 1 ∧
      (solveNormalizedCubic (Real.sqrt 3) realCsqrt realCpow 0 0 0 (fun _ => 7)).2 0 = 0 := by
  have h := solveNormalizedCubic_triple_root (Real.sqrt 3) realCsqrt realCpow (0 : ℝ) 0 0
    (fun _ => 7) (by norm_num [cubicD, cubicP, cubicQ]) (by norm_num [cubicP])
  exact ⟨h.1, by rw [h.2.1]; norm_num⟩

/-- C9: when the depressed discriminant `D` is negative, with the principal complex
square and cube root and `sqrt3 * sqrt3 = 3`, `solveNormalizedCubic` returns 3 and
`x[0]`, `x[1]`, `x[2]` are pairwise distinct solutions of `z^3 + r*z^2 + s*z + t = 0`;
the divisor `3u` of `v = -p/(3u)` is not zero. -/
theorem solveNormalizedCubic_three_roots (sqrt3 : K) (csqrt : Cx K → Cx K)
    (cpow : Cx K → K → Cx K) (r s t : K) (x : Nat → K) (h3 : sqrt3 * sqrt3 = 3)
    (hroots : PrincipalRootsAt csqrt cpow r s t) (hD : cubicD r s t < 0) :
    (solveNormalizedCubic sqrt3 csqrt cpow r s t x).1 = 3 ∧
      Cx.scalarMul 3 (cubicU csqrt cpow r s t) ≠ ⟨0, 0⟩ ∧
      (solveNormalizedCubic sqrt3 csqrt cpow r s t x).2 0 ≠
        (solveNormalizedCubic sqrt3 csqrt cpow r s t x).2 1 ∧
      (solveNormalizedCubic sqrt3 csqrt cpow r s t x).2 0 ≠
        (solveNormalizedCubic sqrt3 csqrt cpow r s t x).2 2 ∧
      (solveNormalizedCubic sqrt3 csqrt cpow r s t x).2 1 ≠
        (solveNormalizedCubic sqrt3 csqrt cpow r s t x).2 2 ∧
      ∀ i : Nat, i < 3 →
        (solveNormalizedCubic sqrt3 csqrt cpow r s t x).2 i *
            (solveNormalizedCubic sqrt3 csqrt cpow r s t x).2 i *
            (solveNormalizedCubic sqrt3 csqrt cpow r s t x).2 i +
          r * (solveNormalizedCubic sqrt3 csqrt cpow r s t x).2 i *
            (solveNormalizedCubic sqrt3 csqrt cpow r s t x).2 i +
          s * (solveNormalizedCubic sqrt3 csqrt cpow r s t x).2 i + t = 0 := by
  have hp : cubicP r s ≠ 0 := by
    intro h0
    have hDdef : cubicD r s t = cubicP r s / 3 * (cubicP r s / 3) * (cubicP r s / 3) +
        cubicQ r s t / 2 * (cubicQ r s t / 2) := rfl
    rw [h0] at hDdef
    simp only [zero_div, mul_zero, zero_add] at hDdef
    have := mul_self_nonneg (cubicQ r s t / 2)
    linarith
  obtain ⟨a, b, hu, -, hpeq, hqeq, hW0, hWsq, ha0, hb1, -, hy0, hy1, hy2⟩ :=
    cardano_nonpos sqrt3 csqrt cpow r s t hroots hD.le hp
  have hWpos : 0 < 3 * a * a * b - b * b * b := by
    rcases hW0.lt_or_eq with h | h
    · exact h
    · rw [← h] at hWsq
      simp only [mul_zero] at hWsq
      linarith
  have hfac : 3 * a * a * b - b * b * b = b * (3 * (a * a) - b * b) := by ring
  have hgap : 0 < 3 * (a * a) - b * b := by
    rcases (sub_nonneg.mpr hb1).lt_or_eq with h | h
    · exact h
    · rw [hfac, ← h, mul_zero] at hWpos
      exact absurd hWpos (lt_irrefl _)
  have hb : 0 < b := by
    rw [hfac] at hWpos
    exact (pos_iff_pos_of_mul_pos hWpos).mpr hgap
  have hs3 : sqrt3 ≠ 0 := by
    intro h0
    rw [h0, mul_zero] at h3
    norm_num at h3
  rw [solveNormalizedCubic_of_neg sqrt3 csqrt cpow r s t x hD]
  dsimp only
  rw [hy0, hy1, hy2]
  obtain ⟨e0, e1, e2⟩ := update3_read x (2 * a - r / 3) (-a - b * sqrt3 - r / 3)
    (-a + b * sqrt3 - r / 3)
  rw [e0, e1, e2]
  refine ⟨rfl, ?_, ?_, ?_, ?_, ?_⟩
  · rw [hu]
    intro h
    have him : 3 * b = 0 := congrArg Cx.im h
    linarith
  · intro h
    have h1 : 3 * a = -(b * sqrt3) := by linear_combination h
    have h2 : 3 * a * (3 * a) = -(b * sqrt3) * -(b * sqrt3) := by rw [h1]
    have h4 : 3 * (a * a) - b * b = 0 := by linear_combination (1 / 3 : K) * h2 + (b * b / 3) * h3
    linarith
  · intro h
    have h1 : 3 * a = b * sqrt3 := by linear_combination h
    have h2 : 3 * a * (3 * a) = b * sqrt3 * (b * sqrt3) := by rw [h1]
    have h4 : 3 * (a * a) - b * b = 0 := by linear_combination (1 / 3 : K) * h2 + (b * b / 3) * h3
    linarith
  · intro h
    have h1 : b * sqrt3 = 0 := by linear_combination (-1 / 2 : K) * h
    rcases mul_eq_zero.mp h1 with h | h
    · linarith
    · exact hs3 h
  · intro i hi
    have hi3 : i = 0 ∨ i = 1 ∨ i = 2 := by omega
    rcases hi3 with rfl | rfl | rfl
    · rw [e0, depress_identity, hpeq, hqeq]
      ring
    · rw [e1, depress_identity, hpeq, hqeq]
      linear_combination (-3 * a * b * b - b * b * b * sqrt3) * h3
    · rw [e2, depress_identity, hpeq, hqeq]
      linear_combination (-3 * a * b * b + b * b * b * sqrt3) * h3

/-- Witness of C9 over the reals, with the principal roots and the real square root
of 3: `z^3 - 6*z^2 + 11*z - 6` has `D = -1/27`. -/
theorem solveNormalizedCubic_three_roots_witness :
    cubicD (-6 : ℝ) 11 (-6) < 0 ∧
      (solveNormalizedCubic (Real.sqrt 3) realCsqrt realCpow (-6) 11 (-6) (fun _ => 0)).1 = 3 ∧
      (solveNormalizedCubic (Real.sqrt 3) realCsqrt realCpow (-6) 11 (-6) (fun _ => 0)).2 0 ≠
        (solveNormalizedCubic (Real.sqrt 3) realCsqrt realCpow (-6) 11 (-6) (fun _ => 0)).2 1 :=
  ⟨by norm_num [cubicD, cubicP, cubicQ],
    (solveNormalizedCubic_three_roots (Real.sqrt 3) realCsqrt realCpow (-6) 11 (-6) (fun _ => 0)
      sqrt3_real.1 (principalRootsAt_real _ _ _) (by norm_num [cubicD, cubicP, cubicQ])).1,
    (solveNormalizedCubic_three_roots (Real.sqrt 3) realCsqrt realCpow (-6) 11 (-6) (fun _ => 0)
      sqrt3_real.1 (principalRootsAt_real _ _ _) (by norm_num [cubicD, cubicP, cubicQ])).2.2.1⟩

/-- C10: when the depressed discriminant `D` is 0 and `p ≠ 0`, with the principal complex
square and cube root and `sqrt3` the positive square root of 3, `solveNormalizedCubic`
returns 2, `x[0]` and `x[1]` differ, one of them is a double root and the other a simple
root of `z^3 + r*z^2 + s*z + t`, and they are all its solutions; the divisor `3u` of
`v = -p/(3u)` is not zero. -/
theorem solveNormalizedCubic_double_root (sqrt3 : K) (csqrt : Cx K → Cx K)
    (cpow : Cx K → K → Cx K) (r s t : K) (x : Nat → K) (h3 : sqrt3 * sqrt3 = 3)
    (h3pos : 0 < sqrt3) (hroots : PrincipalRootsAt csqrt cpow r s t)
    (hD : cubicD r s t = 0) (hp : cubicP r s ≠ 0) :
    (solveNormalizedCubic sqrt3 csqrt cpow r s t x).1 = 2 ∧
      Cx.scalarMul 3 (cubicU csqrt cpow r s t) ≠ ⟨0, 0⟩ ∧
      (solveNormalizedCubic sqrt3 csqrt cpow r s t x).2 0 ≠
        (solveNormalizedCubic sqrt3 csqrt cpow r s t x).2 1 ∧
      ((∀ z : K, z * z * z + r * z * z + s * z + t =
          (z - (solveNormalizedCubic sqrt3 csqrt cpow r s t x).2 0) *
            (z - (solveNormalizedCubic sqrt3 csqrt cpow r s t x).2 0) *
            (z - (solveNormalizedCubic sqrt3 csqrt cpow r s t x).2 1)) ∨
        (∀ z : K, z * z * z + r * z * z + s * z + t =
          (z - (solveNormalizedCubic sqrt3 csqrt cpow r s t x).2 0) *
            (z - (solveNormalizedCubic sqrt3 csqrt cpow r s t x).2 1) *
            (z - (solveNormalizedCubic sqrt3 csqrt cpow r s t x).2 1))) ∧
      ∀ z : K, z * z * z + r * z * z + s * z + t = 0 ↔
        z = (solveNormalizedCubic sqrt3 csqrt cpow r s t x).2 0 ∨
          z = (solveNormalizedCubic sqrt3 csqrt cpow r s t x).2 1 := by
  have hp3 : cubicP r s / 3 ≠ 0 := div_ne_zero hp (by norm_num)
  obtain ⟨a, b, hu, -, hpeq, hqeq, -, hWsq, ha0, -, hb2, hy0, hy1, -⟩ :=
    cardano_nonpos sqrt3 csqrt cpow r s t hroots hD.le hp
  rw [hD, neg_zero] at hWsq
  have hW : b * (3 * (a * a) - b * b) = 0 := by
    have := mul_self_eq_zero.mp hWsq
    linear_combination this
  have hab : a * a + b * b ≠ 0 := by
    intro h0
    apply hp
    rw [hpeq, h0, mul_zero]
  rw [solveNormalizedCubic_of_zero sqrt3 csqrt cpow r s t x hD hp3]
  dsimp only
  rw [hy0, hy1]
  obtain ⟨e0, e1⟩ := update2_read x (2 * a - r / 3) (-a - b * sqrt3 - r / 3)
  rw [e0, e1]
  have hu0 : Cx.scalarMul 3 (cubicU csqrt cpow r s t) ≠ ⟨0, 0⟩ := by
    rw [hu]
    intro h
    have hre : 3 * a = 0 := congrArg Cx.re h
    have him : 3 * b = 0 := congrArg Cx.im h
    apply hab
    have ha : a = 0 := by linarith
    have hb : b = 0 := by linarith
    rw [ha, hb]
    ring
  have hsol : ∀ x0 x1 : K,
      ((∀ z : K, z * z * z + r * z * z + s * z + t = (z - x0) * (z - x0) * (z - x1)) ∨
        (∀ z : K, z * z * z + r * z * z + s * z + t = (z - x0) * (z - x1) * (z - x1))) →
      ∀ z : K, z * z * z + r * z * z + s * z + t = 0 ↔ z = x0 ∨ z = x1 := by
    intro x0 x1 hfac z
    rcases hfac with h | h
    · rw [h z, mul_eq_zero, mul_eq_zero, sub_eq_zero, sub_eq_zero]
      tauto
    · rw [h z, mul_eq_zero, mul_eq_zero, sub_eq_zero, sub_eq_zero]
      tauto
  rcases mul_eq_zero.mp hW with hb | hb
  · -- `u` is real: `y0 = 2a` is the simple root and `y1 = -a` the double root
    have ha : a ≠ 0 := by
      intro h0
      apply hab
      rw [h0, hb]
      ring
    have hfac : ∀ z : K, z * z * z + r * z * z + s * z + t =
        (z - (2 * a - r / 3)) * (z - (-a - b * sqrt3 - r / 3)) * (z - (-a - b * sqrt3 - r / 3)) := by
      intro z
      rw [cubic_as_depressed, hpeq, hqeq, hb]
      ring
    refine ⟨rfl, hu0, ?_, Or.inr hfac, hsol _ _ (Or.inr hfac)⟩
    intro h
    apply ha
    rw [hb] at h
    linear_combination (1 / 3 : K) * h
  · -- `u` has argument `π/3`: `y0 = 2a` is the double root and `y1 = -4a` the simple root
    have hbne : b ≠ 0 := by
      intro h0
      apply hab
      have : a * a = 0 := by
        rw [h0] at hb
        linear_combination (1 / 3 : K) * hb
      rw [this, h0]
      ring
    have hbpos : 0 < b := by
      rcases lt_or_gt_of_ne hbne with h | h
      · have := hb2 h
        linarith
      · exact h
    have hane : a ≠ 0 := by
      intro h0
      apply hbne
      rw [h0] at hb
      have : b * b = 0 := by linear_combination -hb
      exact mul_self_eq_zero.mp this
    have hapos : 0 < a := lt_of_le_of_ne ha0 (Ne.symm hane)
    have hbs : b = sqrt3 * a := by
      have h1 : (b - sqrt3 * a) * (b + sqrt3 * a) = 0 := by
        linear_combination -hb - (a * a) * h3
      have h2 : 0 < b + sqrt3 * a := by positivity
      have := (mul_eq_zero.mp h1).resolve_right h2.ne.symm
      linear_combination this
    have hy1eq : -a - b * sqrt3 - r / 3 = -4 * a - r / 3 := by
      rw [hbs]
      linear_combination (-a) * h3
    rw [hy1eq]
    have hfac : ∀ z : K, z * z * z + r * z * z + s * z + t =
        (z - (2 * a - r / 3)) * (z - (2 * a - r / 3)) * (z - (-4 * a - r / 3)) := by
      intro z
      rw [cubic_as_depressed, hpeq, hqeq]
      linear_combination (3 * (z + r / 3) - 6 * a) * hb
    refine ⟨rfl, hu0, ?_, Or.inl hfac, hsol _ _ (Or.inl hfac)⟩
    intro h
    apply hane
    linear_combination (1 / 6 : K) * h

/-- Witness of C10 over the reals, with the principal roots and the real square root
of 3: `z^3 - 3*z + 2 = (z - 1)^2 * (z + 2)` has `D = 0` and `p = -3`. -/
theorem solveNormalizedCubic_double_root_witness :
    cubicD (0 : ℝ) (-3) 2 = 0 ∧ cubicP (0 : ℝ) (-3) ≠ 0 ∧
      (solveNormalizedCubic (Real.sqrt 3) realCsqrt realCpow 0 (-3) 2 (fun _ => 0)).1 = 2 ∧
      (solveNormalizedCubic (Real.sqrt 3) realCsqrt realCpow 0 (-3) 2 (fun _ => 0)).2 0 ≠
        (solveNormalizedCubic (Real.sqrt 3) realCsqrt realCpow 0 (-3) 2 (fun _ => 0)).2 1 :=
  ⟨by norm_num [cubicD, cubicP, cubicQ], by norm_num [cubicP],
    (solveNormalizedCubic_double_root (Real.sqrt 3) realCsqrt realCpow 0 (-3) 2 (fun _ => 0)
      sqrt3_real.1 sqrt3_real.2 (principalRootsAt_real _ _ _)
      (by norm_num [cubicD, cubicP, cubicQ]) (by norm_num [cubicP])).1,
    (solveNormalizedCubic_double_root (Real.sqrt 3) realCsqrt realCpow 0 (-3) 2 (fun _ => 0)
      sqrt3_real.1 sqrt3_real.2 (principalRootsAt_real _ _ _)
      (by norm_num [cubicD, cubicP, cubicQ]) (by norm_num [cubicP])).2.2.1⟩

/-- C11, at the input `r = 0`, `s = -3`, `t = 3` over the reals with the principal roots:
`D = 5/4 > 0` and `solveNormalizedCubic` returns 1, but the value it stores in `x[0]` is
at least 1 and does not satisfy `z^3 - 3*z + 3 = 0`, whose solutions are all negative. -/
theorem solveNormalizedCubic_one_root_not_solution :
    0 < cubicD (0 : ℝ) (-3) 3 ∧
      (solveNormalizedCubic (Real.sqrt 3) realCsqrt realCpow 0 (-3) 3 (fun _ => 0)).1 = 1 ∧
      1 ≤ (solveNormalizedCubic (Real.sqrt 3) realCsqrt realCpow 0 (-3) 3 (fun _ => 0)).2 0 ∧
      (solveNormalizedCubic (Real.sqrt 3) realCsqrt realCpow 0 (-3) 3 (fun _ => 0)).2 0 *
          (solveNormalizedCubic (Real.sqrt 3) realCsqrt realCpow 0 (-3) 3 (fun _ => 0)).2 0 *
          (solveNormalizedCubic (Real.sqrt 3) realCsqrt realCpow 0 (-3) 3 (fun _ => 0)).2 0 +
        0 * (solveNormalizedCubic (Real.sqrt 3) realCsqrt realCpow 0 (-3) 3 (fun _ => 0)).2 0 *
          (solveNormalizedCubic (Real.sqrt 3) realCsqrt realCpow 0 (-3) 3 (fun _ => 0)).2 0 +
        -3 * (solveNormalizedCubic (Real.sqrt 3) realCsqrt realCpow 0 (-3) 3 (fun _ => 0)).2 0 +
        3 ≠ 0 ∧
      ∀ z : ℝ, z * z * z + 0 * z * z + -3 * z + 3 = 0 → z < 0 := by
  obtain ⟨hD, h1, hge⟩ := cubic_one_root_branch_value (Real.sqrt 3) realCsqrt realCpow
    (fun _ => (0 : ℝ)) (principalRootsAt_real 0 (-3) 3)
  have hpos : ∀ z : ℝ, 0 ≤ z → 0 < z * z * z + 0 * z * z + -3 * z + 3 := by
    intro z hz
    have h : z * z * z + 0 * z * z + -3 * z + 3 = (z - 1) * (z - 1) * (z + 2) + 1 := by ring
    rw [h]
    have := mul_nonneg (mul_self_nonneg (z - 1)) (by linarith : (0 : ℝ) ≤ z + 2)
    linarith
  refine ⟨by rw [hD]; norm_num, h1, hge, ?_, ?_⟩
  · exact (hpos _ (by linarith)).ne.symm
  · intro z hz
    by_contra hneg
    have := hpos z (not_lt.mp hneg)
    linarith

/-- C12: with the principal complex roots and `sqrt3` the positive square root of 3,
`solveCubic (1, -6, 11, -6)` returns 3 with `x[0] = 3`, `x[1] = 1`, `x[2] = 2`, a
permutation of the roots 1, 2, 3. -/
theorem solveCubic_one_two_three (sqrt : K → K) (sqrt3 : K) (csqrt : Cx K → Cx K)
    (cpow : Cx K → K → Cx K) (x : Nat → K) (h3 : sqrt3 * sqrt3 = 3) (h3pos : 0 < sqrt3)
    (hroots : PrincipalRootsAt csqrt cpow (-6) 11 (-6)) :
    (solveCubic sqrt sqrt3 csqrt cpow 1 (-6) 11 (-6) x).1 = 3 ∧
      (solveCubic sqrt sqrt3 csqrt cpow 1 (-6) 11 (-6) x).2 0 = 3 ∧
      (solveCubic sqrt sqrt3 csqrt cpow 1 (-6) 11 (-6) x).2 1 = 1 ∧
      (solveCubic sqrt sqrt3 csqrt cpow 1 (-6) 11 (-6) x).2 2 = 2 ∧
      List.Perm [(solveCubic sqrt sqrt3 csqrt cpow 1 (-6) 11 (-6) x).2 0,
        (solveCubic sqrt sqrt3 csqrt cpow 1 (-6) 11 (-6) x).2 1,
        (solveCubic sqrt sqrt3 csqrt cpow 1 (-6) 11 (-6) x).2 2] [1, 2, 3] := by
  have hP : cubicP (-6 : K) 11 = -1 := by norm_num [cubicP]
  have hQ : cubicQ (-6 : K) 11 (-6) = 0 := by norm_num [cubicQ]
  have hDv : cubicD (-6 : K) 11 (-6) = -(1 / 27) := by norm_num [cubicD, cubicP, cubicQ]
  have hD : cubicD (-6 : K) 11 (-6) < 0 := by rw [hDv]; norm_num
  obtain ⟨a, b, -, -, hpeq, hqeq, hW0, -, ha0, hb1, -, hy0, hy1, hy2⟩ :=
    cardano_nonpos sqrt3 csqrt cpow (-6) 11 (-6) hroots hD.le (by rw [hP]; norm_num)
  rw [hP] at hpeq
  rw [hQ] at hqeq
  have hsum : a * a + b * b = 1 / 3 := by linear_combination (1 / 3 : K) * hpeq
  have hfac : a * (a * a - 3 * (b * b)) = 0 := by linear_combination (1 / 2 : K) * hqeq
  have hane : a ≠ 0 := by
    intro h0
    rw [h0] at hb1 hsum
    nlinarith [mul_self_nonneg b]
  have hab : a * a = 3 * (b * b) := by
    have := (mul_eq_zero.mp hfac).resolve_left hane
    linear_combination this
  have hbb : b * b = 1 / 12 := by linear_combination (1 / 4 : K) * hsum - (1 / 4 : K) * hab
  have haa : a * a = 1 / 4 := by rw [hab, hbb]; norm_num
  have ha : a = 1 / 2 := by
    have h1 : (a - 1 / 2) * (a + 1 / 2) = 0 := by linear_combination haa
    have h2 : a + 1 / 2 ≠ 0 := by
      have : 0 < a + 1 / 2 := by linarith
      exact this.ne.symm
    have := (mul_eq_zero.mp h1).resolve_right h2
    linear_combination this
  have hb0 : 0 ≤ b := by
    have h1 : 3 * a * a * b - b * b * b = b * (2 / 3) := by
      have : 3 * a * a * b - b * b * b = b * (3 * (a * a) - b * b) := by ring
      rw [this, haa, hbb]
      norm_num
    rw [h1] at hW0
    linarith
  have hb : b = sqrt3 / 6 := by
    have h1 : (b - sqrt3 / 6) * (b + sqrt3 / 6) = 0 := by
      linear_combination hbb - (1 / 36 : K) * h3
    have h2 : b + sqrt3 / 6 ≠ 0 := by
      have : 0 < b + sqrt3 / 6 := by positivity
      exact this.ne.symm
    have := (mul_eq_zero.mp h1).resolve_right h2
    linear_combination this
  have hbs : b * sqrt3 = 1 / 2 := by
    rw [hb]
    linear_combination (1 / 6 : K) * h3
  have hcall : solveCubic sqrt sqrt3 csqrt cpow 1 (-6) 11 (-6) x =
      solveNormalizedCubic sqrt3 csqrt cpow (-6) 11 (-6) x := by
    simp only [solveCubic, one_ne_zero, if_false, div_one]
  rw [hcall, solveNormalizedCubic_of_neg sqrt3 csqrt cpow (-6) 11 (-6) x hD]
  dsimp only
  rw [hy0, hy1, hy2]
  obtain ⟨e0, e1, e2⟩ := update3_read x (2 * a - -6 / 3) (-a - b * sqrt3 - -6 / 3)
    (-a + b * sqrt3 - -6 / 3)
  rw [e0, e1, e2, hbs, ha]
  have v0 : (2 * (1 / 2) - -6 / 3 : K) = 3 := by norm_num
  have v1 : (-(1 / 2) - 1 / 2 - -6 / 3 : K) = 1 := by norm_num
  have v2 : (-(1 / 2) + 1 / 2 - -6 / 3 : K) = 2 := by norm_num
  rw [v0, v1, v2]
  exact ⟨rfl, rfl, rfl, rfl, (List.Perm.swap 1 3 [2]).trans ((List.Perm.swap 2 3 []).cons 1)⟩

/-- Witness of C12 over the reals, with the principal roots and the real square root
of 3. -/
theorem solveCubic_one_two_three_witness :
    (solveCubic Real.sqrt (Real.sqrt 3) realCsqrt realCpow 1 (-6) 11 (-6) (fun _ => 0)).1 = 3 ∧
      (solveCubic Real.sqrt (Real.sqrt 3) realCsqrt realCpow 1 (-6) 11 (-6) (fun _ => 0)).2 0 =
        3 ∧
      (solveCubic Real.sqrt (Real.sqrt 3) realCsqrt realCpow 1 (-6) 11 (-6) (fun _ => 0)).2 1 =
        1 ∧
      (solveCubic Real.sqrt (Real.sqrt 3) realCsqrt realCpow 1 (-6) 11 (-6) (fun _ => 0)).2 2 =
        2 :=
  ⟨(solveCubic_one_two_three Real.sqrt (Real.sqrt 3) realCsqrt realCpow (fun _ => 0)
      sqrt3_real.1 sqrt3_real.2 (principalRootsAt_real _ _ _)).1,
    (solveCubic_one_two_three Real.sqrt (Real.sqrt 3) realCsqrt realCpow (fun _ => 0)
      sqrt3_real.1 sqrt3_real.2 (principalRootsAt_real _ _ _)).2.1,
    (solveCubic_one_two_three Real.sqrt (Real.sqrt 3) realCsqrt realCpow (fun _ => 0)
      sqrt3_real.1 sqrt3_real.2 (principalRootsAt_real _ _ _)).2.2.1,
    (solveCubic_one_two_three Real.sqrt (Real.sqrt 3) realCsqrt realCpow (fun _ => 0)
      sqrt3_real.1 sqrt3_real.2 (principalRootsAt_real _ _ _)).2.2.2.1⟩

/-- C13 as stated fails: over the reals `solveNormalizedCubic (0, 0, 0)` returns 1, yet
slot `x[1]`, which held 7 before the call, holds 0 after it. -/
theorem solveNormalizedCubic_frame_counterexample :
    (solveNormalizedCubic (Real.sqrt 3) realCsqrt realCpow 0 0 0 (fun _ => 7)).1 = 1 ∧
      ¬ ∀ i : Nat,
        max (solveNormalizedCubic (Real.sqrt 3) realCsqrt realCpow 0 0 0 (fun _ => 7)).1 0 ≤
            (i : Int) →
          (solveNormalizedCubic (Real.sqrt 3) realCsqrt realCpow 0 0 0 (fun _ => 7)).2 i =
            (fun _ => (7 : ℝ)) i := by
  have h : cubicD (0 : ℝ) 0 0 = 0 ∧ cubicP (0 : ℝ) 0 / 3 = 0 := by
    constructor <;> norm_num [cubicD, cubicP, cubicQ]
  rw [solveNormalizedCubic_of_triple (Real.sqrt 3) realCsqrt realCpow 0 0 0 (fun _ => 7) h]
  refine ⟨rfl, fun hall => ?_⟩
  have h1 := hall 1 (by norm_num)
  obtain ⟨-, e1, -⟩ := update3_read (fun _ => (7 : ℝ)) (-0 / 3) (-0 / 3) (-0 / 3)
  dsimp only at h1
  rw [e1] at h1
  norm_num at h1

/-- C13, amended: `solveQuadratic` leaves every slot `x[i]` with `i ≥ max (k, 0)` as it was,
`k` being the count; so do `solveNormalizedCubic` and `solveCubic` outside the triple-root
branch (`D = 0` and `p/3 = 0`); in the triple-root branch the count is 1 and `x[0]`, `x[1]`,
`x[2]` are all set to `-r/3`; no solver writes a slot `x[i]` with `i ≥ 3`. -/
theorem solvers_frame (sqrt : K → K) (sqrt3 : K) (csqrt : Cx K → Cx K)
    (cpow : Cx K → K → Cx K) (a b c d r s t : K) (x : Nat → K) :
    (∀ i : Nat, max (solveQuadratic sqrt a b c x).1 0 ≤ (i : Int) →
        (solveQuadratic sqrt a b c x).2 i = x i) ∧
      (¬(cubicD r s t = 0 ∧ cubicP r s / 3 = 0) →
        ∀ i : Nat, max (solveNormalizedCubic sqrt3 csqrt cpow r s t x).1 0 ≤ (i : Int) →
          (solveNormalizedCubic sqrt3 csqrt cpow r s t x).2 i = x i) ∧
      (cubicD r s t = 0 ∧ cubicP r s / 3 = 0 →
        (solveNormalizedCubic sqrt3 csqrt cpow r s t x).1 = 1 ∧
          (solveNormalizedCubic sqrt3 csqrt cpow r s t x).2 0 = -r / 3 ∧
          (solveNormalizedCubic sqrt3 csqrt cpow r s t x).2 1 = -r / 3 ∧
          (solveNormalizedCubic sqrt3 csqrt cpow r s t x).2 2 = -r / 3) ∧
      (∀ i : Nat, 3 ≤ i → (solveNormalizedCubic sqrt3 csqrt cpow r s t x).2 i = x i) ∧
      ((a = 0 ∨ ¬(cubicD (b / a) (c / a) (d / a) = 0 ∧ cubicP (b / a) (c / a) / 3 = 0)) →
        ∀ i : Nat, max (solveCubic sqrt sqrt3 csqrt cpow a b c d x).1 0 ≤ (i : Int) →
          (solveCubic sqrt sqrt3 csqrt cpow a b c d x).2 i = x i) ∧
      (a ≠ 0 ∧ cubicD (b / a) (c / a) (d / a) = 0 ∧ cubicP (b / a) (c / a) / 3 = 0 →
        (solveCubic sqrt sqrt3 csqrt cpow a b c d x).1 = 1 ∧
          (solveCubic sqrt sqrt3 csqrt cpow a b c d x).2 0 = -(b / a) / 3 ∧
          (solveCubic sqrt sqrt3 csqrt cpow a b c d x).2 1 = -(b / a) / 3 ∧
          (solveCubic sqrt sqrt3 csqrt cpow a b c d x).2 2 = -(b / a) / 3) ∧
      (∀ i : Nat, 3 ≤ i → (solveCubic sqrt sqrt3 csqrt cpow a b c d x).2 i = x i) := by
  have htriple : ∀ r s t : K, cubicD r s t = 0 ∧ cubicP r s / 3 = 0 →
      (solveNormalizedCubic sqrt3 csqrt cpow r s t x).1 = 1 ∧
        (solveNormalizedCubic sqrt3 csqrt cpow r s t x).2 0 = -r / 3 ∧
        (solveNormalizedCubic sqrt3 csqrt cpow r s t x).2 1 = -r / 3 ∧
        (solveNormalizedCubic sqrt3 csqrt cpow r s t x).2 2 = -r / 3 := by
    intro r s t h
    rw [solveNormalizedCubic_of_triple sqrt3 csqrt cpow r s t x h]
    obtain ⟨e0, e1, e2⟩ := update3_read x (-r / 3) (-r / 3) (-r / 3)
    exact ⟨rfl, e0, e1, e2⟩
  refine ⟨solveQuadratic_frame sqrt a b c x,
    solveNormalizedCubic_frame sqrt3 csqrt cpow r s t x, htriple r s t,
    solveNormalizedCubic_frame_three sqrt3 csqrt cpow r s t x, ?_, ?_, ?_⟩
  · intro h i hi
    by_cases ha : a = 0
    · simp only [solveCubic, if_pos ha] at hi ⊢
      exact solveQuadratic_frame sqrt b c d x i hi
    · simp only [solveCubic, if_neg ha] at hi ⊢
      exact solveNormalizedCubic_frame sqrt3 csqrt cpow _ _ _ x (h.resolve_left ha) i hi
  · rintro ⟨ha, h⟩
    simp only [solveCubic, if_neg ha]
    exact htriple _ _ _ h
  · intro i hi
    by_cases ha : a = 0
    · simp only [solveCubic, if_pos ha]
      apply solveQuadratic_frame
      have hk : (solveQuadratic sqrt b c d x).1 ≤ 2 := by
        by_cases hb : b = 0
        · subst hb
          rw [solveQuadratic_of_linear]
          rcases solveLinear_cases c d (x 0) with ⟨-, h⟩ | ⟨-, -, h⟩ | ⟨-, -, h⟩ <;>
            · rw [h]
              norm_num
        · rcases lt_trichotomy (c * c - 4 * b * d) 0 with hD | hD | hD
          · rw [solveQuadratic_of_neg sqrt b c d x hb hD]
            norm_num
          · rw [solveQuadratic_of_zero sqrt b c d x hb hD]
            norm_num
          · rw [solveQuadratic_of_pos sqrt b c d x hb hD]
      have h3 : (3 : Int) ≤ i := by exact_mod_cast hi
      exact max_le (by linarith) (by linarith)
    · simp only [solveCubic, if_neg ha]
      exact solveNormalizedCubic_frame_three sqrt3 csqrt cpow _ _ _ x i hi

/-- Witness of the amended C13 over the reals: `z*z - 3*z + 2` has count 2 and `x[2]` keeps
its 7; `solveNormalizedCubic (0, 0, 0)` is in the triple-root branch. -/
theorem solvers_frame_witness :
    (solveQuadratic Real.sqrt 1 (-3) 2 (fun _ => 7)).2 2 = 7 ∧
      (solveNormalizedCubic (Real.sqrt 3) realCsqrt realCpow 0 0 0 (fun _ => 7)).1 = 1 ∧
      (solveNormalizedCubic (Real.sqrt 3) realCsqrt realCpow 0 0 0 (fun _ => 7)).2 1 = -0 / 3 :=
  ⟨(solvers_frame Real.sqrt (Real.sqrt 3) realCsqrt realCpow 1 (-3) 2 0 0 0 0
      (fun _ => 7)).1 2 (by
        rw [solveQuadratic_of_pos Real.sqrt 1 (-3) 2 (fun _ => 7) one_ne_zero (by norm_num)]
        norm_num),
    ((solvers_frame Real.sqrt (Real.sqrt 3) realCsqrt realCpow 1 (-3) 2 0 0 0 0
      (fun _ => 7)).2.2.1 (by constructor <;> norm_num [cubicD, cubicP, cubicQ])).1,
    ((solvers_frame Real.sqrt (Real.sqrt 3) realCsqrt realCpow 1 (-3) 2 0 0 0 0
      (fun _ => 7)).2.2.1 (by constructor <;> norm_num [cubicD, cubicP, cubicQ])).2.2.1⟩

/-- C14, at the input `a = 1`, `b = -2`, `c = 1` over the reals: `solveQuadratic` returns 1
and stores the single solution 1 in `x[0]`; `x[1]` keeps the 7 it held before the call,
which is not a solution. -/
theorem solveQuadratic_single_root_slot :
    (solveQuadratic Real.sqrt 1 (-2) 1 (fun _ => 7)).1 = 1 ∧
      (solveQuadratic Real.sqrt 1 (-2) 1 (fun _ => 7)).2 0 = 1 ∧
      (solveQuadratic Real.sqrt 1 (-2) 1 (fun _ => 7)).2 1 = 7 ∧
      (∀ z : ℝ, 1 * z * z + -2 * z + 1 = 0 ↔ z = 1) ∧
      (1 : ℝ) * (solveQuadratic Real.sqrt 1 (-2) 1 (fun _ => 7)).2 1 *
          (solveQuadratic Real.sqrt 1 (-2) 1 (fun _ => 7)).2 1 +
        -2 * (solveQuadratic Real.sqrt 1 (-2) 1 (fun _ => 7)).2 1 + 1 ≠ 0 := by
  rw [solveQuadratic_of_zero Real.sqrt 1 (-2) 1 (fun _ => 7) one_ne_zero (by norm_num)]
  have e0 : Function.update (fun _ : Nat => (7 : ℝ)) 0 (- -2 / (2 * 1)) 0 = 1 := by
    rw [Function.update_same]
    norm_num
  have e1 : Function.update (fun _ : Nat => (7 : ℝ)) 0 (- -2 / (2 * 1)) 1 = 7 := by
    simp [Function.update]
  dsimp only
  rw [e0, e1]
  refine ⟨rfl, rfl, rfl, fun z => ?_, by norm_num⟩
  constructor
  · intro h
    have h2 : (z - 1) * (z - 1) = 0 := by linear_combination h
    have := mul_self_eq_zero.mp h2
    linarith
  · rintro rfl
    norm_num

/-- C15: `solveCubic` returns -1 exactly when `a = b = c = d = 0` and `solveQuadratic`
exactly when `a = b = c = 0`, which are the cases where every number is a solution;
`solveNormalizedCubic` returns neither -1 nor 0. -/
theorem sentinel_minus_one (sqrt : K → K) (sqrt3 : K) (csqrt : Cx K → Cx K)
    (cpow : Cx K → K → Cx K) (a b c d r s t : K) (x : Nat → K) :
    ((solveCubic sqrt sqrt3 csqrt cpow a b c d x).1 = -1 ↔ a = 0 ∧ b = 0 ∧ c = 0 ∧ d = 0) ∧
      ((solveQuadratic sqrt a b c x).1 = -1 ↔ a = 0 ∧ b = 0 ∧ c = 0) ∧
      (solveNormalizedCubic sqrt3 csqrt cpow r s t x).1 ≠ -1 ∧
      (solveNormalizedCubic sqrt3 csqrt cpow r s t x).1 ≠ 0 ∧
      ((solveCubic sqrt sqrt3 csqrt cpow a b c d x).1 = -1 ↔
        ∀ z : K, a * z * z * z + b * z * z + c * z + d = 0) ∧
      ((solveQuadratic sqrt a b c x).1 = -1 ↔ ∀ z : K, a * z * z + b * z + c = 0) := by
  have hcount : ∀ r s t : K, (solveNormalizedCubic sqrt3 csqrt cpow r s t x).1 ≠ -1 ∧
      (solveNormalizedCubic sqrt3 csqrt cpow r s t x).1 ≠ 0 := by
    intro r s t
    rcases solveNormalizedCubic_count sqrt3 csqrt cpow r s t x with h | h | h <;>
      · rw [h]
        constructor <;> norm_num
  have hcubic : (solveCubic sqrt sqrt3 csqrt cpow a b c d x).1 = -1 ↔
      a = 0 ∧ b = 0 ∧ c = 0 ∧ d = 0 := by
    by_cases ha : a = 0
    · simp only [solveCubic, if_pos ha]
      rw [solveQuadratic_count_neg_one]
      exact ⟨fun h => ⟨ha, h⟩, fun h => h.2⟩
    · simp only [solveCubic, if_neg ha]
      exact ⟨fun h => absurd h (hcount _ _ _).1, fun h => absurd h.1 ha⟩
  refine ⟨hcubic, solveQuadratic_count_neg_one sqrt a b c x, (hcount r s t).1,
    (hcount r s t).2, ?_, ?_⟩
  · rw [hcubic, cubic_vanishes_iff]
  · rw [solveQuadratic_count_neg_one]
    have h := cubic_vanishes_iff 0 a b c
    simp only [zero_mul, zero_add, true_and] at h
    exact h.symm

/-- C16: for `N` = 2, 3, 4, `length2` is `dot` of the vector with itself, that is the
sum of the squares of its components, and it is not negative. -/
theorem length2_sum_of_squares (v2 : Vec2 K) (v3 : Vec3 K) (v4 : Vec4 K) :
    (v2.length2 = v2.dot v2 ∧ v2.length2 = v2.x ^ 2 + v2.y ^ 2 ∧ 0 ≤ v2.length2) ∧
      (v3.length2 = v3.dot v3 ∧ v3.length2 = v3.x ^ 2 + v3.y ^ 2 + v3.z ^ 2 ∧
        0 ≤ v3.length2) ∧
      (v4.length2 = v4.dot v4 ∧ v4.length2 = v4.x ^ 2 + v4.y ^ 2 + v4.z ^ 2 + v4.w ^ 2 ∧
        0 ≤ v4.length2) := by
  refine ⟨⟨rfl, ?_, vec2_length2_nonneg v2⟩, ⟨rfl, ?_, vec3_length2_nonneg v3⟩,
    ⟨rfl, ?_, vec4_length2_nonneg v4⟩⟩
  · simp only [Vec2.length2, Vec2.dot, pow_two]
  · simp only [Vec3.length2, Vec3.dot, pow_two]
  · simp only [Vec4.length2, Vec4.dot, pow_two]

/-- C17: for `N` = 2, 3, 4, `length` returns `sqrt (length2)` when
`length2 ≥ 2 * smallest`; when `length2 < 2 * smallest` it returns, with `m` the maximum
absolute component, 0 if `m = 0` and otherwise `m * sqrt` of the sum of the
`(|v[i]| / m) ^ 2`. -/
theorem length_case_table (sqrt : K → K) (smallest : K) (v2 : Vec2 K) (v3 : Vec3 K)
    (v4 : Vec4 K) :
    ((2 * smallest ≤ v2.length2 → v2.length sqrt smallest = sqrt v2.length2) ∧
        (v2.length2 < 2 * smallest → v2.length sqrt smallest =
          if max |v2.x| |v2.y| = 0 then 0
          else max |v2.x| |v2.y| * sqrt ((|v2.x| / max |v2.x| |v2.y|) ^ 2 +
            (|v2.y| / max |v2.x| |v2.y|) ^ 2))) ∧
      ((2 * smallest ≤ v3.length2 → v3.length sqrt smallest = sqrt v3.length2) ∧
        (v3.length2 < 2 * smallest → v3.length sqrt smallest =
          if v3.maxAbs = 0 then 0
          else v3.maxAbs * sqrt ((|v3.x| / v3.maxAbs) ^ 2 + (|v3.y| / v3.maxAbs) ^ 2 +
            (|v3.z| / v3.maxAbs) ^ 2)) ∧
        v3.maxAbs = max (max |v3.x| |v3.y|) |v3.z|) ∧
      ((2 * smallest ≤ v4.length2 → v4.length sqrt smallest = sqrt v4.length2) ∧
        (v4.length2 < 2 * smallest → v4.length sqrt smallest =
          if v4.maxAbs = 0 then 0
          else v4.maxAbs * sqrt ((|v4.x| / v4.maxAbs) ^ 2 + (|v4.y| / v4.maxAbs) ^ 2 +
            (|v4.z| / v4.maxAbs) ^ 2 + (|v4.w| / v4.maxAbs) ^ 2)) ∧
        v4.maxAbs = max (max (max |v4.x| |v4.y|) |v4.z|) |v4.w|) ∧
      v2.length sqrt smallest = v2.specLength sqrt smallest ∧
      v3.length sqrt smallest = v3.specLength sqrt smallest ∧
      v4.length sqrt smallest = v4.specLength sqrt smallest := by
  refine ⟨⟨fun h => ?_, fun h => ?_⟩, ⟨fun h => ?_, fun h => ?_, rfl⟩,
    ⟨fun h => ?_, fun h => ?_, rfl⟩, vec2_length_eq_specLength sqrt smallest v2,
    vec3_length_eq_specLength sqrt smallest v3, vec4_length_eq_specLength sqrt smallest v4⟩
  · rw [vec2_length_eq_specLength, Vec2.specLength, if_neg (not_lt.mpr h)]
  · rw [vec2_length_eq_specLength, Vec2.specLength, if_pos h]
    rfl
  · rw [vec3_length_eq_specLength, Vec3.specLength, if_neg (not_lt.mpr h)]
  · rw [vec3_length_eq_specLength, Vec3.specLength, if_pos h]
  · rw [vec4_length_eq_specLength, Vec4.specLength, if_neg (not_lt.mpr h)]
  · rw [vec4_length_eq_specLength, Vec4.specLength, if_pos h]

/-- Witness of C17 over the reals with `smallest = 1`: `(3, 4)` has `length2 = 25 ≥ 2`,
and `(1/2, 0)` has `length2 = 1/4 < 2`. -/
theorem length_case_table_witness :
    Vec2.length Real.sqrt 1 (⟨3, 4⟩ : Vec2 ℝ) = Real.sqrt (Vec2.length2 (⟨3, 4⟩ : Vec2 ℝ)) ∧
      Vec2.length Real.sqrt 1 (⟨1 / 2, 0⟩ : Vec2 ℝ) =
        if max |(1 / 2 : ℝ)| |(0 : ℝ)| = 0 then 0
        else max |(1 / 2 : ℝ)| |(0 : ℝ)| * Real.sqrt
          ((|(1 / 2 : ℝ)| / max |(1 / 2 : ℝ)| |(0 : ℝ)|) ^ 2 +
            (|(0 : ℝ)| / max |(1 / 2 : ℝ)| |(0 : ℝ)|) ^ 2) :=
  ⟨(length_case_table Real.sqrt 1 (⟨3, 4⟩ : Vec2 ℝ) ⟨0, 0, 0⟩ ⟨0, 0, 0, 0⟩).1.1
      (by norm_num [Vec2.length2, Vec2.dot]),
    (length_case_table Real.sqrt 1 (⟨1 / 2, 0⟩ : Vec2 ℝ) ⟨0, 0, 0⟩ ⟨0, 0, 0, 0⟩).1.2
      (by norm_num [Vec2.length2, Vec2.dot])⟩

/-- C18: for `v = (1e-20, 1e-20)` and `smallest = 2^(-126)`, `length2` is below
`2 * smallest`, so `length` takes the tiny-magnitude fallback, and the result is
`1e-20 * sqrt 2`, which is not zero and lies between `1.414e-20` and `1.415e-20`. -/
theorem length_tiny_example (sqrt : K → K) (hs : SqrtAt sqrt 2) :
    Vec2.length2 (⟨1 / 10 ^ 20, 1 / 10 ^ 20⟩ : Vec2 K) < 2 * (1 / 2 ^ 126) ∧
      Vec2.length sqrt (1 / 2 ^ 126) (⟨1 / 10 ^ 20, 1 / 10 ^ 20⟩ : Vec2 K) =
        Vec2.lengthTiny sqrt (⟨1 / 10 ^ 20, 1 / 10 ^ 20⟩ : Vec2 K) ∧
      Vec2.length sqrt (1 / 2 ^ 126) (⟨1 / 10 ^ 20, 1 / 10 ^ 20⟩ : Vec2 K) =
        1 / 10 ^ 20 * sqrt 2 ∧
      Vec2.length sqrt (1 / 2 ^ 126) (⟨1 / 10 ^ 20, 1 / 10 ^ 20⟩ : Vec2 K) ≠ 0 ∧
      1414 / 1000 * (1 / 10 ^ 20) <
        Vec2.length sqrt (1 / 2 ^ 126) (⟨1 / 10 ^ 20, 1 / 10 ^ 20⟩ : Vec2 K) ∧
      Vec2.length sqrt (1 / 2 ^ 126) (⟨1 / 10 ^ 20, 1 / 10 ^ 20⟩ : Vec2 K) <
        1415 / 1000 * (1 / 10 ^ 20) := by
  have hlt : Vec2.length2 (⟨1 / 10 ^ 20, 1 / 10 ^ 20⟩ : Vec2 K) < 2 * (1 / 2 ^ 126) := by
    norm_num [Vec2.length2, Vec2.dot]
  have hlen : Vec2.length sqrt (1 / 2 ^ 126) (⟨1 / 10 ^ 20, 1 / 10 ^ 20⟩ : Vec2 K) =
      Vec2.lengthTiny sqrt (⟨1 / 10 ^ 20, 1 / 10 ^ 20⟩ : Vec2 K) := by
    have h : Vec2.dot (⟨1 / 10 ^ 20, 1 / 10 ^ 20⟩ : Vec2 K) ⟨1 / 10 ^ 20, 1 / 10 ^ 20⟩ <
        2 * (1 / 2 ^ 126) := hlt
    simp only [Vec2.length, if_pos h]
  have hpos : (0 : K) < 1 / 10 ^ 20 := by positivity
  have htiny : Vec2.lengthTiny sqrt (⟨1 / 10 ^ 20, 1 / 10 ^ 20⟩ : Vec2 K) =
      1 / 10 ^ 20 * sqrt 2 := by
    have h1 : (1 : K) / 10 ^ 20 / (1 / 10 ^ 20) = 1 := div_self hpos.ne.symm
    simp only [Vec2.lengthTiny, abs_of_pos hpos, lt_irrefl, if_false, hpos.ne.symm, h1]
    norm_num
  obtain ⟨h0, hsq⟩ := hs
  have hlo : 1414 / 1000 < sqrt 2 := by
    by_contra h
    have h1 : sqrt 2 * sqrt 2 ≤ 1414 / 1000 * (1414 / 1000) :=
      mul_le_mul (not_lt.mp h) (not_lt.mp h) h0 (by norm_num)
    rw [hsq] at h1
    norm_num at h1
  have hhi : sqrt 2 < 1415 / 1000 := by
    by_contra h
    have h1 : (1415 / 1000 : K) * (1415 / 1000) ≤ sqrt 2 * sqrt 2 :=
      mul_le_mul (not_lt.mp h) (not_lt.mp h) (by norm_num) h0
    rw [hsq] at h1
    norm_num at h1
  rw [hlen, htiny]
  refine ⟨hlt, rfl, rfl, ?_, ?_, ?_⟩
  · exact mul_ne_zero hpos.ne.symm (by linarith : (0 : K) < sqrt 2).ne.symm
  · rw [mul_comm (1 / 10 ^ 20 : K) (sqrt 2)]
    exact mul_lt_mul_of_pos_right hlo hpos
  · rw [mul_comm (1 / 10 ^ 20 : K) (sqrt 2)]
    exact mul_lt_mul_of_pos_right hhi hpos

/-- Witness of C18 over the reals, with the real square root. -/
theorem length_tiny_example_witness :
    Vec2.length Real.sqrt (1 / 2 ^ 126) (⟨1 / 10 ^ 20, 1 / 10 ^ 20⟩ : Vec2 ℝ) =
        1 / 10 ^ 20 * Real.sqrt 2 ∧
      Vec2.length Real.sqrt (1 / 2 ^ 126) (⟨1 / 10 ^ 20, 1 / 10 ^ 20⟩ : Vec2 ℝ) ≠ 0 :=
  ⟨(length_tiny_example Real.sqrt (sqrtAt_real 2 (by norm_num))).2.2.1,
    (length_tiny_example Real.sqrt (sqrtAt_real 2 (by norm_num))).2.2.2.1⟩

/-- C19: for `N` = 2, 3, 4, on the null vector `normalized` returns the null vector and
`normalize` leaves the vector as it is; whenever `length` is 0, `normalize` changes no
component and `normalized` returns the null vector. -/
theorem normalize_null (sqrt : K → K) (smallest : K) :
    (Vec2.normalized sqrt smallest (⟨0, 0⟩ : Vec2 K) = ⟨0, 0⟩ ∧
        Vec2.normalize sqrt smallest (⟨0, 0⟩ : Vec2 K) = ⟨0, 0⟩ ∧
        ∀ v : Vec2 K, v.length sqrt smallest = 0 →
          v.normalize sqrt smallest = v ∧ v.normalized sqrt smallest = ⟨0, 0⟩) ∧
      (Vec3.normalized sqrt smallest (⟨0, 0, 0⟩ : Vec3 K) = ⟨0, 0, 0⟩ ∧
        Vec3.normalize sqrt smallest (⟨0, 0, 0⟩ : Vec3 K) = ⟨0, 0, 0⟩ ∧
        ∀ v : Vec3 K, v.length sqrt smallest = 0 →
          v.normalize sqrt smallest = v ∧ v.normalized sqrt smallest = ⟨0, 0, 0⟩) ∧
      (Vec4.normalized sqrt smallest (⟨0, 0, 0, 0⟩ : Vec4 K) = ⟨0, 0, 0, 0⟩ ∧
        Vec4.normalize sqrt smallest (⟨0, 0, 0, 0⟩ : Vec4 K) = ⟨0, 0, 0, 0⟩ ∧
        ∀ v : Vec4 K, v.length sqrt smallest = 0 →
          v.normalize sqrt smallest = v ∧ v.normalized sqrt smallest = ⟨0, 0, 0, 0⟩) :=
  ⟨vec2_normalize_of_length_zero sqrt smallest, vec3_normalize_of_length_zero sqrt smallest,
    vec4_normalize_of_length_zero sqrt smallest⟩

/-- Witness of C19 over the reals with `smallest = 2^(-126)`: the null `Vec3` has length 0,
`normalize` leaves it as it is and `normalized` returns it. -/
theorem normalize_null_witness :
    Vec3.length Real.sqrt (1 / 2 ^ 126) (⟨0, 0, 0⟩ : Vec3 ℝ) = 0 ∧
      Vec3.normalize Real.sqrt (1 / 2 ^ 126) (⟨0, 0, 0⟩ : Vec3 ℝ) = ⟨0, 0, 0⟩ ∧
      Vec3.normalized Real.sqrt (1 / 2 ^ 126) (⟨0, 0, 0⟩ : Vec3 ℝ) = ⟨0, 0, 0⟩ :=
  ⟨(vec3_length_eq_zero_iff Real.sqrt _ sqrtAt_real _).mpr rfl,
    (normalize_null Real.sqrt (1 / 2 ^ 126 : ℝ)).2.1.2.2 ⟨0, 0, 0⟩
      ((vec3_length_eq_zero_iff Real.sqrt _ sqrtAt_real _).mpr rfl)⟩

/-- C20: for `N` = 2, 3, 4, `normalizeExc` and `normalizedExc` raise the domain error
exactly when `length` is 0, which with `sqrt` a square root is exactly when every
component is zero; when they do not raise, their results are those of `normalize` and
`normalized`. -/
theorem normalizeExc_raises_iff (sqrt : K → K) (smallest : K)
    (hsqrt : ∀ d : K, 0 ≤ d → SqrtAt sqrt d) (v2 : Vec2 K) (v3 : Vec3 K) (v4 : Vec4 K) :
    ((v2.normalizeExc sqrt smallest = Except.error "Cannot normalize null vector." ↔
          v2.length sqrt smallest = 0) ∧
        (v2.normalizedExc sqrt smallest = Except.error "Cannot normalize null vector." ↔
          v2.length sqrt smallest = 0) ∧
        (v2.length sqrt smallest ≠ 0 →
          v2.normalizeExc sqrt smallest = Except.ok (v2.normalize sqrt smallest) ∧
            v2.normalizedExc sqrt smallest = Except.ok (v2.normalized sqrt smallest)) ∧
        (v2.length sqrt smallest = 0 ↔ v2.x = 0 ∧ v2.y = 0)) ∧
      ((v3.normalizeExc sqrt smallest = Except.error "Cannot normalize null vector." ↔
          v3.length sqrt smallest = 0) ∧
        (v3.normalizedExc sqrt smallest = Except.error "Cannot normalize null vector." ↔
          v3.length sqrt smallest = 0) ∧
        (v3.length sqrt smallest ≠ 0 →
          v3.normalizeExc sqrt smallest = Except.ok (v3.normalize sqrt smallest) ∧
            v3.normalizedExc sqrt smallest = Except.ok (v3.normalized sqrt smallest)) ∧
        (v3.length sqrt smallest = 0 ↔ v3.x = 0 ∧ v3.y = 0 ∧ v3.z = 0)) ∧
      ((v4.normalizeExc sqrt smallest = Except.error "Cannot normalize null vector." ↔
          v4.length sqrt smallest = 0) ∧
        (v4.normalizedExc sqrt smallest = Except.error "Cannot normalize null vector." ↔
          v4.length sqrt smallest = 0) ∧
        (v4.length sqrt smallest ≠ 0 →
          v4.normalizeExc sqrt smallest = Except.ok (v4.normalize sqrt smallest) ∧
            v4.normalizedExc sqrt smallest = Except.ok (v4.normalized sqrt smallest)) ∧
        (v4.length sqrt smallest = 0 ↔ v4.x = 0 ∧ v4.y = 0 ∧ v4.z = 0 ∧ v4.w = 0)) := by
  obtain ⟨a2, b2, c2⟩ := vec2_exc_outcomes sqrt smallest v2
  obtain ⟨a3, b3, c3⟩ := vec3_exc_outcomes sqrt smallest v3
  obtain ⟨a4, b4, c4⟩ := vec4_exc_outcomes sqrt smallest v4
  refine ⟨⟨a2, b2, c2, ?_⟩, ⟨a3, b3, c3, ?_⟩, ⟨a4, b4, c4, ?_⟩⟩
  · rw [vec2_length_eq_zero_iff sqrt smallest hsqrt]
    cases v2
    simp
  · rw [vec3_length_eq_zero_iff sqrt smallest hsqrt]
    cases v3
    simp
  · rw [vec4_length_eq_zero_iff sqrt smallest hsqrt]
    cases v4
    simp

/-- Witness of C20 over the reals with the real square root and `smallest = 2^(-126)`: the
null `Vec2` raises, and the three vectors satisfy the statement. -/
theorem normalizeExc_raises_iff_witness :
    Vec2.normalizeExc Real.sqrt (1 / 2 ^ 126) (⟨0, 0⟩ : Vec2 ℝ) =
        Except.error "Cannot normalize null vector." ∧
      Vec2.normalizedExc Real.sqrt (1 / 2 ^ 126) (⟨0, 0⟩ : Vec2 ℝ) =
        Except.error "Cannot normalize null vector." :=
  ⟨(normalizeExc_raises_iff Real.sqrt (1 / 2 ^ 126) sqrtAt_real ⟨0, 0⟩ ⟨1, 2, 2⟩
      ⟨1, 1, 1, 1⟩).1.1.mpr
      ((normalizeExc_raises_iff Real.sqrt (1 / 2 ^ 126) sqrtAt_real ⟨0, 0⟩ ⟨1, 2, 2⟩
        ⟨1, 1, 1, 1⟩).1.2.2.2.mpr ⟨rfl, rfl⟩),
    (normalizeExc_raises_iff Real.sqrt (1 / 2 ^ 126) sqrtAt_real ⟨0, 0⟩ ⟨1, 2, 2⟩
      ⟨1, 1, 1, 1⟩).1.2.1.mpr
      ((normalizeExc_raises_iff Real.sqrt (1 / 2 ^ 126) sqrtAt_real ⟨0, 0⟩ ⟨1, 2, 2⟩
        ⟨1, 1, 1, 1⟩).1.2.2.2.mpr ⟨rfl, rfl⟩)⟩

/-- C21: for `N` = 2, 3, 4 and every vector with a component that is not zero, with `sqrt`
the non-negative square root, the length of the normalized vector is 1. -/
theorem normalized_length_one (sqrt : K → K) (smallest : K)
    (hsqrt : ∀ d : K, 0 ≤ d → SqrtAt sqrt d) (v2 : Vec2 K) (v3 : Vec3 K) (v4 : Vec4 K) :
    (v2.x ≠ 0 ∨ v2.y ≠ 0 → (v2.normalized sqrt smallest).length sqrt smallest = 1) ∧
      (v3.x ≠ 0 ∨ v3.y ≠ 0 ∨ v3.z ≠ 0 →
        (v3.normalized sqrt smallest).length sqrt smallest = 1) ∧
      (v4.x ≠ 0 ∨ v4.y ≠ 0 ∨ v4.z ≠ 0 ∨ v4.w ≠ 0 →
        (v4.normalized sqrt smallest).length sqrt smallest = 1) := by
  refine ⟨fun h => ?_, fun h => ?_, fun h => ?_⟩
  · apply vec2_normalized_length sqrt smallest hsqrt
    intro h0
    rw [h0] at h
    simp at h
  · apply vec3_normalized_length sqrt smallest hsqrt
    intro h0
    rw [h0] at h
    simp at h
  · apply vec4_normalized_length sqrt smallest hsqrt
    intro h0
    rw [h0] at h
    simp at h

/-- Witness of C21 over the reals with the real square root and `smallest = 2^(-126)`, at
`(3, 4)`, `(1, 2, 2)` and `(1, 1, 1, 1)`. -/
theorem normalized_length_one_witness :
    Vec2.length Real.sqrt (1 / 2 ^ 126)
        (Vec2.normalized Real.sqrt (1 / 2 ^ 126) (⟨3, 4⟩ : Vec2 ℝ)) = 1 ∧
      Vec3.length Real.sqrt (1 / 2 ^ 126)
        (Vec3.normalized Real.sqrt (1 / 2 ^ 126) (⟨1, 2, 2⟩ : Vec3 ℝ)) = 1 ∧
      Vec4.length Real.sqrt (1 / 2 ^ 126)
        (Vec4.normalized Real.sqrt (1 / 2 ^ 126) (⟨1, 1, 1, 1⟩ : Vec4 ℝ)) = 1 :=
  ⟨(normalized_length_one Real.sqrt (1 / 2 ^ 126) sqrtAt_real ⟨3, 4⟩ ⟨1, 2, 2⟩
      ⟨1, 1, 1, 1⟩).1 (Or.inl (by norm_num)),
    (normalized_length_one Real.sqrt (1 / 2 ^ 126) sqrtAt_real ⟨3, 4⟩ ⟨1, 2, 2⟩
      ⟨1, 1, 1, 1⟩).2.1 (Or.inl (by norm_num)),
    (normalized_length_one Real.sqrt (1 / 2 ^ 126) sqrtAt_real ⟨3, 4⟩ ⟨1, 2, 2⟩
      ⟨1, 1, 1, 1⟩).2.2 (Or.inl (by norm_num))⟩

/-- C22: for `N` = 2, 3, 4 and every vector whose `length` is not 0, `normalize`,
`normalizeExc`, `normalizeNonNull`, `normalized`, `normalizedExc` and `normalizedNonNull`
all give the vector with the components `v[i] / v.length ()`. -/
theorem normalize_family_agree (sqrt : K → K) (smallest : K) (v2 : Vec2 K) (v3 : Vec3 K)
    (v4 : Vec4 K) :
    (v2.length sqrt smallest ≠ 0 →
        v2.normalize sqrt smallest =
          ⟨v2.x / v2.length sqrt smallest, v2.y / v2.length sqrt smallest⟩ ∧
        v2.normalizeExc sqrt smallest = Except.ok (v2.normalize sqrt smallest) ∧
        v2.normalizeNonNull sqrt smallest = v2.normalize sqrt smallest ∧
        v2.normalized sqrt smallest = v2.normalize sqrt smallest ∧
        v2.normalizedExc sqrt smallest = Except.ok (v2.normalize sqrt smallest) ∧
        v2.normalizedNonNull sqrt smallest = v2.normalize sqrt smallest) ∧
      (v3.length sqrt smallest ≠ 0 →
        v3.normalize sqrt smallest =
          ⟨v3.x / v3.length sqrt smallest, v3.y / v3.length sqrt smallest,
            v3.z / v3.length sqrt smallest⟩ ∧
        v3.normalizeExc sqrt smallest = Except.ok (v3.normalize sqrt smallest) ∧
        v3.normalizeNonNull sqrt smallest = v3.normalize sqrt smallest ∧
        v3.normalized sqrt smallest = v3.normalize sqrt smallest ∧
        v3.normalizedExc sqrt smallest = Except.ok (v3.normalize sqrt smallest) ∧
        v3.normalizedNonNull sqrt smallest = v3.normalize sqrt smallest) ∧
      (v4.length sqrt smallest ≠ 0 →
        v4.normalize sqrt smallest =
          ⟨v4.x / v4.length sqrt smallest, v4.y / v4.length sqrt smallest,
            v4.z / v4.length sqrt smallest, v4.w / v4.length sqrt smallest⟩ ∧
        v4.normalizeExc sqrt smallest = Except.ok (v4.normalize sqrt smallest) ∧
        v4.normalizeNonNull sqrt smallest = v4.normalize sqrt smallest ∧
        v4.normalized sqrt smallest = v4.normalize sqrt smallest ∧
        v4.normalizedExc sqrt smallest = Except.ok (v4.normalize sqrt smallest) ∧
        v4.normalizedNonNull sqrt smallest = v4.normalize sqrt smallest) :=
  ⟨vec2_normalize_family sqrt smallest v2, vec3_normalize_family sqrt smallest v3,
    vec4_normalize_family sqrt smallest v4⟩

/-- Witness of C22 over the reals with the real square root and `smallest = 2^(-126)`, at
`(3, 4)`, whose length is not 0. -/
theorem normalize_family_agree_witness :
    Vec2.length Real.sqrt (1 / 2 ^ 126) (⟨3, 4⟩ : Vec2 ℝ) ≠ 0 ∧
      Vec2.normalize Real.sqrt (1 / 2 ^ 126) (⟨3, 4⟩ : Vec2 ℝ) =
        ⟨3 / Vec2.length Real.sqrt (1 / 2 ^ 126) (⟨3, 4⟩ : Vec2 ℝ),
          4 / Vec2.length Real.sqrt (1 / 2 ^ 126) (⟨3, 4⟩ : Vec2 ℝ)⟩ ∧
      Vec2.normalizedNonNull Real.sqrt (1 / 2 ^ 126) (⟨3, 4⟩ : Vec2 ℝ) =
        Vec2.normalize Real.sqrt (1 / 2 ^ 126) (⟨3, 4⟩ : Vec2 ℝ) := by
  have hl : Vec2.length Real.sqrt (1 / 2 ^ 126) (⟨3, 4⟩ : Vec2 ℝ) ≠ 0 := by
    intro h
    have := (vec2_length_eq_zero_iff Real.sqrt _ sqrtAt_real _).mp h
    simp at this
  have h := (normalize_family_agree Real.sqrt (1 / 2 ^ 126) (⟨3, 4⟩ : Vec2 ℝ) ⟨0, 0, 0⟩
    ⟨0, 0, 0, 0⟩).1 hl
  exact ⟨hl, h.1, h.2.2.2.2.2⟩

/-- C23: for `N` = 2, 3, 4, `a.equalWithAbsError (v, e)` is true exactly when
`|a[i] - v[i]| ≤ e` for every component index `i`. -/
theorem equalWithAbsError_iff (a2 v2 : Vec2 K) (a3 v3 : Vec3 K) (a4 v4 : Vec4 K) (e : K) :
    (a2.equalWithAbsError v2 e = true ↔ ∀ i : Nat, i < 2 → |a2.get i - v2.get i| ≤ e) ∧
      (a3.equalWithAbsError v3 e = true ↔ ∀ i : Nat, i < 3 → |a3.get i - v3.get i| ≤ e) ∧
      (a4.equalWithAbsError v4 e = true ↔ ∀ i : Nat, i < 4 → |a4.get i - v4.get i| ≤ e) := by
  refine ⟨?_, ?_, ?_⟩
  · rw [vec2_equalWithAbsError_iff]
    constructor
    · rintro ⟨hx, hy⟩ i hi
      interval_cases i
      · exact hx
      · exact hy
    · intro h
      exact ⟨h 0 (by norm_num), h 1 (by norm_num)⟩
  · rw [vec3_equalWithAbsError_iff]
    constructor
    · rintro ⟨hx, hy, hz⟩ i hi
      interval_cases i
      · exact hx
      · exact hy
      · exact hz
    · intro h
      exact ⟨h 0 (by norm_num), h 1 (by norm_num), h 2 (by norm_num)⟩
  · rw [vec4_equalWithAbsError_iff]
    constructor
    · rintro ⟨hx, hy, hz, hw⟩ i hi
      interval_cases i
      · exact hx
      · exact hy
      · exact hz
      · exact hw
    · intro h
      exact ⟨h 0 (by norm_num), h 1 (by norm_num), h 2 (by norm_num), h 3 (by norm_num)⟩

/-- C24: for `N` = 2, 3, 4, `a.equalWithRelError (v, e)` is true exactly when
`|a[i] - v[i]| ≤ e * |a[i]|` for every component index `i`: the bound is scaled by the
component of the receiver `a`. -/
theorem equalWithRelError_iff (a2 v2 : Vec2 K) (a3 v3 : Vec3 K) (a4 v4 : Vec4 K) (e : K) :
    (a2.equalWithRelError v2 e = true ↔
        ∀ i : Nat, i < 2 → |a2.get i - v2.get i| ≤ e * |a2.get i|) ∧
      (a3.equalWithRelError v3 e = true ↔
        ∀ i : Nat, i < 3 → |a3.get i - v3.get i| ≤ e * |a3.get i|) ∧
      (a4.equalWithRelError v4 e = true ↔
        ∀ i : Nat, i < 4 → |a4.get i - v4.get i| ≤ e * |a4.get i|) := by
  refine ⟨?_, ?_, ?_⟩
  · rw [vec2_equalWithRelError_iff]
    constructor
    · rintro ⟨hx, hy⟩ i hi
      interval_cases i
      · exact hx
      · exact hy
    · intro h
      exact ⟨h 0 (by norm_num), h 1 (by norm_num)⟩
  · rw [vec3_equalWithRelError_iff]
    constructor
    · rintro ⟨hx, hy, hz⟩ i hi
      interval_cases i
      · exact hx
      · exact hy
      · exact hz
    · intro h
      exact ⟨h 0 (by norm_num), h 1 (by norm_num), h 2 (by norm_num)⟩
  · rw [vec4_equalWithRelError_iff]
    constructor
    · rintro ⟨hx, hy, hz, hw⟩ i hi
      interval_cases i
      · exact hx
      · exact hy
      · exact hz
      · exact hw
    · intro h
      exact ⟨h 0 (by norm_num), h 1 (by norm_num), h 2 (by norm_num), h 3 (by norm_num)⟩

/-- C25 as stated fails: over the rationals, for `a = (1, 0)` and `b = (1.1, 0)` both
`a.equalWithRelError (b, 0.2)` and `b.equalWithRelError (a, 0.2)` are true, so the two
results are the same. -/
theorem equalWithRelError_example_same :
    Vec2.equalWithRelError (⟨1, 0⟩ : Vec2 ℚ) ⟨11 / 10, 0⟩ (2 / 10) = true ∧
      Vec2.equalWithRelError (⟨11 / 10, 0⟩ : Vec2 ℚ) ⟨1, 0⟩ (2 / 10) = true ∧
      Vec2.equalWithRelError (⟨1, 0⟩ : Vec2 ℚ) ⟨11 / 10, 0⟩ (2 / 10) =
        Vec2.equalWithRelError (⟨11 / 10, 0⟩ : Vec2 ℚ) ⟨1, 0⟩ (2 / 10) := by
  have h1 : Vec2.equalWithRelError (⟨1, 0⟩ : Vec2 ℚ) ⟨11 / 10, 0⟩ (2 / 10) = true := by
    rw [vec2_equalWithRelError_iff]
    norm_num [abs_le]
  have h2 : Vec2.equalWithRelError (⟨11 / 10, 0⟩ : Vec2 ℚ) ⟨1, 0⟩ (2 / 10) = true := by
    rw [vec2_equalWithRelError_iff]
    have h3 : |(11 / 10 : ℚ)| = 11 / 10 := abs_of_pos (by norm_num)
    have h4 : |(11 / 10 : ℚ) - 1| = 1 / 10 := by
      rw [abs_of_pos (by norm_num)]
      norm_num
    rw [h3, h4]
    norm_num
  exact ⟨h1, h2, h1.trans h2.symm⟩

/-- C25, amended: for `a = (1, 0)` and `b = (1.1, 0)`, `a.equalWithRelError (b, e)` is true
exactly for `e ≥ 1/10` and `b.equalWithRelError (a, e)` exactly for `e ≥ 1/11`; at
`e = 0.2` both are true, and the two results differ exactly for `1/11 ≤ e < 1/10`, as at
`e = 0.095`. -/
theorem equalWithRelError_example (e : K) :
    (Vec2.equalWithRelError (⟨1, 0⟩ : Vec2 K) ⟨11 / 10, 0⟩ e = true ↔ 1 / 10 ≤ e) ∧
      (Vec2.equalWithRelError (⟨11 / 10, 0⟩ : Vec2 K) ⟨1, 0⟩ e = true ↔ 1 / 11 ≤ e) ∧
      Vec2.equalWithRelError (⟨1, 0⟩ : Vec2 K) ⟨11 / 10, 0⟩ (2 / 10) = true ∧
      Vec2.equalWithRelError (⟨11 / 10, 0⟩ : Vec2 K) ⟨1, 0⟩ (2 / 10) = true ∧
      (Vec2.equalWithRelError (⟨1, 0⟩ : Vec2 K) ⟨11 / 10, 0⟩ e ≠
          Vec2.equalWithRelError (⟨11 / 10, 0⟩ : Vec2 K) ⟨1, 0⟩ e ↔
        1 / 11 ≤ e ∧ e < 1 / 10) ∧
      Vec2.equalWithRelError (⟨1, 0⟩ : Vec2 K) ⟨11 / 10, 0⟩ (95 / 1000) = false ∧
      Vec2.equalWithRelError (⟨11 / 10, 0⟩ : Vec2 K) ⟨1, 0⟩ (95 / 1000) = true := by
  have ha : ∀ e : K, Vec2.equalWithRelError (⟨1, 0⟩ : Vec2 K) ⟨11 / 10, 0⟩ e = true ↔
      1 / 10 ≤ e := by
    intro e
    rw [vec2_equalWithRelError_iff]
    have h1 : |(1 : K) - 11 / 10| = 1 / 10 := by
      rw [abs_sub_comm, abs_of_nonneg (by norm_num)]
      norm_num
    simp only [h1, abs_one, mul_one, sub_self, abs_zero, mul_zero, le_refl, and_true]
  have hb : ∀ e : K, Vec2.equalWithRelError (⟨11 / 10, 0⟩ : Vec2 K) ⟨1, 0⟩ e = true ↔
      1 / 11 ≤ e := by
    intro e
    rw [vec2_equalWithRelError_iff]
    have h1 : |(11 / 10 : K) - 1| = 1 / 10 := by
      rw [abs_of_nonneg (by norm_num)]
      norm_num
    have h2 : |(11 / 10 : K)| = 11 / 10 := abs_of_nonneg (by norm_num)
    simp only [h1, h2, sub_self, abs_zero, mul_zero, le_refl, and_true]
    constructor
    · intro h
      linarith
    · intro h
      linarith
  refine ⟨ha e, hb e, (ha _).mpr (by norm_num), (hb _).mpr (by norm_num), ?_, ?_,
    (hb _).mpr (by norm_num)⟩
  · rw [Ne, Bool.eq_iff_iff, ha, hb]
    constructor
    · intro h
      by_contra hc
      apply h
      constructor
      · intro h1
        linarith
      · intro h1
        by_contra h2
        exact hc ⟨h1, not_le.mp h2⟩
    · rintro ⟨h1, h2⟩ h
      have := h.mpr h1
      linarith
  · rw [Bool.eq_false_iff, Ne, ha]
    norm_num

/-- C26: for `N` = 2, 3, 4, `equalWithRelError` is not symmetric: there are `a`, `b` and
`e ≥ 0` with `a.equalWithRelError (b, e)` true and `b.equalWithRelError (a, e)` false;
but when `|a[i]| ≥ |b[i]|` for every `i`, `b.equalWithRelError (a, e)` implies
`a.equalWithRelError (b, e)`. -/
theorem equalWithRelError_asymmetric :
    (∃ a b : Vec2 K, ∃ e : K, 0 ≤ e ∧ a.equalWithRelError b e = true ∧
        b.equalWithRelError a e = false) ∧
      (∃ a b : Vec3 K, ∃ e : K, 0 ≤ e ∧ a.equalWithRelError b e = true ∧
        b.equalWithRelError a e = false) ∧
      (∃ a b : Vec4 K, ∃ e : K, 0 ≤ e ∧ a.equalWithRelError b e = true ∧
        b.equalWithRelError a e = false) ∧
      (∀ (a b : Vec2 K) (e : K), |b.x| ≤ |a.x| ∧ |b.y| ≤ |a.y| →
        b.equalWithRelError a e = true → a.equalWithRelError b e = true) ∧
      (∀ (a b : Vec3 K) (e : K), |b.x| ≤ |a.x| ∧ |b.y| ≤ |a.y| ∧ |b.z| ≤ |a.z| →
        b.equalWithRelError a e = true → a.equalWithRelError b e = true) ∧
      (∀ (a b : Vec4 K) (e : K),
        |b.x| ≤ |a.x| ∧ |b.y| ≤ |a.y| ∧ |b.z| ≤ |a.z| ∧ |b.w| ≤ |a.w| →
        b.equalWithRelError a e = true → a.equalWithRelError b e = true) := by
  have h1 : |(2 : K) - 1| ≤ 1 / 2 * |(2 : K)| := by
    rw [abs_of_nonneg (by norm_num), abs_of_nonneg (by norm_num)]
    norm_num
  have h2 : ¬|(1 : K) - 2| ≤ 1 / 2 * |(1 : K)| := by
    rw [abs_sub_comm, abs_of_nonneg (by norm_num), abs_of_nonneg (by norm_num)]
    norm_num
  have h0 : |(0 : K) - 0| ≤ 1 / 2 * |(0 : K)| := by simp
  refine ⟨⟨⟨2, 0⟩, ⟨1, 0⟩, 1 / 2, by norm_num, ?_, ?_⟩,
    ⟨⟨2, 0, 0⟩, ⟨1, 0, 0⟩, 1 / 2, by norm_num, ?_, ?_⟩,
    ⟨⟨2, 0, 0, 0⟩, ⟨1, 0, 0, 0⟩, 1 / 2, by norm_num, ?_, ?_⟩,
    fun a b e => vec2_equalWithRelError_swap a b e,
    fun a b e => vec3_equalWithRelError_swap a b e,
    fun a b e => vec4_equalWithRelError_swap a b e⟩
  · rw [vec2_equalWithRelError_iff]
    exact ⟨h1, h0⟩
  · rw [Bool.eq_false_iff, Ne, vec2_equalWithRelError_iff]
    exact fun h => h2 h.1
  · rw [vec3_equalWithRelError_iff]
    exact ⟨h1, h0, h0⟩
  · rw [Bool.eq_false_iff, Ne, vec3_equalWithRelError_iff]
    exact fun h => h2 h.1
  · rw [vec4_equalWithRelError_iff]
    exact ⟨h1, h0, h0, h0⟩
  · rw [Bool.eq_false_iff, Ne, vec4_equalWithRelError_iff]
    exact fun h => h2 h.1

/-- Witness of C26 over the rationals: `|1| ≤ |2|`, `(1, 0).equalWithRelError ((2, 0), 1)`
is true, and so is `(2, 0).equalWithRelError ((1, 0), 1)`. -/
theorem equalWithRelError_asymmetric_witness :
    Vec2.equalWithRelError (⟨2, 0⟩ : Vec2 ℚ) ⟨1, 0⟩ 1 = true :=
  (equalWithRelError_asymmetric (K := ℚ)).2.2.2.1 ⟨2, 0⟩ ⟨1, 0⟩ 1
    ⟨by norm_num [abs_le], by norm_num⟩
    (by rw [vec2_equalWithRelError_iff]; norm_num [abs_le])

/-- C28: the checked conversion `Vec3 (Vec4 v, INF_EXCEPTION)` raises the domain error
whenever `v.w` is 0; whenever it does not raise, `v.w` is not 0, the result is
`(v.x/v.w, v.y/v.w, v.z/v.w)`, and if `v.x`, `v.y`, `v.z` have magnitude at most
`baseTypeMax`, so has every component of the result. -/
theorem ofVec4Exc_checked (baseTypeMax : K) (v : Vec4 K) :
    (v.w = 0 → Vec3.ofVec4Exc baseTypeMax v =
        Except.error "Cannot normalize point at infinity.") ∧
      ∀ r : Vec3 K, Vec3.ofVec4Exc baseTypeMax v = Except.ok r →
        v.w ≠ 0 ∧ r = ⟨v.x / v.w, v.y / v.w, v.z / v.w⟩ ∧
          (|v.x| ≤ baseTypeMax → |v.y| ≤ baseTypeMax → |v.z| ≤ baseTypeMax →
            |r.x| ≤ baseTypeMax ∧ |r.y| ≤ baseTypeMax ∧ |r.z| ≤ baseTypeMax) :=
  ofVec4Exc_outcomes baseTypeMax v

/-- Witness of C28 over the rationals with `baseTypeMax = 100`: `(2, 4, 6, 0)` raises, and
`(2, 4, 6, 2)` gives `(1, 2, 3)`. -/
theorem ofVec4Exc_checked_witness :
    Vec3.ofVec4Exc (100 : ℚ) ⟨2, 4, 6, 0⟩ =
        Except.error "Cannot normalize point at infinity." ∧
      ((2 : ℚ) ≠ 0 ∧ (⟨1, 2, 3⟩ : Vec3 ℚ) = ⟨2 / 2, 4 / 2, 6 / 2⟩ ∧
        (|(2 : ℚ)| ≤ 100 → |(4 : ℚ)| ≤ 100 → |(6 : ℚ)| ≤ 100 →
          |(1 : ℚ)| ≤ 100 ∧ |(2 : ℚ)| ≤ 100 ∧ |(3 : ℚ)| ≤ 100)) :=
  ⟨(ofVec4Exc_checked (100 : ℚ) ⟨2, 4, 6, 0⟩).1 rfl,
    (ofVec4Exc_checked (100 : ℚ) ⟨2, 4, 6, 2⟩).2 ⟨1, 2, 3⟩
      (by norm_num [Vec3.ofVec4Exc])⟩

/-- C29: the depression step of `solveNormalizedCubic` is the standard substitution: with
`p = (3s - r^2)/3` and `q = 2r^3/27 - r*s/3 + t` as the code computes them,
`(y - r/3)^3 + r*(y - r/3)^2 + s*(y - r/3) + t = y^3 + p*y + q` for every `y`, so `x`
solves the normalized cubic exactly when `y = x + r/3` solves the depressed cubic. -/
theorem depression_step (r s t : K) :
    cubicP r s = (3 * s - r ^ 2) / 3 ∧ cubicQ r s t = 2 * r ^ 3 / 27 - r * s / 3 + t ∧
      (∀ y : K, (y - r / 3) ^ 3 + r * (y - r / 3) ^ 2 + s * (y - r / 3) + t =
        y ^ 3 + cubicP r s * y + cubicQ r s t) ∧
      ∀ x : K, x ^ 3 + r * x ^ 2 + s * x + t = 0 ↔
        (x + r / 3) ^ 3 + cubicP r s * (x + r / 3) + cubicQ r s t = 0 := by
  refine ⟨?_, ?_, fun y => ?_, fun x => ?_⟩
  · unfold cubicP
    ring
  · unfold cubicQ
    ring
  · linear_combination depress_identity r s t y
  · have h : x ^ 3 + r * x ^ 2 + s * x + t =
        (x + r / 3) ^ 3 + cubicP r s * (x + r / 3) + cubicQ r s t := by
      linear_combination cubic_as_depressed r s t x
    rw [h]

/-- C30: in the general path of `solveNormalizedCubic`, with `sqrt3 * sqrt3 = 3`, the
complex square root of `D` a square root, `u` a cube root of `-q/2 + sqrt (D)` that is
not zero and `v = -p/(3u)`, the candidates `y0`, `y1`, `y2` are exactly the roots of the
depressed cubic: `y^3 + p*y + q = (y - y0)*(y - y1)*(y - y2)` for every complex `y`. -/
theorem cardano_factorization (sqrt3 : K) (csqrt : Cx K → Cx K) (cpow : Cx K → K → Cx K)
    (r s t : K) (h3 : sqrt3 * sqrt3 = 3)
    (hw : csqrt (Cx.ofReal (cubicD r s t)) * csqrt (Cx.ofReal (cubicD r s t)) =
      Cx.ofReal (cubicD r s t))
    (hu3 : cubicU csqrt cpow r s t * cubicU csqrt cpow r s t * cubicU csqrt cpow r s t =
      Cx.addScalar (-cubicQ r s t / 2) (csqrt (Cx.ofReal (cubicD r s t))))
    (hne : cubicU csqrt cpow r s t ≠ ⟨0, 0⟩) (y : Cx K) :
    cubicV csqrt cpow r s t =
        Cx.scalarDiv (-cubicP r s) (Cx.scalarMul 3 (cubicU csqrt cpow r s t)) ∧
      Cx.scalarMul 3 (cubicU csqrt cpow r s t) ≠ ⟨0, 0⟩ ∧
      y * y * y + Cx.ofReal (cubicP r s) * y + Cx.ofReal (cubicQ r s t) =
        (y - cubicY0 csqrt cpow r s t) * (y - cubicY1 sqrt3 csqrt cpow r s t) *
          (y - cubicY2 sqrt3 csqrt cpow r s t) := by
  refine ⟨rfl, ?_, cx_cardano sqrt3 csqrt cpow r s t h3 hw hu3 hne y⟩
  intro h
  apply hne
  have hre : 3 * (cubicU csqrt cpow r s t).re = 0 := congrArg Cx.re h
  have him : 3 * (cubicU csqrt cpow r s t).im = 0 := congrArg Cx.im h
  exact Cx.ext (show (cubicU csqrt cpow r s t).re = 0 by linarith)
    (show (cubicU csqrt cpow r s t).im = 0 by linarith)

/-- Witness of C30 over the reals with the principal roots and the real square root of
3, for `z^3 - 6*z^2 + 11*z - 6` and `y = 1 + i`. -/
theorem cardano_factorization_witness :
    cubicU realCsqrt realCpow (-6 : ℝ) 11 (-6) ≠ ⟨0, 0⟩ ∧
      (⟨1, 1⟩ : Cx ℝ) * ⟨1, 1⟩ * ⟨1, 1⟩ + Cx.ofReal (cubicP (-6 : ℝ) 11) * ⟨1, 1⟩ +
          Cx.ofReal (cubicQ (-6 : ℝ) 11 (-6)) =
        (⟨1, 1⟩ - cubicY0 realCsqrt realCpow (-6 : ℝ) 11 (-6)) *
          (⟨1, 1⟩ - cubicY1 (Real.sqrt 3) realCsqrt realCpow (-6 : ℝ) 11 (-6)) *
          (⟨1, 1⟩ - cubicY2 (Real.sqrt 3) realCsqrt realCpow (-6 : ℝ) 11 (-6)) := by
  have hne : cubicU realCsqrt realCpow (-6 : ℝ) 11 (-6) ≠ ⟨0, 0⟩ :=
    cubicU_ne_zero_of_nonpos realCsqrt realCpow (-6) 11 (-6) (principalRootsAt_real _ _ _)
      (by norm_num [cubicD, cubicP, cubicQ]) (by norm_num [cubicP])
  exact ⟨hne, (cardano_factorization (Real.sqrt 3) realCsqrt realCpow (-6) 11 (-6)
    sqrt3_real.1 (principalRootsAt_real (-6) 11 (-6)).1.1
    (principalRootsAt_real (-6) 11 (-6)).2.1 hne ⟨1, 1⟩).2.2⟩

/-- C31, at the input `r = 0`, `s = 0`, `t = 1` (the equation `z^3 + 1 = 0`) over the
reals with the principal roots: `p = 0`, `q = 1` and `D = 1/4`, so the special case
`D = 0 ∧ p / 3 = 0` is not taken and `solveNormalizedCubic` returns 1 from the general
path, yet the divisor `3 * u` of `v = -p / (3 * u)` is zero, as is the numerator. -/
theorem solveNormalizedCubic_divisor_zero :
    ¬(cubicD (0 : ℝ) 0 1 = 0 ∧ cubicP (0 : ℝ) 0 / 3 = 0) ∧
      (solveNormalizedCubic (Real.sqrt 3) realCsqrt realCpow 0 0 1 (fun _ => 0)).1 = 1 ∧
      Cx.scalarMul 3 (cubicU realCsqrt realCpow 0 0 1) = ⟨0, 0⟩ ∧
      -cubicP (0 : ℝ) 0 = 0 := by
  have hD : cubicD (0 : ℝ) 0 1 = 1 / 4 := by
    norm_num [cubicD, cubicP, cubicQ]
  have hg : ¬(cubicD (0 : ℝ) 0 1 = 0 ∧ cubicP (0 : ℝ) 0 / 3 = 0) := by
    rintro ⟨h, -⟩
    rw [hD] at h
    norm_num at h
  refine ⟨hg, ?_, ?_, by norm_num [cubicP]⟩
  · rw [solveNormalizedCubic_of_pos _ _ _ _ _ _ _ (by rw [hD]; norm_num)]
  · exact (cubicU_eq_zero_iff realCsqrt realCpow 0 0 1 (principalRootsAt_real 0 0 1) hg).mpr
      ⟨by norm_num [cubicP], by norm_num [cubicQ]⟩

/-- C32: for every `a ≠ 0`, `b`, `c` with `D = b*b - 4*a*c > 0` and `sqrt D` the
non-negative square root of `D`, `solveQuadratic` takes the two-root branch, its
intermediate `q = -(b + sign(b) * sqrt D) / 2` is not zero, negative when `b > 0` and
positive when `b ≤ 0`, and `x[1]` is the quotient `c / q` by this `q`. -/
theorem solveQuadratic_q_nonzero (sqrt : K → K) (a b c : K) (x : Nat → K) (ha : a ≠ 0)
    (hD : 0 < b * b - 4 * a * c) (hs : SqrtAt sqrt (b * b - 4 * a * c)) :
    quadraticQ sqrt a b c =
        -(b + (if b > 0 then 1 else -1) * sqrt (b * b - 4 * a * c)) / 2 ∧
      quadraticQ sqrt a b c ≠ 0 ∧
      (0 < b → quadraticQ sqrt a b c < 0) ∧
      (b ≤ 0 → 0 < quadraticQ sqrt a b c) ∧
      (solveQuadratic sqrt a b c x).1 = 2 ∧
      (solveQuadratic sqrt a b c x).2 1 = c / quadraticQ sqrt a b c := by
  obtain ⟨hneg, hpos⟩ := quadraticQ_sign sqrt a b c hD hs
  refine ⟨rfl, (quadraticQ_spec sqrt a b c hD hs).1, hneg, hpos, ?_, ?_⟩
  · rw [solveQuadratic_of_pos sqrt a b c x ha hD]
  · rw [solveQuadratic_of_pos sqrt a b c x ha hD]
    simp only [Function.update_same]

/-- Witness of C32 at `a = 1`, `b = -3`, `c = 2` over the reals, with the real square
root: `D = 1`. -/
theorem solveQuadratic_q_nonzero_witness :
    quadraticQ Real.sqrt 1 (-3) 2 =
        -(-3 + (if (-3 : ℝ) > 0 then 1 else -1) * Real.sqrt (-3 * -3 - 4 * 1 * 2)) / 2 ∧
      quadraticQ Real.sqrt 1 (-3) 2 ≠ 0 ∧
      ((0 : ℝ) < -3 → quadraticQ Real.sqrt 1 (-3) 2 < 0) ∧
      ((-3 : ℝ) ≤ 0 → 0 < quadraticQ Real.sqrt 1 (-3) 2) ∧
      (solveQuadratic Real.sqrt 1 (-3) 2 (fun _ => 0)).1 = 2 ∧
      (solveQuadratic Real.sqrt 1 (-3) 2 (fun _ => 0)).2 1 =
        2 / quadraticQ Real.sqrt 1 (-3) 2 :=
  solveQuadratic_q_nonzero Real.sqrt 1 (-3) 2 (fun _ => 0) one_ne_zero (by norm_num)
    (sqrtAt_real _ (by norm_num))

/-- C33: for `N` = 2, 3, 4 and every vector, with `sqrt` the non-negative square root,
`lengthTiny` returns the square root of the sum of the squared components, and `length`
is `sqrt (length2)` whichever side of the `2 * smallest` threshold is taken. -/
theorem lengthTiny_is_sqrt (sqrt : K → K) (smallest : K)
    (hsqrt : ∀ d : K, 0 ≤ d → SqrtAt sqrt d) (v2 : Vec2 K) (v3 : Vec3 K) (v4 : Vec4 K) :
    (v2.lengthTiny sqrt = v2.specLengthTiny sqrt ∧
        v2.length sqrt smallest = sqrt v2.length2) ∧
      (v3.lengthTiny sqrt = v3.specLengthTiny sqrt ∧
        v3.length sqrt smallest = sqrt v3.length2) ∧
      (v4.lengthTiny sqrt = v4.specLengthTiny sqrt ∧
        v4.length sqrt smallest = sqrt v4.length2) := by
  refine ⟨⟨?_, ?_⟩, ⟨?_, ?_⟩, ⟨?_, ?_⟩⟩
  · simp only [Vec2.specLengthTiny, pow_two]
    exact vec2_lengthTiny_eq_sqrt sqrt hsqrt v2
  · exact vec2_length_eq_sqrt sqrt smallest hsqrt v2
  · simp only [Vec3.specLengthTiny, pow_two]
    exact vec3_lengthTiny_eq_sqrt sqrt hsqrt v3
  · exact vec3_length_eq_sqrt sqrt smallest hsqrt v3
  · simp only [Vec4.specLengthTiny, pow_two]
    exact vec4_lengthTiny_eq_sqrt sqrt hsqrt v4
  · exact vec4_length_eq_sqrt sqrt smallest hsqrt v4

/-- Witness of C33 over the reals with the real square root and `smallest = 2^(-126)`, at
`(3, 4)`, `(1, 2, 2)` and `(1, 1, 1, 1)`. -/
theorem lengthTiny_is_sqrt_witness :
    (Vec2.lengthTiny Real.sqrt (⟨3, 4⟩ : Vec2 ℝ) = Vec2.specLengthTiny Real.sqrt (⟨3, 4⟩ : Vec2 ℝ) ∧
        Vec2.length Real.sqrt (1 / 2 ^ 126) (⟨3, 4⟩ : Vec2 ℝ) =
          Real.sqrt (Vec2.length2 (⟨3, 4⟩ : Vec2 ℝ))) ∧
      (Vec3.lengthTiny Real.sqrt (⟨1, 2, 2⟩ : Vec3 ℝ) = Vec3.specLengthTiny Real.sqrt (⟨1, 2,
          2⟩ : Vec3 ℝ) ∧
        Vec3.length Real.sqrt (1 / 2 ^ 126) (⟨1, 2, 2⟩ : Vec3 ℝ) =
          Real.sqrt (Vec3.length2 (⟨1, 2, 2⟩ : Vec3 ℝ))) ∧
      (Vec4.lengthTiny Real.sqrt (⟨1, 1, 1, 1⟩ : Vec4 ℝ) = Vec4.specLengthTiny Real.sqrt (⟨1, 1,
          1, 1⟩ : Vec4 ℝ) ∧
        Vec4.length Real.sqrt (1 / 2 ^ 126) (⟨1, 1, 1, 1⟩ : Vec4 ℝ) =
          Real.sqrt (Vec4.length2 (⟨1, 1, 1, 1⟩ : Vec4 ℝ))) :=
  lengthTiny_is_sqrt Real.sqrt (1 / 2 ^ 126) sqrtAt_real ⟨3, 4⟩ ⟨1, 2, 2⟩ ⟨1, 1, 1, 1⟩

/-- C34: for `N` = 2, 3, 4, `lengthTiny` returns 0 when its local `max` is zero and
otherwise `max * sqrt` of the sum of the squares of its scaled locals; these scaled
locals are the `|v[i]| / max`, and whenever `max` is not zero each of them is in `[0, 1]`
and one of them is 1. -/
theorem lengthTiny_scaled_bounds (v2 : Vec2 K) (v3 : Vec3 K) (v4 : Vec4 K) :
    ((∀ sqrt : K → K, v2.lengthTiny sqrt =
          if v2.lengthTinyMax = 0 then 0
          else
            v2.lengthTinyMax * sqrt
              (v2.lengthTinyScaled.x * v2.lengthTinyScaled.x +
                v2.lengthTinyScaled.y * v2.lengthTinyScaled.y)) ∧
        v2.lengthTinyScaled =
          ⟨|v2.x| / v2.lengthTinyMax, |v2.y| / v2.lengthTinyMax⟩ ∧
        (v2.lengthTinyMax ≠ 0 →
          (0 ≤ |v2.x| / v2.lengthTinyMax ∧ |v2.x| / v2.lengthTinyMax ≤ 1) ∧
          (0 ≤ |v2.y| / v2.lengthTinyMax ∧ |v2.y| / v2.lengthTinyMax ≤ 1) ∧
          (|v2.x| / v2.lengthTinyMax = 1 ∨ |v2.y| / v2.lengthTinyMax = 1))) ∧
      ((∀ sqrt : K → K, v3.lengthTiny sqrt =
          if v3.lengthTinyMax = 0 then 0
          else
            v3.lengthTinyMax * sqrt
              (v3.lengthTinyScaled.x * v3.lengthTinyScaled.x +
                v3.lengthTinyScaled.y * v3.lengthTinyScaled.y +
                v3.lengthTinyScaled.z * v3.lengthTinyScaled.z)) ∧
        v3.lengthTinyScaled =
          ⟨|v3.x| / v3.lengthTinyMax, |v3.y| / v3.lengthTinyMax, |v3.z| / v3.lengthTinyMax⟩ ∧
        (v3.lengthTinyMax ≠ 0 →
          (0 ≤ |v3.x| / v3.lengthTinyMax ∧ |v3.x| / v3.lengthTinyMax ≤ 1) ∧
          (0 ≤ |v3.y| / v3.lengthTinyMax ∧ |v3.y| / v3.lengthTinyMax ≤ 1) ∧
          (0 ≤ |v3.z| / v3.lengthTinyMax ∧ |v3.z| / v3.lengthTinyMax ≤ 1) ∧
          (|v3.x| / v3.lengthTinyMax = 1 ∨ |v3.y| / v3.lengthTinyMax = 1 ∨
            |v3.z| / v3.lengthTinyMax = 1))) ∧
      ((∀ sqrt : K → K, v4.lengthTiny sqrt =
          if v4.lengthTinyMax = 0 then 0
          else
            v4.lengthTinyMax * sqrt
              (v4.lengthTinyScaled.x * v4.lengthTinyScaled.x +
                v4.lengthTinyScaled.y * v4.lengthTinyScaled.y +
                v4.lengthTinyScaled.z * v4.lengthTinyScaled.z +
                v4.lengthTinyScaled.w * v4.lengthTinyScaled.w)) ∧
        v4.lengthTinyScaled =
          ⟨|v4.x| / v4.lengthTinyMax, |v4.y| / v4.lengthTinyMax, |v4.z| / v4.lengthTinyMax,
            |v4.w| / v4.lengthTinyMax⟩ ∧
        (v4.lengthTinyMax ≠ 0 →
          (0 ≤ |v4.x| / v4.lengthTinyMax ∧ |v4.x| / v4.lengthTinyMax ≤ 1) ∧
          (0 ≤ |v4.y| / v4.lengthTinyMax ∧ |v4.y| / v4.lengthTinyMax ≤ 1) ∧
          (0 ≤ |v4.z| / v4.lengthTinyMax ∧ |v4.z| / v4.lengthTinyMax ≤ 1) ∧
          (0 ≤ |v4.w| / v4.lengthTinyMax ∧ |v4.w| / v4.lengthTinyMax ≤ 1) ∧
          (|v4.x| / v4.lengthTinyMax = 1 ∨ |v4.y| / v4.lengthTinyMax = 1 ∨
            |v4.z| / v4.lengthTinyMax = 1 ∨ |v4.w| / v4.lengthTinyMax = 1))) := by
  refine ⟨?_, ?_, ?_⟩
  · refine ⟨fun sqrt => vec2_lengthTiny_locals sqrt v2, ?_⟩
    rw [vec2_lengthTinyMax_eq]
    exact ⟨vec2_lengthTinyScaled_eq v2, vec2_scaled_bounds v2⟩
  · refine ⟨fun sqrt => vec3_lengthTiny_locals sqrt v3, ?_⟩
    rw [vec3_lengthTinyMax_eq]
    exact ⟨vec3_lengthTinyScaled_eq v3, vec3_scaled_bounds v3⟩
  · refine ⟨fun sqrt => vec4_lengthTiny_locals sqrt v4, ?_⟩
    rw [vec4_lengthTinyMax_eq]
    exact ⟨vec4_lengthTinyScaled_eq v4, vec4_scaled_bounds v4⟩

/-- Witness of C34 over the reals with the real square root, at `(3, -4)`, `(1, -2, 2)`
and `(0, 1, -1, 0)`: the local `max` is not zero, `lengthTiny` is computed from the
scaled locals, and these are in `[0, 1]` with one of them 1. -/
theorem lengthTiny_scaled_bounds_witness :
    (Vec2.lengthTinyMax (⟨3, -4⟩ : Vec2 ℝ) ≠ 0 ∧
        Vec2.lengthTiny Real.sqrt (⟨3, -4⟩ : Vec2 ℝ) =
          (if Vec2.lengthTinyMax (⟨3, -4⟩ : Vec2 ℝ) = 0 then 0
          else
            Vec2.lengthTinyMax (⟨3, -4⟩ : Vec2 ℝ) * Real.sqrt
              ((Vec2.lengthTinyScaled (⟨3, -4⟩ : Vec2 ℝ)).x *
                (Vec2.lengthTinyScaled (⟨3, -4⟩ : Vec2 ℝ)).x +
                (Vec2.lengthTinyScaled (⟨3, -4⟩ : Vec2 ℝ)).y *
                (Vec2.lengthTinyScaled (⟨3, -4⟩ : Vec2 ℝ)).y)) ∧
        (0 ≤ |(⟨3, -4⟩ : Vec2 ℝ).x| / Vec2.lengthTinyMax (⟨3, -4⟩ : Vec2 ℝ) ∧
          |(⟨3, -4⟩ : Vec2 ℝ).x| / Vec2.lengthTinyMax (⟨3, -4⟩ : Vec2 ℝ) ≤ 1) ∧
        (0 ≤ |(⟨3, -4⟩ : Vec2 ℝ).y| / Vec2.lengthTinyMax (⟨3, -4⟩ : Vec2 ℝ) ∧
          |(⟨3, -4⟩ : Vec2 ℝ).y| / Vec2.lengthTinyMax (⟨3, -4⟩ : Vec2 ℝ) ≤ 1) ∧
        (|(⟨3, -4⟩ : Vec2 ℝ).x| / Vec2.lengthTinyMax (⟨3, -4⟩ : Vec2 ℝ) = 1 ∨
          |(⟨3, -4⟩ : Vec2 ℝ).y| / Vec2.lengthTinyMax (⟨3, -4⟩ : Vec2 ℝ) = 1)) ∧
      (Vec3.lengthTinyMax (⟨1, -2, 2⟩ : Vec3 ℝ) ≠ 0 ∧
        Vec3.lengthTiny Real.sqrt (⟨1, -2, 2⟩ : Vec3 ℝ) =
          (if Vec3.lengthTinyMax (⟨1, -2, 2⟩ : Vec3 ℝ) = 0 then 0
          else
            Vec3.lengthTinyMax (⟨1, -2, 2⟩ : Vec3 ℝ) * Real.sqrt
              ((Vec3.lengthTinyScaled (⟨1, -2, 2⟩ : Vec3 ℝ)).x *
                (Vec3.lengthTinyScaled (⟨1, -2, 2⟩ : Vec3 ℝ)).x +
                (Vec3.lengthTinyScaled (⟨1, -2, 2⟩ : Vec3 ℝ)).y *
                (Vec3.lengthTinyScaled (⟨1, -2, 2⟩ : Vec3 ℝ)).y +
                (Vec3.lengthTinyScaled (⟨1, -2, 2⟩ : Vec3 ℝ)).z *
                (Vec3.lengthTinyScaled (⟨1, -2, 2⟩ : Vec3 ℝ)).z)) ∧
        (0 ≤ |(⟨1, -2, 2⟩ : Vec3 ℝ).x| / Vec3.lengthTinyMax (⟨1, -2, 2⟩ : Vec3 ℝ) ∧
          |(⟨1, -2, 2⟩ : Vec3 ℝ).x| / Vec3.lengthTinyMax (⟨1, -2, 2⟩ : Vec3 ℝ) ≤ 1) ∧
        (0 ≤ |(⟨1, -2, 2⟩ : Vec3 ℝ).y| / Vec3.lengthTinyMax (⟨1, -2, 2⟩ : Vec3 ℝ) ∧
          |(⟨1, -2, 2⟩ : Vec3 ℝ).y| / Vec3.lengthTinyMax (⟨1, -2, 2⟩ : Vec3 ℝ) ≤ 1) ∧
        (0 ≤ |(⟨1, -2, 2⟩ : Vec3 ℝ).z| / Vec3.lengthTinyMax (⟨1, -2, 2⟩ : Vec3 ℝ) ∧
          |(⟨1, -2, 2⟩ : Vec3 ℝ).z| / Vec3.lengthTinyMax (⟨1, -2, 2⟩ : Vec3 ℝ) ≤ 1) ∧
        (|(⟨1, -2, 2⟩ : Vec3 ℝ).x| / Vec3.lengthTinyMax (⟨1, -2, 2⟩ : Vec3 ℝ) = 1 ∨
          |(⟨1, -2, 2⟩ : Vec3 ℝ).y| / Vec3.lengthTinyMax (⟨1, -2, 2⟩ : Vec3 ℝ) = 1 ∨
          |(⟨1, -2, 2⟩ : Vec3 ℝ).z| / Vec3.lengthTinyMax (⟨1, -2, 2⟩ : Vec3 ℝ) = 1)) ∧
      (Vec4.lengthTinyMax (⟨0, 1, -1, 0⟩ : Vec4 ℝ) ≠ 0 ∧
        Vec4.lengthTiny Real.sqrt (⟨0, 1, -1, 0⟩ : Vec4 ℝ) =
          (if Vec4.lengthTinyMax (⟨0, 1, -1, 0⟩ : Vec4 ℝ) = 0 then 0
          else
            Vec4.lengthTinyMax (⟨0, 1, -1, 0⟩ : Vec4 ℝ) * Real.sqrt
              ((Vec4.lengthTinyScaled (⟨0, 1, -1, 0⟩ : Vec4 ℝ)).x *
                (Vec4.lengthTinyScaled (⟨0, 1, -1, 0⟩ : Vec4 ℝ)).x +
                (Vec4.lengthTinyScaled (⟨0, 1, -1, 0⟩ : Vec4 ℝ)).y *
                (Vec4.lengthTinyScaled (⟨0, 1, -1, 0⟩ : Vec4 ℝ)).y +
                (Vec4.lengthTinyScaled (⟨0, 1, -1, 0⟩ : Vec4 ℝ)).z *
                (Vec4.lengthTinyScaled (⟨0, 1, -1, 0⟩ : Vec4 ℝ)).z +
                (Vec4.lengthTinyScaled (⟨0, 1, -1, 0⟩ : Vec4 ℝ)).w *
                (Vec4.lengthTinyScaled (⟨0, 1, -1, 0⟩ : Vec4 ℝ)).w)) ∧
        (0 ≤ |(⟨0, 1, -1, 0⟩ : Vec4 ℝ).x| / Vec4.lengthTinyMax (⟨0, 1, -1, 0⟩ : Vec4 ℝ) ∧
          |(⟨0, 1, -1, 0⟩ : Vec4 ℝ).x| / Vec4.lengthTinyMax (⟨0, 1, -1, 0⟩ : Vec4 ℝ) ≤ 1) ∧
        (0 ≤ |(⟨0, 1, -1, 0⟩ : Vec4 ℝ).y| / Vec4.lengthTinyMax (⟨0, 1, -1, 0⟩ : Vec4 ℝ) ∧
          |(⟨0, 1, -1, 0⟩ : Vec4 ℝ).y| / Vec4.lengthTinyMax (⟨0, 1, -1, 0⟩ : Vec4 ℝ) ≤ 1) ∧
        (0 ≤ |(⟨0, 1, -1, 0⟩ : Vec4 ℝ).z| / Vec4.lengthTinyMax (⟨0, 1, -1, 0⟩ : Vec4 ℝ) ∧
          |(⟨0, 1, -1, 0⟩ : Vec4 ℝ).z| / Vec4.lengthTinyMax (⟨0, 1, -1, 0⟩ : Vec4 ℝ) ≤ 1) ∧
        (0 ≤ |(⟨0, 1, -1, 0⟩ : Vec4 ℝ).w| / Vec4.lengthTinyMax (⟨0, 1, -1, 0⟩ : Vec4 ℝ) ∧
          |(⟨0, 1, -1, 0⟩ : Vec4 ℝ).w| / Vec4.lengthTinyMax (⟨0, 1, -1, 0⟩ : Vec4 ℝ) ≤ 1) ∧
        (|(⟨0, 1, -1, 0⟩ : Vec4 ℝ).x| / Vec4.lengthTinyMax (⟨0, 1, -1, 0⟩ : Vec4 ℝ) = 1 ∨
          |(⟨0, 1, -1, 0⟩ : Vec4 ℝ).y| / Vec4.lengthTinyMax (⟨0, 1, -1, 0⟩ : Vec4 ℝ) = 1 ∨
          |(⟨0, 1, -1, 0⟩ : Vec4 ℝ).z| / Vec4.lengthTinyMax (⟨0, 1, -1, 0⟩ : Vec4 ℝ) = 1 ∨
          |(⟨0, 1, -1, 0⟩ : Vec4 ℝ).w| / Vec4.lengthTinyMax (⟨0, 1, -1, 0⟩ : Vec4 ℝ) = 1)) := by
  have h2 : Vec2.lengthTinyMax (⟨3, -4⟩ : Vec2 ℝ) ≠ 0 := by
    rw [vec2_lengthTinyMax_eq]
    intro h
    exact absurd (congrArg Vec2.x ((vec2_maxAbs_eq_zero_iff _).mp h)) (by norm_num)
  have h3 : Vec3.lengthTinyMax (⟨1, -2, 2⟩ : Vec3 ℝ) ≠ 0 := by
    rw [vec3_lengthTinyMax_eq]
    intro h
    exact absurd (congrArg Vec3.x ((vec3_maxAbs_eq_zero_iff _).mp h)) (by norm_num)
  have h4 : Vec4.lengthTinyMax (⟨0, 1, -1, 0⟩ : Vec4 ℝ) ≠ 0 := by
    rw [vec4_lengthTinyMax_eq]
    intro h
    exact absurd (congrArg Vec4.y ((vec4_maxAbs_eq_zero_iff _).mp h)) (by norm_num)
  exact ⟨⟨h2, ((lengthTiny_scaled_bounds ⟨3, -4⟩ ⟨1, -2, 2⟩ ⟨0, 1, -1, 0⟩).1).1 Real.sqrt,
      ((lengthTiny_scaled_bounds ⟨3, -4⟩ ⟨1, -2, 2⟩ ⟨0, 1, -1, 0⟩).1).2.2 h2⟩,
    ⟨h3, ((lengthTiny_scaled_bounds ⟨3, -4⟩ ⟨1, -2, 2⟩ ⟨0, 1, -1, 0⟩).2.1).1 Real.sqrt,
      ((lengthTiny_scaled_bounds ⟨3, -4⟩ ⟨1, -2, 2⟩ ⟨0, 1, -1, 0⟩).2.1).2.2 h3⟩,
    ⟨h4, ((lengthTiny_scaled_bounds ⟨3, -4⟩ ⟨1, -2, 2⟩ ⟨0, 1, -1, 0⟩).2.2).1 Real.sqrt,
      ((lengthTiny_scaled_bounds ⟨3, -4⟩ ⟨1, -2, 2⟩ ⟨0, 1, -1, 0⟩).2.2).2.2 h4⟩⟩

/-- C35: for `N` = 2, 3, 4 and every vector whose `length` is not 0, with `sqrt` the
non-negative square root, every `v[i] / v.length ()` is at most 1 in absolute value, and
these are the components `normalize` leaves in the vector. -/
theorem normalize_components_le_one (sqrt : K → K) (smallest : K)
    (hsqrt : ∀ d : K, 0 ≤ d → SqrtAt sqrt d) (v2 : Vec2 K) (v3 : Vec3 K) (v4 : Vec4 K) :
    (v2.length sqrt smallest ≠ 0 →
        (|v2.x / v2.length sqrt smallest| ≤ 1 ∧ |v2.y / v2.length sqrt smallest| ≤ 1) ∧
          |(v2.normalize sqrt smallest).x| ≤ 1 ∧
          |(v2.normalize sqrt smallest).y| ≤ 1) ∧
      (v3.length sqrt smallest ≠ 0 →
        (|v3.x / v3.length sqrt smallest| ≤ 1 ∧ |v3.y / v3.length sqrt smallest| ≤ 1 ∧
            |v3.z / v3.length sqrt smallest| ≤ 1) ∧
          |(v3.normalize sqrt smallest).x| ≤ 1 ∧
          |(v3.normalize sqrt smallest).y| ≤ 1 ∧
          |(v3.normalize sqrt smallest).z| ≤ 1) ∧
      (v4.length sqrt smallest ≠ 0 →
        (|v4.x / v4.length sqrt smallest| ≤ 1 ∧ |v4.y / v4.length sqrt smallest| ≤ 1 ∧
            |v4.z / v4.length sqrt smallest| ≤ 1 ∧ |v4.w / v4.length sqrt smallest| ≤ 1) ∧
          |(v4.normalize sqrt smallest).x| ≤ 1 ∧
          |(v4.normalize sqrt smallest).y| ≤ 1 ∧
          |(v4.normalize sqrt smallest).z| ≤ 1 ∧
          |(v4.normalize sqrt smallest).w| ≤ 1) := by
  refine ⟨fun h => ?_, fun h => ?_, fun h => ?_⟩
  · have hd := vec2_abs_div_length_le_one sqrt smallest hsqrt v2 h
    refine ⟨hd, ?_⟩
    rw [(vec2_normalize_family sqrt smallest v2 h).1]
    exact hd
  · have hd := vec3_abs_div_length_le_one sqrt smallest hsqrt v3 h
    refine ⟨hd, ?_⟩
    rw [(vec3_normalize_family sqrt smallest v3 h).1]
    exact hd
  · have hd := vec4_abs_div_length_le_one sqrt smallest hsqrt v4 h
    refine ⟨hd, ?_⟩
    rw [(vec4_normalize_family sqrt smallest v4 h).1]
    exact hd

/-- Witness of C35 over the reals with the real square root and `smallest = 2^(-126)`, at
`(3, 4)`, `(1, 2, 2)` and `(1, 1, 1, 1)`. -/
theorem normalize_components_le_one_witness :
    (Vec2.length Real.sqrt (1 / 2 ^ 126) (⟨3, 4⟩ : Vec2 ℝ) ≠ 0 ∧
        |(⟨3, 4⟩ : Vec2 ℝ).x / Vec2.length Real.sqrt (1 / 2 ^ 126) (⟨3, 4⟩ : Vec2 ℝ)| ≤ 1 ∧
        |(⟨3, 4⟩ : Vec2 ℝ).y / Vec2.length Real.sqrt (1 / 2 ^ 126) (⟨3, 4⟩ : Vec2 ℝ)| ≤ 1) ∧
      (Vec3.length Real.sqrt (1 / 2 ^ 126) (⟨1, 2, 2⟩ : Vec3 ℝ) ≠ 0 ∧
        |(⟨1, 2, 2⟩ : Vec3 ℝ).x / Vec3.length Real.sqrt (1 / 2 ^ 126) (⟨1, 2, 2⟩ : Vec3 ℝ)| ≤ 1 ∧
        |(⟨1, 2, 2⟩ : Vec3 ℝ).y / Vec3.length Real.sqrt (1 / 2 ^ 126) (⟨1, 2, 2⟩ : Vec3 ℝ)| ≤ 1 ∧
        |(⟨1, 2, 2⟩ : Vec3 ℝ).z / Vec3.length Real.sqrt (1 / 2 ^ 126) (⟨1, 2, 2⟩ : Vec3 ℝ)| ≤ 1) ∧
      (Vec4.length Real.sqrt (1 / 2 ^ 126) (⟨1, 1, 1, 1⟩ : Vec4 ℝ) ≠ 0 ∧
        |(⟨1, 1, 1, 1⟩ : Vec4 ℝ).x / Vec4.length Real.sqrt (1 / 2 ^ 126) (⟨1, 1, 1,
            1⟩ : Vec4 ℝ)| ≤ 1 ∧
        |(⟨1, 1, 1, 1⟩ : Vec4 ℝ).y / Vec4.length Real.sqrt (1 / 2 ^ 126) (⟨1, 1, 1,
            1⟩ : Vec4 ℝ)| ≤ 1 ∧
        |(⟨1, 1, 1, 1⟩ : Vec4 ℝ).z / Vec4.length Real.sqrt (1 / 2 ^ 126) (⟨1, 1, 1,
            1⟩ : Vec4 ℝ)| ≤ 1 ∧
        |(⟨1, 1, 1, 1⟩ : Vec4 ℝ).w / Vec4.length Real.sqrt (1 / 2 ^ 126) (⟨1, 1, 1,
            1⟩ : Vec4 ℝ)| ≤ 1) := by
  have h2 : Vec2.length Real.sqrt (1 / 2 ^ 126) (⟨3, 4⟩ : Vec2 ℝ) ≠ 0 := fun h =>
    absurd (congrArg Vec2.x ((vec2_length_eq_zero_iff Real.sqrt _ sqrtAt_real _).mp h))
      (by norm_num)
  have h3 : Vec3.length Real.sqrt (1 / 2 ^ 126) (⟨1, 2, 2⟩ : Vec3 ℝ) ≠ 0 := fun h =>
    absurd (congrArg Vec3.x ((vec3_length_eq_zero_iff Real.sqrt _ sqrtAt_real _).mp h))
      (by norm_num)
  have h4 : Vec4.length Real.sqrt (1 / 2 ^ 126) (⟨1, 1, 1, 1⟩ : Vec4 ℝ) ≠ 0 := fun h =>
    absurd (congrArg Vec4.x ((vec4_length_eq_zero_iff Real.sqrt _ sqrtAt_real _).mp h))
      (by norm_num)
  exact ⟨⟨h2, (((normalize_components_le_one Real.sqrt (1 / 2 ^ 126) sqrtAt_real ⟨3, 4⟩ ⟨1, 2, 2⟩
      ⟨1, 1, 1, 1⟩).1) h2).1⟩,
    ⟨h3, (((normalize_components_le_one Real.sqrt (1 / 2 ^ 126) sqrtAt_real ⟨3, 4⟩ ⟨1, 2, 2⟩
      ⟨1, 1, 1, 1⟩).2.1) h3).1⟩,
    ⟨h4, (((normalize_components_le_one Real.sqrt (1 / 2 ^ 126) sqrtAt_real ⟨3, 4⟩ ⟨1, 2, 2⟩
      ⟨1, 1, 1, 1⟩).2.2) h4).1⟩⟩

/-- C36: for `N` = 2, 3, 4, whenever `normalizeExc` raises its domain error, the
receiver holds when the call ends what it held before the call. -/
theorem normalizeExc_atomic (sqrt : K → K) (smallest : K)
    (v2 : Vec2 K) (v3 : Vec3 K) (v4 : Vec4 K) :
    ((∀ msg : String, v2.normalizeExc sqrt smallest = Except.error msg →
          v2.normalizeExcReceiver sqrt smallest = (v2, some msg)) ∧
        ((v2.normalizeExcReceiver sqrt smallest).2 ≠ none →
          (v2.normalizeExcReceiver sqrt smallest).1 = v2)) ∧
      ((∀ msg : String, v3.normalizeExc sqrt smallest = Except.error msg →
          v3.normalizeExcReceiver sqrt smallest = (v3, some msg)) ∧
        ((v3.normalizeExcReceiver sqrt smallest).2 ≠ none →
          (v3.normalizeExcReceiver sqrt smallest).1 = v3)) ∧
      ((∀ msg : String, v4.normalizeExc sqrt smallest = Except.error msg →
          v4.normalizeExcReceiver sqrt smallest = (v4, some msg)) ∧
        ((v4.normalizeExcReceiver sqrt smallest).2 ≠ none →
          (v4.normalizeExcReceiver sqrt smallest).1 = v4)) := by
  refine ⟨?_, ?_, ?_⟩
  · rcases vec2_normalizeExcReceiver_cases sqrt smallest v2 with ⟨-, hr, he⟩ | ⟨-, hr, he⟩
    · refine ⟨fun msg hm => ?_, fun _ => by rw [hr]⟩
      rw [he] at hm
      rw [hr, ← Except.error.inj hm]
    · refine ⟨fun msg hm => ?_, fun hn => absurd (by rw [hr]) hn⟩
      rw [he] at hm
      exact absurd hm (by simp)
  · rcases vec3_normalizeExcReceiver_cases sqrt smallest v3 with ⟨-, hr, he⟩ | ⟨-, hr, he⟩
    · refine ⟨fun msg hm => ?_, fun _ => by rw [hr]⟩
      rw [he] at hm
      rw [hr, ← Except.error.inj hm]
    · refine ⟨fun msg hm => ?_, fun hn => absurd (by rw [hr]) hn⟩
      rw [he] at hm
      exact absurd hm (by simp)
  · rcases vec4_normalizeExcReceiver_cases sqrt smallest v4 with ⟨-, hr, he⟩ | ⟨-, hr, he⟩
    · refine ⟨fun msg hm => ?_, fun _ => by rw [hr]⟩
      rw [he] at hm
      rw [hr, ← Except.error.inj hm]
    · refine ⟨fun msg hm => ?_, fun hn => absurd (by rw [hr]) hn⟩
      rw [he] at hm
      exact absurd hm (by simp)

/-- Witness of C36 over the reals with the real square root and `smallest = 2^(-126)`: on
the null vectors `normalizeExc` raises and leaves the receiver null. -/
theorem normalizeExc_atomic_witness :
    Vec2.normalizeExcReceiver Real.sqrt (1 / 2 ^ 126) (⟨0, 0⟩ : Vec2 ℝ) =
        ((⟨0, 0⟩ : Vec2 ℝ), some "Cannot normalize null vector.") ∧
      Vec3.normalizeExcReceiver Real.sqrt (1 / 2 ^ 126) (⟨0, 0, 0⟩ : Vec3 ℝ) =
        ((⟨0, 0, 0⟩ : Vec3 ℝ), some "Cannot normalize null vector.") ∧
      Vec4.normalizeExcReceiver Real.sqrt (1 / 2 ^ 126) (⟨0, 0, 0, 0⟩ : Vec4 ℝ) =
        ((⟨0, 0, 0, 0⟩ : Vec4 ℝ), some "Cannot normalize null vector.") :=
  ⟨(((normalizeExc_atomic Real.sqrt (1 / 2 ^ 126) ⟨0, 0⟩ ⟨0, 0, 0⟩ ⟨0, 0, 0, 0⟩).1).1 _
      ((vec2_exc_outcomes Real.sqrt _ _).1.mpr
        ((vec2_length_eq_zero_iff Real.sqrt _ sqrtAt_real _).mpr rfl))),
    (((normalizeExc_atomic Real.sqrt (1 / 2 ^ 126) ⟨0, 0⟩ ⟨0, 0, 0⟩ ⟨0, 0, 0, 0⟩).2.1).1 _
      ((vec3_exc_outcomes Real.sqrt _ _).1.mpr
        ((vec3_length_eq_zero_iff Real.sqrt _ sqrtAt_real _).mpr rfl))),
    (((normalizeExc_atomic Real.sqrt (1 / 2 ^ 126) ⟨0, 0⟩ ⟨0, 0, 0⟩ ⟨0, 0, 0, 0⟩).2.2).1 _
      ((vec4_exc_outcomes Real.sqrt _ _).1.mpr
        ((vec4_length_eq_zero_iff Real.sqrt _ sqrtAt_real _).mpr rfl)))⟩

/-- C37: for `N` = 2, 3, 4 and every vector, the null vector included, with `sqrt` the
non-negative square root, the normalized vector times the length is the vector, and
normalizing the normalized vector gives the normalized vector. -/
theorem normalized_times_length (sqrt : K → K) (smallest : K)
    (hsqrt : ∀ d : K, 0 ≤ d → SqrtAt sqrt d) (v2 : Vec2 K) (v3 : Vec3 K) (v4 : Vec4 K) :
    ((v2.normalized sqrt smallest).mulScalar (v2.length sqrt smallest) = v2 ∧
        (v2.normalized sqrt smallest).normalized sqrt smallest =
          v2.normalized sqrt smallest) ∧
      ((v3.normalized sqrt smallest).mulScalar (v3.length sqrt smallest) = v3 ∧
        (v3.normalized sqrt smallest).normalized sqrt smallest =
          v3.normalized sqrt smallest) ∧
      ((v4.normalized sqrt smallest).mulScalar (v4.length sqrt smallest) = v4 ∧
        (v4.normalized sqrt smallest).normalized sqrt smallest =
          v4.normalized sqrt smallest) :=
  ⟨⟨vec2_normalized_mulScalar sqrt smallest hsqrt v2,
      vec2_normalized_idem sqrt smallest hsqrt v2⟩,
    ⟨vec3_normalized_mulScalar sqrt smallest hsqrt v3,
      vec3_normalized_idem sqrt smallest hsqrt v3⟩,
    ⟨vec4_normalized_mulScalar sqrt smallest hsqrt v4,
      vec4_normalized_idem sqrt smallest hsqrt v4⟩⟩

/-- Witness of C37 over the reals with the real square root and `smallest = 2^(-126)`, at
the null `Vec2`, `(1, 2, 2)` and `(1, 1, 1, 1)`. -/
theorem normalized_times_length_witness :
    (Vec2.mulScalar (Vec2.normalized Real.sqrt (1 / 2 ^ 126) (⟨0, 0⟩ : Vec2 ℝ))
          (Vec2.length Real.sqrt (1 / 2 ^ 126) (⟨0, 0⟩ : Vec2 ℝ)) = (⟨0, 0⟩ : Vec2 ℝ) ∧
        Vec2.normalized Real.sqrt (1 / 2 ^ 126) (Vec2.normalized Real.sqrt (1 / 2 ^ 126) (⟨0,
            0⟩ : Vec2 ℝ)) =
          Vec2.normalized Real.sqrt (1 / 2 ^ 126) (⟨0, 0⟩ : Vec2 ℝ)) ∧
      (Vec3.mulScalar (Vec3.normalized Real.sqrt (1 / 2 ^ 126) (⟨1, 2, 2⟩ : Vec3 ℝ))
          (Vec3.length Real.sqrt (1 / 2 ^ 126) (⟨1, 2, 2⟩ : Vec3 ℝ)) = (⟨1, 2, 2⟩ : Vec3 ℝ) ∧
        Vec3.normalized Real.sqrt (1 / 2 ^ 126) (Vec3.normalized Real.sqrt (1 / 2 ^ 126) (⟨1, 2,
            2⟩ : Vec3 ℝ)) =
          Vec3.normalized Real.sqrt (1 / 2 ^ 126) (⟨1, 2, 2⟩ : Vec3 ℝ)) ∧
      (Vec4.mulScalar (Vec4.normalized Real.sqrt (1 / 2 ^ 126) (⟨1, 1, 1, 1⟩ : Vec4 ℝ))
          (Vec4.length Real.sqrt (1 / 2 ^ 126) (⟨1, 1, 1, 1⟩ : Vec4 ℝ)) = (⟨1, 1, 1, 1⟩ : Vec4 ℝ) ∧
        Vec4.normalized Real.sqrt (1 / 2 ^ 126) (Vec4.normalized Real.sqrt (1 / 2 ^ 126) (⟨1, 1,
            1, 1⟩ : Vec4 ℝ)) =
          Vec4.normalized Real.sqrt (1 / 2 ^ 126) (⟨1, 1, 1, 1⟩ : Vec4 ℝ)) :=
  normalized_times_length Real.sqrt (1 / 2 ^ 126) sqrtAt_real ⟨0, 0⟩ ⟨1, 2, 2⟩ ⟨1, 1, 1, 1⟩

/-- C38: for `N` = 2, 3, 4, every vector and every `smallest`, with `sqrt` the
non-negative square root, `length` is not negative, and it is 0 exactly when every
component of the vector is zero. -/
theorem length_nonneg_zero_iff (sqrt : K → K) (smallest : K)
    (hsqrt : ∀ d : K, 0 ≤ d → SqrtAt sqrt d) (v2 : Vec2 K) (v3 : Vec3 K) (v4 : Vec4 K) :
    (0 ≤ v2.length sqrt smallest ∧
        (v2.length sqrt smallest = 0 ↔ v2.x = 0 ∧ v2.y = 0)) ∧
      (0 ≤ v3.length sqrt smallest ∧
        (v3.length sqrt smallest = 0 ↔ v3.x = 0 ∧ v3.y = 0 ∧ v3.z = 0)) ∧
      (0 ≤ v4.length sqrt smallest ∧
        (v4.length sqrt smallest = 0 ↔ v4.x = 0 ∧ v4.y = 0 ∧ v4.z = 0 ∧ v4.w = 0)) := by
  refine ⟨⟨vec2_length_nonneg sqrt smallest hsqrt v2, ?_⟩,
    ⟨vec3_length_nonneg sqrt smallest hsqrt v3, ?_⟩,
    ⟨vec4_length_nonneg sqrt smallest hsqrt v4, ?_⟩⟩
  · rw [vec2_length_eq_zero_iff sqrt smallest hsqrt]
    cases v2
    simp
  · rw [vec3_length_eq_zero_iff sqrt smallest hsqrt]
    cases v3
    simp
  · rw [vec4_length_eq_zero_iff sqrt smallest hsqrt]
    cases v4
    simp

/-- Witness of C38 over the reals with the real square root and `smallest = 2^(-126)`, at
the null `Vec2`, `(1, 2, 2)` and `(1, 1, 1, 1)`. -/
theorem length_nonneg_zero_iff_witness :
    (0 ≤ Vec2.length Real.sqrt (1 / 2 ^ 126) (⟨0, 0⟩ : Vec2 ℝ) ∧
        (Vec2.length Real.sqrt (1 / 2 ^ 126) (⟨0, 0⟩ : Vec2 ℝ) = 0 ↔
          (⟨0, 0⟩ : Vec2 ℝ).x = 0 ∧ (⟨0, 0⟩ : Vec2 ℝ).y = 0)) ∧
      (0 ≤ Vec3.length Real.sqrt (1 / 2 ^ 126) (⟨1, 2, 2⟩ : Vec3 ℝ) ∧
        (Vec3.length Real.sqrt (1 / 2 ^ 126) (⟨1, 2, 2⟩ : Vec3 ℝ) = 0 ↔
          (⟨1, 2, 2⟩ : Vec3 ℝ).x = 0 ∧ (⟨1, 2, 2⟩ : Vec3 ℝ).y = 0 ∧ (⟨1, 2, 2⟩ : Vec3 ℝ).z = 0)) ∧
      (0 ≤ Vec4.length Real.sqrt (1 / 2 ^ 126) (⟨1, 1, 1, 1⟩ : Vec4 ℝ) ∧
        (Vec4.length Real.sqrt (1 / 2 ^ 126) (⟨1, 1, 1, 1⟩ : Vec4 ℝ) = 0 ↔
          (⟨1, 1, 1, 1⟩ : Vec4 ℝ).x = 0 ∧ (⟨1, 1, 1, 1⟩ : Vec4 ℝ).y = 0 ∧ (⟨1, 1, 1,
              1⟩ : Vec4 ℝ).z = 0 ∧ (⟨1, 1, 1, 1⟩ : Vec4 ℝ).w = 0)) :=
  length_nonneg_zero_iff Real.sqrt (1 / 2 ^ 126) sqrtAt_real ⟨0, 0⟩ ⟨1, 2, 2⟩ ⟨1, 1, 1, 1⟩

end Imath
